import Mathlib

/-!
# bytom-spv: chain state machine and block keeper

A shallow embedding of `protocol/block.go` (block ingestion, orphan promotion,
reorganisation lists), of `netsync/block_keeper.go` (header list, merkle-block
verification, fast sync, regular sync, block locator, sync cycle) and of
`consensus/server_flag.go` (service flags).

Conventions of the embedding

* Go pointers to index nodes are handles: a node is referred to by its hash and
  resolved through the block index (the index is keyed by hash).
* A method that mutates its receiver takes the state and returns the new state.
* A Go interface (`Store`, the netsync `Chain`) is a record of functions over
  an abstract state type, so every theorem holds for every implementation.
* A loop or recursion of the source takes a bound on its passes (fuel); a result of
  `none`, or an outcome `panic` or `unfinished`, stands for a run that does not return
  normally. Theorems about returning runs give the fuel that is enough.
* A `uint64` is a natural number; where the source can wrap (`i--`, `step *= 2`,
  `blockHeight + maxBlockPerMsg`) the operation is taken modulo `2 ^ 64`.
* The packages `protocol/state` (block index, block nodes) and the files
  `protocol/orphan_manage.go` and `protocol/protocol.go` (`setState`) are described by
  the specification only; their definitions are marked `Modelled from the spec`.
-/

namespace Bytom

/-! ## Definitions -/

/-- The type `bc.Hash`: an opaque content identifier with decidable equality. -/
abbrev bc.Hash := Nat

/-- Errors of the `errors` package: the four sentinels of `block_keeper.go`, fresh
errors made by `errors.New`, wrapped errors made by `errors.Wrap`, and errors
produced by an external collaborator (store, chain). -/
inductive Error where
  | errAppendHeaders : Error
  | errRequestTimeout : Error
  | errPeerDropped : Error
  | errPeerMisbehave : Error
  | new (msg : String) : Error
  | wrap (cause : Error) (msg : String) : Error
  | external (code : Nat) : Error
  deriving DecidableEq, Repr

/-- The function `errors.Root`: the innermost wrapped error. -/
def Error.Root : Error → Error
  | Error.wrap cause _ => cause.Root
  | e => e

/-- The type `types.BlockHeader`. The method `Hash()` is a deterministic digest of
the serialised header whose code is outside the embedded files; the header carries
its value in the field `Hash`. -/
structure BlockHeader where
  Hash : bc.Hash
  Version : Nat
  Height : Nat
  PreviousBlockHash : bc.Hash
  Timestamp : Nat
  Bits : Nat
  TransactionsMerkleRoot : bc.Hash
  TransactionStatusHash : bc.Hash
  deriving DecidableEq, Repr

/-- The type `types.Tx`, reduced to its identifier. -/
structure Tx where
  ID : bc.Hash
  deriving DecidableEq, Repr

/-- The type `bc.TxVerifyResult`. -/
structure TxVerifyResult where
  StatusFail : Bool
  deriving DecidableEq, Repr

/-- The type `bc.TransactionStatus`. -/
structure TransactionStatus where
  VerifyStatus : List TxVerifyResult
  deriving DecidableEq, Repr

/-- The type `types.Block`: a header (embedded, as in Go) and transactions. -/
structure Block extends BlockHeader where
  Transactions : List Tx
  deriving DecidableEq, Repr

/-- Modelled from the spec: the type `state.BlockNode` (package `protocol/state` is
not among the embedded files). The parent is a handle resolved through the index. -/
structure BlockNode where
  Parent : Option bc.Hash
  Hash : bc.Hash
  Height : Nat
  Bits : Nat
  WorkSum : Nat
  deriving DecidableEq, Repr

/-- Modelled from the spec: `state.NewBlockNode`, the node-creating half of the
spec's `add(header, parent_handle)`: it rejects when the parent is not known or when
`header.height ≠ parent.height + 1`, and otherwise builds the node with
`work_sum = parent.work_sum + work(header.bits)`. -/
def NewBlockNode (CalcWork : Nat → Nat) (bh : BlockHeader) (parent : Option BlockNode) :
    Except Error BlockNode :=
  match parent with
  | none => Except.error (Error.new "parent node can not be nil")
  | some p =>
    if bh.Height = p.Height + 1 then
      Except.ok
        { Parent := some p.Hash, Hash := bh.Hash, Height := bh.Height, Bits := bh.Bits,
          WorkSum := p.WorkSum + CalcWork bh.Bits }
    else Except.error (Error.new "block height does not follow the parent")

/-- Modelled from the spec: the type `state.BlockIndex`, `by_hash` as an association
list keyed by `BlockNode.Hash` (newest binding first) and `by_height_main` as the
vector of main-chain handles, position `h` holding the node of height `h`. -/
structure BlockIndex where
  index : List BlockNode
  mainChain : List bc.Hash
  deriving DecidableEq, Repr

/-- Modelled from the spec: `BlockIndex.get(hash)`. -/
def BlockIndex.GetNode (bi : BlockIndex) (hash : bc.Hash) : Option BlockNode :=
  bi.index.find? (fun n => decide (n.Hash = hash))

/-- Modelled from the spec: `BlockIndex.block_exists(hash)`. -/
def BlockIndex.BlockExist (bi : BlockIndex) (hash : bc.Hash) : Bool :=
  (bi.GetNode hash).isSome

/-- Modelled from the spec: `BlockIndex.node_by_height(h)`, the main-chain node at
height `h`, or none. -/
def BlockIndex.NodeByHeight (bi : BlockIndex) (height : Nat) : Option BlockNode :=
  match bi.mainChain.get? height with
  | none => none
  | some h => bi.GetNode h

/-- Modelled from the spec: the inserting half of `add`; it binds the node under its
hash and does not place it on the main chain. -/
def BlockIndex.AddNode (bi : BlockIndex) (node : BlockNode) : BlockIndex :=
  { bi with index := node :: bi.index }

/-- Handles met when following parents from a handle, the starting one first. -/
def BlockIndex.parentPath (bi : BlockIndex) : Nat → Option bc.Hash → List bc.Hash
  | 0, _ => []
  | _ + 1, none => []
  | fuel + 1, some h =>
    match bi.GetNode h with
    | none => []
    | some n => h :: BlockIndex.parentPath bi fuel n.Parent

/-- Modelled from the spec: `set_main_chain(tip)` rewrites `by_height_main` to follow
parents from the tip to genesis. -/
def BlockIndex.SetMainChain (bi : BlockIndex) (node : BlockNode) : BlockIndex :=
  { bi with mainChain := (bi.parentPath (node.Height + 1) (some node.Hash)).reverse }

/-- Modelled from the spec: the type `OrphanManage` (`protocol/orphan_manage.go` is
not among the embedded files). The spec keeps two indexes, `by_hash` and `by_parent`,
that removal purges together; the model stores the blocks once, in insertion order,
and reads `by_parent` off the stored blocks. The pool is unbounded (no eviction). -/
structure OrphanManage where
  orphan : List Block
  deriving DecidableEq, Repr

/-- Modelled from the spec: `OrphanPool.get(hash)`. -/
def OrphanManage.Get (o : OrphanManage) (hash : bc.Hash) : Option Block :=
  o.orphan.find? (fun b => decide (b.Hash = hash))

/-- Modelled from the spec: `OrphanPool.block_exists(hash)`. -/
def OrphanManage.BlockExist (o : OrphanManage) (hash : bc.Hash) : Bool :=
  (o.Get hash).isSome

/-- Modelled from the spec: `OrphanPool.add(block)` stores the block if not present
and indexes it by `block.previous_hash`. -/
def OrphanManage.Add (o : OrphanManage) (block : Block) : OrphanManage :=
  if o.BlockExist block.Hash then o else { orphan := o.orphan ++ [block] }

/-- Modelled from the spec: `OrphanPool.remove(hash)` removes the block and updates
the parent index. -/
def OrphanManage.Delete (o : OrphanManage) (hash : bc.Hash) : OrphanManage :=
  { orphan := o.orphan.filter (fun b => !decide (b.Hash = hash)) }

/-- Modelled from the spec: `OrphanPool.get_children_of(parent_hash)`; the second
result of the Go call is false (here `none`) when the parent has no entry. -/
def OrphanManage.GetPrevOrphans (o : OrphanManage) (hash : bc.Hash) : Option (List bc.Hash) :=
  match (o.orphan.filter (fun b => decide (b.PreviousBlockHash = hash))).map (fun b => b.Hash) with
  | [] => none
  | l => some l

/-- The interface `protocol.Store` (`protocol/store.go`), the two methods that write:
each returns the store after the call and the error, if any. -/
structure Store (σ : Type) where
  SaveBlock : σ → Block → Option TransactionStatus → σ × Option Error
  SaveChainStatus : σ → BlockNode → σ × Option Error

/-- The fields of `protocol.Chain` that `block.go` reads and writes. -/
structure Chain (σ : Type) where
  index : BlockIndex
  orphanManage : OrphanManage
  bestNode : BlockNode
  store : σ
  deriving DecidableEq, Repr

section protocol

variable {σ : Type} (S : Store σ) (CalcWork : Nat → Nat)

/-- The method `Chain.BlockExist` of `block.go`. -/
def Chain.BlockExist (c : Chain σ) (hash : bc.Hash) : Bool :=
  c.index.BlockExist hash || c.orphanManage.BlockExist hash

/-- Modelled from the spec: `set_state(node)` writes the new chain status to the
store and commits `set_main_chain(node)` and the best node; a storage error bubbles
up and nothing is committed. The attach and detach lists it recomputes are
`calcReorganizeNodes` below; they do not enter the committed state. -/
def setState (c : Chain σ) (node : BlockNode) : Chain σ × Option Error :=
  match S.SaveChainStatus c.store node with
  | (st, some err) => ({ c with store := st }, some err)
  | (st, none) =>
    ({ c with store := st, index := c.index.SetMainChain node, bestNode := node }, none)

/-- The method `Chain.connectBlock`; `types.MapBlock(block).ID` is the block hash. A
missing node is a nil dereference. -/
def connectBlock (c : Chain σ) (block : Block) : Option (Chain σ × Option Error) :=
  match c.index.GetNode block.Hash with
  | none => none
  | some node => some (setState S c node)

/-- The method `Chain.reorganizeChain`. -/
def reorganizeChain (c : Chain σ) (node : BlockNode) : Chain σ × Option Error :=
  setState S c node

/-- The method `Chain.saveBlock`. -/
def saveBlock (c : Chain σ) (block : Block) (txStatus : Option TransactionStatus) :
    Chain σ × Option Error :=
  let parent := c.index.GetNode block.PreviousBlockHash
  match S.SaveBlock c.store block txStatus with
  | (st, some err) => ({ c with store := st }, some err)
  | (st, none) =>
    let c1 : Chain σ := { c with store := st, orphanManage := c.orphanManage.Delete block.Hash }
    match NewBlockNode CalcWork block.toBlockHeader parent with
    | Except.error err => (c1, some err)
    | Except.ok node => ({ c1 with index := c1.index.AddNode node }, none)

/-- The `for _, prevOrphan := range prevOrphans` loop of `saveSubBlock`; `recur` is
the recursive call. -/
def saveSubBlockLoop (recur : Chain σ → Block → Option (Chain σ × Block))
    (txStatus : Option TransactionStatus) :
    List bc.Hash → Chain σ → Block → Option (Chain σ × Block)
  | [], c, bestBlock => some (c, bestBlock)
  | prevOrphan :: rest, c, bestBlock =>
    match c.orphanManage.Get prevOrphan with
    | none => saveSubBlockLoop recur txStatus rest c bestBlock
    | some orphanBlock =>
      match saveBlock S CalcWork c orphanBlock txStatus with
      | (c1, some _) => saveSubBlockLoop recur txStatus rest c1 bestBlock
      | (c1, none) =>
        match recur c1 orphanBlock with
        | none => none
        | some (c2, subBestBlock) =>
          saveSubBlockLoop recur txStatus rest c2
            (if subBestBlock.Height > bestBlock.Height then subBestBlock else bestBlock)

/-- The method `Chain.saveSubBlock`; the first argument bounds the recursion depth. -/
def saveSubBlock : Nat → Chain σ → Block → Option TransactionStatus → Option (Chain σ × Block)
  | 0, _, _, _ => none
  | fuel + 1, c, block, txStatus =>
    match c.orphanManage.GetPrevOrphans block.Hash with
    | none => some (c, block)
    | some prevOrphans =>
      saveSubBlockLoop S CalcWork (fun c1 b => saveSubBlock fuel c1 b txStatus) txStatus
        prevOrphans c block

/-- The method `Chain.processBlock`: the chain after the call, `isOrphan` and the
error. The recursion of `saveSubBlock` is given one unit of depth per orphan in the
pool, plus one. -/
def processBlock (c : Chain σ) (block : Block) (txStatus : Option TransactionStatus) :
    Option (Chain σ × Bool × Option Error) :=
  if c.BlockExist block.Hash then
    some (c, c.orphanManage.BlockExist block.Hash, none)
  else
    match c.index.GetNode block.PreviousBlockHash with
    | none => some ({ c with orphanManage := c.orphanManage.Add block }, true, none)
    | some _ =>
      match saveBlock S CalcWork c block txStatus with
      | (c1, some err) => some (c1, false, some err)
      | (c1, none) =>
        match saveSubBlock S CalcWork (c1.orphanManage.orphan.length + 1) c1 block txStatus with
        | none => none
        | some (c2, bestBlock) =>
          match c2.index.GetNode bestBlock.Hash with
          | none => none
          | some bestNode =>
            if bestNode.Parent = some c2.bestNode.Hash then
              match connectBlock S c2 bestBlock with
              | none => none
              | some (c3, err) => some (c3, false, err)
            else if bestNode.Height > c2.bestNode.Height ∧ bestNode.WorkSum ≥ c2.bestNode.WorkSum then
              match reorganizeChain S c2 bestNode with
              | (c3, err) => some (c3, false, err)
            else some (c2, false, none)

/-- A block is settled in a chain when the index binds its hash to a node of the
block's height and the orphan pool holds no block of that hash. -/
def Indexed (c : Chain σ) (b : Block) : Prop :=
  (∃ n, c.index.GetNode b.Hash = some n ∧ n.Height = b.Height) ∧
    c.orphanManage.BlockExist b.Hash = false

/-- What a run of orphan promotion from chain `c` with running best block `b` to chain
`c'` with best block `b'` guarantees; `added` are the index nodes the run created,
`P` is a set of blocks the store never refuses and `R` what is known of the orphans
that remain. -/
structure Promoted (P R : Block → Prop) (c : Chain σ) (b : Block) (c' : Chain σ) (b' : Block)
    (added : List BlockNode) : Prop where
  bestNode_eq : c'.bestNode = c.bestNode
  mainChain_eq : c'.index.mainChain = c.index.mainChain
  index_eq : c'.index.index = added ++ c.index.index
  added_le : ∀ n ∈ added, n.Height ≤ b'.Height
  added_orphan : ∀ n ∈ added, ∃ o ∈ c.orphanManage.orphan, o.Hash = n.Hash
  pool_sub : c'.orphanManage.orphan.Sublist c.orphanManage.orphan
  height_le : b.Height ≤ b'.Height
  indexed : Indexed c' b'
  origin : b' = b ∨ b' ∈ c.orphanManage.orphan
  remaining : (∀ o ∈ c.orphanManage.orphan, P o) →
    ∀ o ∈ c'.orphanManage.orphan, R o ∧ ∀ n ∈ added, o.PreviousBlockHash ≠ n.Hash

end protocol

/-! ### Reorganisation (`calcReorganizeNodes`) -/

/-- The node a `Parent` pointer leads to: the handle resolved through the index; `none`
is the nil pointer. -/
def BlockIndex.parentOf (bi : BlockIndex) (n : BlockNode) : Option BlockNode :=
  n.Parent.bind bi.GetNode

/-- The test `c.index.NodeByHeight(node.Height) == node` of `calcReorganizeNodes`: the
node is the main-chain node of its height (pointers compared as handles). -/
def BlockIndex.onMainChain (bi : BlockIndex) (n : BlockNode) : Bool :=
  decide ((bi.NodeByHeight n.Height).map (fun m => m.Hash) = some n.Hash)

/-- The first loop of `calcReorganizeNodes`: it prepends the node to `attachNodes` and
moves to the parent until the node is on the main chain; it returns the list and the
node it stopped at. Testing the loop condition on a nil parent is a nil dereference. -/
def attachLoop (bi : BlockIndex) : Nat → BlockNode → List BlockNode →
    Option (List BlockNode × BlockNode)
  | 0, _, _ => none
  | fuel + 1, attachNode, attachNodes =>
    if bi.onMainChain attachNode then some (attachNodes, attachNode)
    else
      match bi.parentOf attachNode with
      | none => none
      | some parent => attachLoop bi fuel parent (attachNode :: attachNodes)

/-- The second loop of `calcReorganizeNodes`: it appends the node to `detachNodes` and
moves to the parent until it meets `attachNode`. -/
def detachLoop (bi : BlockIndex) (attachNode : BlockNode) : Nat → BlockNode → List BlockNode →
    Option (List BlockNode)
  | 0, _, _ => none
  | fuel + 1, detachNode, detachNodes =>
    if detachNode.Hash = attachNode.Hash then some detachNodes
    else
      match bi.parentOf detachNode with
      | none => none
      | some parent => detachLoop bi attachNode fuel parent (detachNodes ++ [detachNode])

/-- The method `Chain.calcReorganizeNodes`; `fuel` bounds the iterations of each loop. -/
def calcReorganizeNodes {σ : Type} (fuel : Nat) (c : Chain σ) (node : BlockNode) :
    Option (List BlockNode × List BlockNode) :=
  match attachLoop c.index fuel node [] with
  | none => none
  | some (attachNodes, attachNode) =>
    match detachLoop c.index attachNode fuel c.bestNode [] with
    | none => none
    | some detachNodes => some (attachNodes, detachNodes)

/-- The index is a tree rooted at one genesis node: every stored node is the binding
of its own hash, a node without parent has height 0, the parent of any other node is
stored and one lower, and there is one node without parent. -/
def BlockIndex.WellFormed (bi : BlockIndex) : Prop :=
  (∀ n ∈ bi.index, bi.GetNode n.Hash = some n ∧
    ((n.Parent = none ∧ n.Height = 0) ∨
      (bi.parentOf n).map (fun p => p.Height + 1) = some n.Height)) ∧
  ∀ n ∈ bi.index, ∀ m ∈ bi.index, n.Parent = none → m.Parent = none → n = m

/-- The list `l` is the parent path from `top` (included) down to `bottom` (excluded). -/
def BlockIndex.IsParentPath (bi : BlockIndex) (bottom : BlockNode) :
    BlockNode → List BlockNode → Prop
  | top, [] => top = bottom
  | top, x :: l =>
    x = top ∧ top ≠ bottom ∧ ∃ p, bi.parentOf top = some p ∧ BlockIndex.IsParentPath bi bottom p l

instance (bi : BlockIndex) : Decidable bi.WellFormed := by
  unfold BlockIndex.WellFormed
  infer_instance

/-! ### The block keeper (`netsync/block_keeper.go`) -/

/-- The type `consensus.Checkpoint`. -/
structure Checkpoint where
  Height : Nat
  Hash : bc.Hash
  deriving DecidableEq, Repr

/-- The type `types.MerkleBlock`: a header (embedded), the revealed transactions and the
two merkle proofs. `Hash()` is the method of the embedded header. -/
structure MerkleBlock extends BlockHeader where
  Transactions : List Tx
  TxHashes : List bc.Hash
  StatusHashes : List bc.Hash
  RawTxStatuses : List (List Nat)
  Flags : List Nat
  deriving DecidableEq, Repr

/-- The functions of other packages that `VerifyMerkleBlock` calls:
`types.ValidateTxMerkleTreeProof`, `types.ValidateStatusMerkleTreeProof` and
`json.Unmarshal` into a `bc.TxVerifyResult`. -/
structure Validators where
  ValidateTxMerkleTreeProof : List bc.Hash → List Nat → List bc.Hash → bc.Hash → Bool
  ValidateStatusMerkleTreeProof : List bc.Hash → List Nat → List TxVerifyResult → bc.Hash → Bool
  Unmarshal : List Nat → Option TxVerifyResult

/-- The methods of the netsync `Chain` interface that the block keeper calls, over an
abstract chain state. -/
structure ChainAPI (κ : Type) where
  BestBlockHeader : κ → BlockHeader
  BestBlockHeight : κ → Nat
  GetHeaderByHeight : κ → Nat → Except Error BlockHeader
  CalcNextSeed : κ → bc.Hash → Except Error bc.Hash
  ProcessBlock : κ → Block → Option TransactionStatus → κ × Bool × Option Error

/-- What the environment does with one `require...` call: the send to the sync peer
fails, the timer fires before a message of the sync peer arrives, or such a message
arrives. -/
inductive Reply (α : Type) where
  | dropped : Reply α
  | timeout : Reply α
  | ok (msg : α) : Reply α
  deriving DecidableEq, Repr

/-- The state of a `blockKeeper`: the chain, the header list, what the sync peer will
answer to the successive header and merkle-block requests, and two logs: the
`getMerkleBlock` requests sent to the peer and the blocks passed to
`chain.ProcessBlock`, oldest first. -/
structure blockKeeper (κ : Type) where
  chain : κ
  headerList : List BlockHeader
  headersReplies : List (Reply (List BlockHeader))
  merkleReplies : List (Reply MerkleBlock)
  requested : List (Nat × bc.Hash)
  submitted : List (Block × Option TransactionStatus)
  deriving DecidableEq, Repr

/-- How a run of a sync function ends: it returns (with an error or nil), it panics on
a nil dereference, or the fuel given to its loops ran out. -/
inductive Outcome where
  | returned (err : Option Error) : Outcome
  | panic : Outcome
  | unfinished : Outcome
  deriving DecidableEq, Repr

/-- What one pass through a loop decides: go round again, leave the loop, or end the
enclosing function. -/
inductive Step where
  | again : Step
  | leave : Step
  | stop (o : Outcome) : Step
  deriving DecidableEq, Repr

/-- The loop of `appendHeaderList` on the list itself; `none` is the nil dereference of
`Back()` on an empty list. -/
def appendHeaders : List BlockHeader → List BlockHeader → Option (List BlockHeader × Option Error)
  | headerList, [] => some (headerList, none)
  | headerList, header :: rest =>
    match headerList.getLast? with
    | none => none
    | some prevHeader =>
      if prevHeader.Hash ≠ header.PreviousBlockHash then
        some (headerList, some Error.errAppendHeaders)
      else appendHeaders (headerList ++ [header]) rest

/-- The `for i := len(checkpoints) - 2; i >= 0; i--` loop of `nextCheckpoint`, over the
checkpoints below the current candidate, highest first. -/
def nextCheckpointLoop (height : Nat) : List Checkpoint → Checkpoint → Checkpoint
  | [], nextCheckpoint => nextCheckpoint
  | cp :: below, nextCheckpoint =>
    if height ≥ cp.Height then nextCheckpoint else nextCheckpointLoop height below cp

/-- The method `nextCheckpoint`, as a function of `consensus.ActiveNetParams.Checkpoints`
and of the best height. -/
def nextCheckpointOf (checkpoints : List Checkpoint) (height : Nat) : Option Checkpoint :=
  match checkpoints.reverse with
  | [] => none
  | last :: below =>
    if height ≥ last.Height then none else some (nextCheckpointLoop height below last)

section netsync

variable {κ : Type} (A : ChainAPI κ) (V : Validators) (checkpoints : List Checkpoint)

/-- The method `appendHeaderList`. -/
def appendHeaderList (bk : blockKeeper κ) (headers : List BlockHeader) :
    Option (blockKeeper κ × Option Error) :=
  match appendHeaders bk.headerList headers with
  | none => none
  | some (l, err) => some ({ bk with headerList := l }, err)

/-- The method `nextCheckpoint`. -/
def nextCheckpoint (bk : blockKeeper κ) : Option Checkpoint :=
  nextCheckpointOf checkpoints (A.BestBlockHeader bk.chain).Height

/-- The method `resetHeaderState`. -/
def resetHeaderState (bk : blockKeeper κ) : blockKeeper κ :=
  let header := A.BestBlockHeader bk.chain
  if (nextCheckpoint A checkpoints bk).isSome then { bk with headerList := [header] }
  else { bk with headerList := [] }

/-- The method `requireHeaders`: the send may fail (`errPeerDropped`), else the select
loop returns the first message of the sync peer or the timer's error. No reply left
means no message ever arrives, so the timer fires. -/
def requireHeaders (bk : blockKeeper κ) (_locator : List bc.Hash) (_stopHash : bc.Hash) :
    blockKeeper κ × Except Error (List BlockHeader) :=
  match bk.headersReplies with
  | [] => (bk, Except.error (Error.wrap Error.errRequestTimeout "requireHeaders"))
  | Reply.dropped :: rest => ({ bk with headersReplies := rest }, Except.error Error.errPeerDropped)
  | Reply.timeout :: rest =>
    ({ bk with headersReplies := rest },
      Except.error (Error.wrap Error.errRequestTimeout "requireHeaders"))
  | Reply.ok headers :: rest => ({ bk with headersReplies := rest }, Except.ok headers)

/-- The method `requireMerkleBlock`; a nil `hash` is sent as the zero hash. The request
is logged. -/
def requireMerkleBlock (bk : blockKeeper κ) (height : Nat) (hash : Option bc.Hash) :
    blockKeeper κ × Except Error MerkleBlock :=
  let bk1 : blockKeeper κ := { bk with requested := bk.requested ++ [(height, hash.getD 0)] }
  match bk.merkleReplies with
  | [] => (bk1, Except.error (Error.wrap Error.errRequestTimeout "requireBlocks"))
  | Reply.dropped :: rest => ({ bk1 with merkleReplies := rest }, Except.error Error.errPeerDropped)
  | Reply.timeout :: rest =>
    ({ bk1 with merkleReplies := rest },
      Except.error (Error.wrap Error.errRequestTimeout "requireBlocks"))
  | Reply.ok merkleBlock :: rest => ({ bk1 with merkleReplies := rest }, Except.ok merkleBlock)

/-- The method `merkleBlockToBlock`. -/
def merkleBlockToBlock (merkleBlock : MerkleBlock) : Block :=
  { toBlockHeader := merkleBlock.toBlockHeader, Transactions := merkleBlock.Transactions }

/-- The method `ProcessMerkleBlock`; the call of `chain.ProcessBlock` is logged. -/
def ProcessMerkleBlock (bk : blockKeeper κ) (merkleBlock : MerkleBlock)
    (txStatus : Option TransactionStatus) : blockKeeper κ × Bool × Option Error :=
  let block := merkleBlockToBlock merkleBlock
  match A.ProcessBlock bk.chain block txStatus with
  | (chain, isOrphan, err) =>
    ({ bk with chain := chain, submitted := bk.submitted ++ [(block, txStatus)] }, isOrphan, err)

/-- The method `VerifyBlockHeader`. -/
def VerifyBlockHeader (header : BlockHeader) (merkleBlock : MerkleBlock) : Option Error :=
  if header.Hash ≠ merkleBlock.toBlockHeader.Hash then some (Error.new "BlockHeader mismatch")
  else none

/-- The `for _, v := range merkleBlock.RawTxStatuses` loop of `VerifyMerkleBlock`: the
decoded statuses, or `none` at the first one that does not decode. -/
def decodeStatuses : List (List Nat) → Option (List TxVerifyResult)
  | [] => some []
  | v :: rest =>
    match V.Unmarshal v with
    | none => none
    | some status =>
      match decodeStatuses rest with
      | none => none
      | some l => some (status :: l)

/-- The method `VerifyMerkleBlock`; the transaction status it returns is nil for a
merkle block without transactions. -/
def VerifyMerkleBlock (merkleBlock : MerkleBlock) : Except Error (Option TransactionStatus) :=
  if merkleBlock.Transactions.length = 0 then Except.ok none
  else
    let txProofHashes := merkleBlock.TxHashes
    let flags := merkleBlock.Flags
    let relatedTxHashes := merkleBlock.Transactions.map (fun v => v.ID)
    if !V.ValidateTxMerkleTreeProof txProofHashes flags relatedTxHashes
        merkleBlock.TransactionsMerkleRoot then
      Except.error (Error.new "tx merkle proof check error")
    else
      let txStatusProofHashes := merkleBlock.StatusHashes
      match decodeStatuses V merkleBlock.RawTxStatuses with
      | none => Except.error (Error.new "tx status unmarshal error")
      | some relatedStatus =>
        if !V.ValidateStatusMerkleTreeProof txStatusProofHashes flags relatedStatus
            merkleBlock.TransactionStatusHash then
          Except.error (Error.new "tx status merkle proof check error")
        else Except.ok (some { VerifyStatus := relatedStatus })

/-- One pass through the header-chaining loop of `fastBlockSync` (lines 143-161): the
loop test on the last header of the list, then the loop body. -/
def headerStep (checkPoint : Checkpoint) (bk : blockKeeper κ) : blockKeeper κ × Step :=
  match bk.headerList.getLast? with
  | none => (bk, Step.stop Outcome.panic)
  | some lastHeader =>
    if lastHeader.Hash = checkPoint.Hash then (bk, Step.leave)
    else if lastHeader.Height ≥ checkPoint.Height then
      (bk, Step.stop (Outcome.returned
        (some (Error.wrap Error.errPeerMisbehave "peer is not in the checkpoint branch"))))
    else
      match requireHeaders bk [lastHeader.Hash] checkPoint.Hash with
      | (bk1, Except.error err) => (bk1, Step.stop (Outcome.returned (some err)))
      | (bk1, Except.ok headers) =>
        if headers.length = 0 then
          (bk1, Step.stop (Outcome.returned
            (some (Error.wrap Error.errPeerMisbehave "requireHeaders return empty list"))))
        else
          match appendHeaderList bk1 headers with
          | none => (bk1, Step.stop Outcome.panic)
          | some (bk2, some err) => (bk2, Step.stop (Outcome.returned (some err)))
          | some (bk2, none) => (bk2, Step.again)

/-- The header-chaining loop of `fastBlockSync`, at most `fuel` passes. -/
def headerLoop (checkPoint : Checkpoint) : Nat → blockKeeper κ → blockKeeper κ × Step
  | 0, bk => (bk, Step.stop Outcome.unfinished)
  | fuel + 1, bk =>
    match headerStep checkPoint bk with
    | (bk1, Step.again) => headerLoop checkPoint fuel bk1
    | r => r

/-- The keeper after `k` passes through the header-chaining loop that all went round
again, if the loop gets that far. -/
def headerPasses (checkPoint : Checkpoint) : Nat → blockKeeper κ → Option (blockKeeper κ)
  | 0, bk => some bk
  | k + 1, bk =>
    match headerStep checkPoint bk with
    | (bk1, Step.again) => headerPasses checkPoint k bk1
    | _ => none

/-- The body-fetch loop of `fastBlockSync` (lines 164-197), at most `fuel` passes;
`fastHeader` is the list element the cursor is on together with the elements after it,
the empty list standing for the nil cursor. The PoW cache calls do not touch the state
kept here. -/
def bodyLoop (checkPoint : Checkpoint) : Nat → blockKeeper κ → List BlockHeader →
    blockKeeper κ × Outcome
  | 0, bk, _ => (bk, Outcome.unfinished)
  | fuel + 1, bk, fastHeader =>
    if A.BestBlockHeight bk.chain ≤ checkPoint.Height then
      match (if A.BestBlockHeight bk.chain = 0 then fastHeader.tail else fastHeader) with
      | [] => (bk, Outcome.panic)
      | header :: next =>
        match requireMerkleBlock bk header.Height (some header.Hash) with
        | (bk1, Except.error err) => (bk1, Outcome.returned (some err))
        | (bk1, Except.ok merkleBlock) =>
          match VerifyBlockHeader header merkleBlock with
          | some err => (bk1, Outcome.returned (some err))
          | none =>
            match VerifyMerkleBlock V merkleBlock with
            | Except.error err => (bk1, Outcome.returned (some err))
            | Except.ok txStatus =>
              if merkleBlock.Hash ≠ header.Hash then
                (bk1, Outcome.returned (some Error.errPeerMisbehave))
              else
                match A.CalcNextSeed bk1.chain merkleBlock.PreviousBlockHash with
                | Except.error err =>
                  (bk1, Outcome.returned
                    (some (Error.wrap err "fail on fastBlockSync calculate seed")))
                | Except.ok _ =>
                  match ProcessMerkleBlock A bk1 merkleBlock txStatus with
                  | (bk2, _, some err) =>
                    (bk2, Outcome.returned
                      (some (Error.wrap err "fail on fastBlockSync process block")))
                  | (bk2, _, none) =>
                    match next with
                    | [] => (bk2, Outcome.returned none)
                    | _ :: _ => bodyLoop checkPoint fuel bk2 next
    else (bk, Outcome.returned none)

/-- The method `fastBlockSync`; each of its two loops is given `fuel` passes. -/
def fastBlockSync (fuel : Nat) (checkPoint : Checkpoint) (bk : blockKeeper κ) :
    blockKeeper κ × Outcome :=
  match headerLoop checkPoint fuel (resetHeaderState A checkpoints bk) with
  | (bk1, Step.stop o) => (bk1, o)
  | (bk1, _) => bodyLoop A V checkPoint fuel bk1 bk1.headerList

end netsync

/-- The number of headers the sync peer still has to deliver: the sizes of the batches
in the pending replies. -/
def pendingHeaders : List (Reply (List BlockHeader)) → Nat
  | [] => 0
  | Reply.ok headers :: rest => headers.length + pendingHeaders rest
  | _ :: rest => pendingHeaders rest

/-! ### Service flags (`consensus/server_flag.go`) -/

/-- The type `consensus.ServiceFlag`, a `uint64` read as its value. -/
abbrev ServiceFlag := Nat

/-- The constant `SFFullNode = 1 << iota`, first of the block. -/
def SFFullNode : ServiceFlag := 1 <<< 0

/-- The constant `SFFastSync`, second of the `iota` block. -/
def SFFastSync : ServiceFlag := 1 <<< 1

/-- The constant `SFSpvProof`, third of the `iota` block. -/
def SFSpvProof : ServiceFlag := 1 <<< 2

/-- The constant `DefaultServices`. -/
def DefaultServices : ServiceFlag := SFFastSync

/-- The method `ServiceFlag.IsEnable`. -/
def ServiceFlag.IsEnable (f checkFlag : ServiceFlag) : Bool :=
  f &&& checkFlag == checkFlag

/-- The headers of a list chain: every element except the first has, as
`PreviousBlockHash`, the hash of the element before it. -/
def Chained (l : List BlockHeader) : Prop :=
  List.Chain' (fun a b => b.PreviousBlockHash = a.Hash) l

/-- A sequence of `appendHeaderList` calls, one per batch, each made whatever the call
before returned; `none` when one of them panics. -/
def appendHeaderListSeq {κ : Type} (bk : blockKeeper κ) :
    List (List BlockHeader) → Option (blockKeeper κ)
  | [] => some bk
  | headers :: rest =>
    match appendHeaderList bk headers with
    | none => none
    | some (bk1, _) => appendHeaderListSeq bk1 rest

/-! ### Regular sync and the sync cycle (`regularBlockSync`, `startSync`) -/

/-- The fields of a `peer` that `startSync` reads through `ID()` and `Height()`. -/
structure peer where
  ID : String
  Height : Nat
  deriving DecidableEq, Repr

/-- The methods of `peerSet` that `startSync` calls, over an abstract peer-set state
(the file of `peerSet` is not among the embedded ones). -/
structure PeerSetAPI (π : Type) where
  bestPeer : π → ServiceFlag → Option peer
  errorHandler : π → String → Error → π

/-- The fields of `blockKeeper` that `startSync` uses on top of those the sync functions
use: the peer set and the sync peer. -/
structure syncKeeper (κ π : Type) where
  keeper : blockKeeper κ
  peers : π
  syncPeer : Option peer
  deriving DecidableEq, Repr

/-- The constant `maxBlockPerMsg`. -/
def maxBlockPerMsg : Nat := 128

section sync

variable {κ π : Type} (A : ChainAPI κ) (V : Validators) (P : PeerSetAPI π)
  (checkpoints : List Checkpoint)

/-- The `for i <= wantHeight` loop of `regularBlockSync`, at most `fuel` passes; `i` is a
`uint64`, so `i--` and `BestBlockHeight() + 1` are taken modulo `2 ^ 64`. -/
def regularLoop (wantHeight : Nat) : Nat → blockKeeper κ → Nat → blockKeeper κ × Outcome
  | 0, bk, _ => (bk, Outcome.unfinished)
  | fuel + 1, bk, i =>
    if i ≤ wantHeight then
      match requireMerkleBlock bk i none with
      | (bk1, Except.error err) => (bk1, Outcome.returned (some err))
      | (bk1, Except.ok merkleBlock) =>
        match VerifyMerkleBlock V merkleBlock with
        | Except.error err => (bk1, Outcome.returned (some err))
        | Except.ok txStatus =>
          match ProcessMerkleBlock A bk1 merkleBlock txStatus with
          | (bk2, _, some err) => (bk2, Outcome.returned (some err))
          | (bk2, true, none) => regularLoop wantHeight fuel bk2 ((i + (2 ^ 64 - 1)) % 2 ^ 64)
          | (bk2, false, none) =>
            regularLoop wantHeight fuel bk2 ((A.BestBlockHeight bk2.chain + 1) % 2 ^ 64)
    else (bk, Outcome.returned none)

/-- The method `regularBlockSync`; its loop is given `fuel` passes. -/
def regularBlockSync (fuel : Nat) (wantHeight : Nat) (bk : blockKeeper κ) :
    blockKeeper κ × Outcome :=
  regularLoop A V wantHeight fuel bk ((A.BestBlockHeight bk.chain + 1) % 2 ^ 64)

/-- The method `startSync`: the keeper after the call and the boolean returned, `none`
when the sync function it called did not return (panic, or fuel used up). The sum
`blockHeight + maxBlockPerMsg` is a `uint64` sum. -/
def startSync (fuel : Nat) (sk : syncKeeper κ π) : syncKeeper κ π × Option Bool :=
  let checkPoint := nextCheckpoint A checkpoints sk.keeper
  let fastPeer := P.bestPeer sk.peers (SFFastSync ||| SFFullNode)
  let gate : Option (peer × Checkpoint) :=
    match fastPeer, checkPoint with
    | some p, some cp => if p.Height ≥ cp.Height then some (p, cp) else none
    | _, _ => none
  match gate with
  | some (p, cp) =>
    match fastBlockSync A V checkpoints fuel cp sk.keeper with
    | (bk1, Outcome.returned (some err)) =>
      ({ keeper := bk1, peers := P.errorHandler sk.peers p.ID err, syncPeer := some p }, some false)
    | (bk1, Outcome.returned none) =>
      ({ keeper := bk1, peers := sk.peers, syncPeer := some p }, some true)
    | (bk1, _) => ({ keeper := bk1, peers := sk.peers, syncPeer := some p }, none)
  | none =>
    let blockHeight := A.BestBlockHeight sk.keeper.chain
    match P.bestPeer sk.peers SFFullNode with
    | none => (sk, some false)
    | some p =>
      if p.Height > blockHeight then
        let targetHeight := (blockHeight + maxBlockPerMsg) % 2 ^ 64
        let targetHeight := if targetHeight > p.Height then p.Height else targetHeight
        match regularBlockSync A V fuel targetHeight sk.keeper with
        | (bk1, Outcome.returned (some err)) =>
          ({ keeper := bk1, peers := P.errorHandler sk.peers p.ID err, syncPeer := some p },
            some false)
        | (bk1, Outcome.returned none) =>
          ({ keeper := bk1, peers := sk.peers, syncPeer := some p }, some true)
        | (bk1, _) => ({ keeper := bk1, peers := sk.peers, syncPeer := some p }, none)
      else (sk, some false)

/-- A call of `startSync` with result `res` ran the sync function whose run is `r`, with
sync peer `p`, and nothing else: the keeper is the one the run left, the sync peer is
`p`, the call returns true exactly when the run returned nil, and when the run returned
an error the call returns false after handing the error to the peer set. -/
def RanMode (sk : syncKeeper κ π) (p : peer) (r : blockKeeper κ × Outcome)
    (res : syncKeeper κ π × Option Bool) : Prop :=
  res.1.keeper = r.1 ∧ res.1.syncPeer = some p ∧
    (res.2 = some true ↔ r.2 = Outcome.returned none) ∧
    (r.2 = Outcome.returned none → res.1.peers = sk.peers) ∧
    ∀ err, r.2 = Outcome.returned (some err) →
      res.2 = some false ∧ res.1.peers = P.errorHandler sk.peers p.ID err

end sync

/-! ### The block locator (`blockLocator`) -/

section locator

variable {κ : Type} (A : ChainAPI κ)

/-- The `for header != nil` loop of `blockLocator`, at most `fuel` passes (`none` when
they do not suffice); `step` is a `uint64`, so `step *= 2` is taken modulo `2 ^ 64`. -/
def locatorLoop (chain : κ) : Nat → BlockHeader → List bc.Hash → Nat → Option (List bc.Hash)
  | 0, _, _, _ => none
  | fuel + 1, header, locator, step =>
    let locator := locator ++ [header.Hash]
    if header.Height = 0 then some locator
    else
      match (if header.Height < step then A.GetHeaderByHeight chain 0
          else A.GetHeaderByHeight chain (header.Height - step)) with
      | Except.error _ => some locator
      | Except.ok header1 =>
        locatorLoop chain fuel header1 locator
          (if locator.length ≥ 9 then step * 2 % 2 ^ 64 else step)

/-- The method `blockLocator`; its loop is given `fuel` passes. -/
def blockLocator (fuel : Nat) (bk : blockKeeper κ) : Option (List bc.Hash) :=
  locatorLoop A bk.chain fuel (A.BestBlockHeader bk.chain) [] 1

end locator

/-- How far below the tip the entry of index `i` (from 0) of a locator lies, before
clamping: the indices up to 9 are dense, then the distance grows by 2, 4, 8, ... -/
def locatorOffset (i : Nat) : Nat :=
  if i ≤ 9 then i else 2 ^ (i - 8) + 7

/-- The step from the entry of index `i` to the next one: 1 up to the entry of index 9
(the tenth), then 2, 4, 8, ... -/
def locatorStep (i : Nat) : Nat :=
  if i < 9 then 1 else 2 ^ (i - 8)

/-- The number of entries of a locator for tip height `H`. -/
def locatorCount (H : Nat) : Nat :=
  if H ≤ 9 then H + 1 else 9 + Nat.clog 2 (H - 7)

/-- The heights of the entries of a locator for tip height `H`: the offsets taken from
the tip, clamped to height 0. -/
def locatorHeights (H : Nat) : List Nat :=
  (List.range (locatorCount H)).map (fun i => H - locatorOffset i)

section bodyPasses

variable {κ : Type} (A : ChainAPI κ) (V : Validators)

/-- One pass through the body-fetch loop of `fastBlockSync` (lines 164-197): the loop
test, then the loop body; the result carries the cursor after the pass. -/
def bodyStep (checkPoint : Checkpoint) (bk : blockKeeper κ) (fastHeader : List BlockHeader) :
    blockKeeper κ × List BlockHeader × Step :=
  if A.BestBlockHeight bk.chain ≤ checkPoint.Height then
    match (if A.BestBlockHeight bk.chain = 0 then fastHeader.tail else fastHeader) with
    | [] => (bk, [], Step.stop Outcome.panic)
    | header :: next =>
      match requireMerkleBlock bk header.Height (some header.Hash) with
      | (bk1, Except.error err) => (bk1, header :: next, Step.stop (Outcome.returned (some err)))
      | (bk1, Except.ok merkleBlock) =>
        match VerifyBlockHeader header merkleBlock with
        | some err => (bk1, header :: next, Step.stop (Outcome.returned (some err)))
        | none =>
          match VerifyMerkleBlock V merkleBlock with
          | Except.error err => (bk1, header :: next, Step.stop (Outcome.returned (some err)))
          | Except.ok txStatus =>
            if merkleBlock.Hash ≠ header.Hash then
              (bk1, header :: next, Step.stop (Outcome.returned (some Error.errPeerMisbehave)))
            else
              match A.CalcNextSeed bk1.chain merkleBlock.PreviousBlockHash with
              | Except.error err =>
                (bk1, header :: next, Step.stop (Outcome.returned
                  (some (Error.wrap err "fail on fastBlockSync calculate seed"))))
              | Except.ok _ =>
                match ProcessMerkleBlock A bk1 merkleBlock txStatus with
                | (bk2, _, some err) =>
                  (bk2, header :: next, Step.stop (Outcome.returned
                    (some (Error.wrap err "fail on fastBlockSync process block"))))
                | (bk2, _, none) =>
                  match next with
                  | [] => (bk2, [], Step.stop (Outcome.returned none))
                  | _ :: _ => (bk2, next, Step.again)
  else (bk, fastHeader, Step.stop (Outcome.returned none))

/-- The keeper and the cursor after `k` passes through the body-fetch loop that all went
round again, if the loop gets that far. -/
def bodyPasses (checkPoint : Checkpoint) :
    Nat → blockKeeper κ → List BlockHeader → Option (blockKeeper κ × List BlockHeader)
  | 0, bk, fastHeader => some (bk, fastHeader)
  | k + 1, bk, fastHeader =>
    match bodyStep A V checkPoint bk fastHeader with
    | (bk1, next, Step.again) => bodyPasses checkPoint k bk1 next
    | _ => none

end bodyPasses

/-- What a stretch of block saving from chain `c` to chain `c1` did, read off a log of
the `store.SaveBlock` calls: the calls made are `calls`, each of them carries the
status `s` and a block that was in the orphan pool of `c`, the pool only shrank, and
every node added to the index has the hash of a block saved by one of the calls. -/
def SavedWith {σ : Type} (log : σ → List (Block × Option TransactionStatus))
    (s : Option TransactionStatus) (c c1 : Chain σ)
    (calls : List (Block × Option TransactionStatus)) (added : List BlockNode) : Prop :=
  log c1.store = log c.store ++ calls ∧
    (∀ call ∈ calls, call.2 = s ∧ call.1 ∈ c.orphanManage.orphan) ∧
    c1.orphanManage.orphan.Sublist c.orphanManage.orphan ∧
    c1.index.index = added ++ c.index.index ∧
    ∀ n ∈ added, ∃ blk, (blk, s) ∈ calls ∧ blk.Hash = n.Hash

/-! ### Checkpoints on a chain of headers -/

/-- The hashes of the headers `U` are collision-free: two of them with the same hash are
the same header (the hash of a header is a digest of its content). -/
def CollisionFree (U : List BlockHeader) : Prop :=
  ∀ a ∈ U, ∀ b ∈ U, a.Hash = b.Hash → a = b

instance (U : List BlockHeader) : Decidable (CollisionFree U) := by
  unfold CollisionFree
  infer_instance

/-- The branch of a checkpoint: the headers from genesis up to the header of the
checkpoint, each naming the one before it as its previous block and lying higher than
it, the last one carrying the hash and the height of the checkpoint. -/
def CheckpointBranch (checkPoint : Checkpoint) (branch : List BlockHeader) : Prop :=
  List.Chain' (fun a b => b.PreviousBlockHash = a.Hash ∧ a.Height < b.Height) branch ∧
    ∃ cpHeader, branch.getLast? = some cpHeader ∧ cpHeader.Hash = checkPoint.Hash ∧
      cpHeader.Height = checkPoint.Height

/-! ### Concrete chains used to exercise the theorems -/

/-- A store that keeps the hashes of the blocks it saved and the hash of the last
chain status written, and refuses the blocks whose hash is in `refused`. -/
def listStore (refused : List bc.Hash) : Store (List bc.Hash × Option bc.Hash) where
  SaveBlock := fun st blk _ =>
    if blk.Hash ∈ refused then (st, some (Error.external 1)) else ((st.1 ++ [blk.Hash], st.2), none)
  SaveChainStatus := fun st node => ((st.1, some node.Hash), none)

/-- A work function for the examples: the work of a block is its `Bits`. -/
def bitsWork : Nat → Nat := fun bits => bits

/-- A block with the given hash, height and previous hash, no transactions. -/
def mkBlock (hash height prev : Nat) : Block :=
  { Hash := hash, Version := 1, Height := height, PreviousBlockHash := prev, Timestamp := 0,
    Bits := 1, TransactionsMerkleRoot := 0, TransactionStatusHash := 0, Transactions := [] }

/-- The genesis node of the examples: hash 100, height 0. -/
def genesisNode : BlockNode :=
  { Parent := none, Hash := 100, Height := 0, Bits := 1, WorkSum := 1 }

/-- A chain holding the genesis node only. -/
def genesisChain : Chain (List bc.Hash × Option bc.Hash) :=
  { index := { index := [genesisNode], mainChain := [100] },
    orphanManage := { orphan := [] },
    bestNode := genesisNode,
    store := ([], none) }

/-- The genesis chain with one orphan parked: block 102 of height 2 on top of the
still unknown block 101. -/
def orphanChain : Chain (List bc.Hash × Option bc.Hash) :=
  { genesisChain with orphanManage := { orphan := [mkBlock 102 2 101] } }

/-- The node of block 101 once it is indexed on top of genesis. -/
def node101 : BlockNode :=
  { Parent := some 100, Hash := 101, Height := 1, Bits := 1, WorkSum := 2 }

/-- The node of block 102 once it is indexed on top of block 101. -/
def node102 : BlockNode :=
  { Parent := some 101, Hash := 102, Height := 2, Bits := 1, WorkSum := 3 }

/-- The chain reached from `orphanChain` when block 101 arrives and every save
succeeds: the orphan is promoted and becomes the best node. -/
def promotedChain : Chain (List bc.Hash × Option bc.Hash) :=
  { index := { index := [node102, node101, genesisNode], mainChain := [100, 101, 102] },
    orphanManage := { orphan := [] },
    bestNode := node102,
    store := ([101, 102], some 102) }

/-- The chain `orphanChain` right after `saveBlock` stored and indexed block 101, before
any orphan is promoted. -/
def savedChain : Chain (List bc.Hash × Option bc.Hash) :=
  { index := { index := [node101, genesisNode], mainChain := [100] },
    orphanManage := { orphan := [mkBlock 102 2 101] },
    bestNode := genesisNode,
    store := ([101], none) }

/-- The chain reached from `orphanChain` when block 101 arrives and the store refuses
the parked block 102: block 101 is indexed and is the best node, block 102 stays in the
orphan pool. -/
def stuckChain : Chain (List bc.Hash × Option bc.Hash) :=
  { index := { index := [node101, genesisNode], mainChain := [100, 101] },
    orphanManage := { orphan := [mkBlock 102 2 101] },
    bestNode := node101,
    store := ([101], some 101) }

/-- The tip of the side branch of `forkChain`. -/
def node113 : BlockNode :=
  { Parent := some 112, Hash := 113, Height := 4, Bits := 1, WorkSum := 5 }

/-- A fork: genesis 100, the main chain 100, 101, 102 with best node 102, and a side
branch 111, 112, 113 (heights 2, 3, 4) on top of block 101. -/
def forkChain : Chain Unit :=
  { index :=
      { index :=
          [ node113,
            { Parent := some 111, Hash := 112, Height := 3, Bits := 1, WorkSum := 4 },
            { Parent := some 101, Hash := 111, Height := 2, Bits := 1, WorkSum := 3 },
            node102, node101, genesisNode ],
        mainChain := [100, 101, 102] },
    orphanManage := { orphan := [] },
    bestNode := node102,
    store := () }

/-- A header with the given hash, height and previous hash. -/
def mkHeader (hash height prev : Nat) : BlockHeader :=
  { Hash := hash, Version := 1, Height := height, PreviousBlockHash := prev, Timestamp := 0,
    Bits := 1, TransactionsMerkleRoot := 0, TransactionStatusHash := 0 }

/-- A keeper over a trivial chain whose header list is the genesis header 100. -/
def seededKeeper : blockKeeper Unit :=
  { chain := (), headerList := [mkHeader 100 0 0], headersReplies := [], merkleReplies := [],
    requested := [], submitted := [] }

/-- Validators for one-leaf trees: a proof is accepted when its only hash is the
expected root and every revealed item is that leaf; a raw status decodes from a single
byte 0 or 1. -/
def leafValidators : Validators where
  ValidateTxMerkleTreeProof := fun hashes _ related root =>
    decide (hashes = [root]) && related.all (fun h => decide (h = root))
  ValidateStatusMerkleTreeProof := fun hashes _ related _ =>
    decide (hashes.length = 1) && decide (related.length ≤ 1)
  Unmarshal := fun raw =>
    match raw with
    | [0] => some { StatusFail := false }
    | [1] => some { StatusFail := true }
    | _ => none

/-- A merkle block for the header `(hash, height, prev)` that reveals no transaction
and carries no proof at all, while its header commits to the merkle root 7. -/
def bareMerkle (hash height prev : Nat) : MerkleBlock :=
  { Hash := hash, Version := 1, Height := height, PreviousBlockHash := prev, Timestamp := 0,
    Bits := 1, TransactionsMerkleRoot := 7, TransactionStatusHash := 0,
    Transactions := [], TxHashes := [], StatusHashes := [], RawTxStatuses := [], Flags := [] }

/-- A merkle block revealing its single transaction 7, with one-leaf proofs. -/
def leafMerkle : MerkleBlock :=
  { Hash := 101, Version := 1, Height := 1, PreviousBlockHash := 100, Timestamp := 0,
    Bits := 1, TransactionsMerkleRoot := 7, TransactionStatusHash := 8,
    Transactions := [{ ID := 7 }], TxHashes := [7], StatusHashes := [8],
    RawTxStatuses := [[0]], Flags := [1] }

/-- The transaction status decoded from `leafMerkle`. -/
def leafStatus : TransactionStatus :=
  { VerifyStatus := [{ StatusFail := false }] }

/-- A chain that follows its tip: the state is the best header; a block whose previous
hash is the best hash becomes the new best header when its height is the best height
plus one and is refused otherwise; any other block is reported as an orphan. -/
def tipChain : ChainAPI BlockHeader where
  BestBlockHeader := fun best => best
  BestBlockHeight := fun best => best.Height
  GetHeaderByHeight := fun best height =>
    if height = best.Height then Except.ok best
    else Except.error (Error.new "cannot find block header in given height")
  CalcNextSeed := fun _ prev => Except.ok prev
  ProcessBlock := fun best block _ =>
    if block.PreviousBlockHash = best.Hash then
      if block.Height = best.Height + 1 then (block.toBlockHeader, false, none)
      else (best, false, some (Error.new "block height does not follow the parent"))
    else (best, true, none)

/-- The checkpoint of the examples: height 2, hash 102. -/
def checkpoint102 : Checkpoint :=
  { Height := 2, Hash := 102 }

/-- A keeper at genesis whose sync peer answers the header request with a single header
of height 2 that is not the checkpoint. -/
def wrongTipKeeper : blockKeeper BlockHeader :=
  { chain := mkHeader 100 0 0, headerList := [],
    headersReplies := [Reply.ok [mkHeader 109 2 100]],
    merkleReplies := [Reply.ok (bareMerkle 109 2 100)],
    requested := [], submitted := [] }

/-- Three checkpoints of rising height. -/
def threeCheckpoints : List Checkpoint :=
  [{ Height := 2, Hash := 102 }, { Height := 5, Hash := 105 }, { Height := 9, Hash := 109 }]

/-- A keeper on the chain `tipChain` at genesis, with nothing pending. -/
def genesisKeeper : blockKeeper BlockHeader :=
  { chain := mkHeader 100 0 0, headerList := [], headersReplies := [], merkleReplies := [],
    requested := [], submitted := [] }

/-- The genesis chain after block 102, of height 5 on top of the still unknown block
101, was parked as an orphan. -/
def parkedChain : Chain (List bc.Hash × Option bc.Hash) :=
  { genesisChain with orphanManage := { orphan := [mkBlock 102 5 101] } }

/-- The chain reached from `parkedChain` when block 101 arrives and the store refuses
the parked block 102: block 101 is indexed and is the best node, and block 102, whose
height does not follow its parent, is still in the orphan pool. -/
def misplacedChain : Chain (List bc.Hash × Option bc.Hash) :=
  { index := { index := [node101, genesisNode], mainChain := [100, 101] },
    orphanManage := { orphan := [mkBlock 102 5 101] },
    bestNode := node101,
    store := ([101], some 101) }

/-- A keeper at genesis (best height 0) whose sync peer answers each of the next two
merkle-block requests with block 107, of height 7 on top of the unknown block 106. -/
def strayKeeper : blockKeeper BlockHeader :=
  { chain := mkHeader 100 0 0, headerList := [], headersReplies := [],
    merkleReplies := [Reply.ok (bareMerkle 107 7 106), Reply.ok (bareMerkle 107 7 106)],
    requested := [], submitted := [] }

/-- A peer set kept as a list of peers with their service flags: the best peer for a
flag set is the highest among the peers that enable all of it (the first of them on a
tie), and the error handler removes the peer. -/
def listPeers : PeerSetAPI (List (peer × ServiceFlag)) where
  bestPeer := fun ps flag =>
    (ps.filter (fun q => ServiceFlag.IsEnable q.2 flag)).foldl
      (fun best q =>
        match best with
        | none => some q.1
        | some b => if q.1.Height > b.Height then some q.1 else some b)
      none
  errorHandler := fun ps id _ => ps.filter (fun q => !decide (q.1.ID = id))

/-- A full node at height 300 and a fast-sync node at height 1. -/
def twoPeers : List (peer × ServiceFlag) :=
  [({ ID := "full", Height := 300 }, SFFullNode), ({ ID := "fast", Height := 1 }, SFFastSync)]

/-- A keeper at genesis with the peers `twoPeers`, whose sync peer does not answer. -/
def idleSync : syncKeeper BlockHeader (List (peer × ServiceFlag)) :=
  { keeper := genesisKeeper, peers := twoPeers, syncPeer := none }

/-- The header of height `h` of the chain `ladderChain`: hash `1000 + h`. -/
def ladderHeader (h : Nat) : BlockHeader :=
  mkHeader (1000 + h) h (1000 + h - 1)

/-- A chain that is a single branch of headers `ladderHeader 0, ladderHeader 1, ...`;
the state is the best height. A block of the next height becomes the best block, a
block of a height already on the chain (genesis apart) is accepted as known, anything
else is refused. -/
def ladderChain : ChainAPI Nat where
  BestBlockHeader := fun best => ladderHeader best
  BestBlockHeight := fun best => best
  GetHeaderByHeight := fun best height =>
    if height ≤ best then Except.ok (ladderHeader height)
    else Except.error (Error.new "cannot find block header in given height")
  CalcNextSeed := fun _ prev => Except.ok prev
  ProcessBlock := fun best block _ =>
    if block.Height = best + 1 then (best + 1, false, none)
    else if 0 < block.Height ∧ block.Height ≤ best then (best, false, none)
    else (best, false, some (Error.new "block is not on the chain"))

/-- A keeper on `ladderChain` at best height `best`, with nothing pending. -/
def ladderKeeper (best : Nat) : blockKeeper Nat :=
  { chain := best, headerList := [], headersReplies := [], merkleReplies := [],
    requested := [], submitted := [] }

/-- The checkpoint at height 3 of `ladderChain`. -/
def checkpoint1003 : Checkpoint :=
  { Height := 3, Hash := 1003 }

/-- A keeper on `ladderChain` at best height 1 whose sync peer answers the header request
with the headers 2 and 3 and the merkle-block requests with the blocks 1, 2 and 3. -/
def ladderSync : blockKeeper Nat :=
  { chain := 1, headerList := [],
    headersReplies := [Reply.ok [ladderHeader 2, ladderHeader 3]],
    merkleReplies := [Reply.ok (bareMerkle 1001 1 1000), Reply.ok (bareMerkle 1002 2 1001),
      Reply.ok (bareMerkle 1003 3 1002)],
    requested := [], submitted := [] }

/-- A keeper at genesis whose sync peer answers the header request with a header that
does not follow the genesis header. -/
def misorderedKeeper : blockKeeper BlockHeader :=
  { chain := mkHeader 100 0 0, headerList := [],
    headersReplies := [Reply.ok [mkHeader 101 1 999]], merkleReplies := [],
    requested := [], submitted := [] }

/-- A keeper at genesis whose sync peer answers the header request with no header. -/
def emptyReplyKeeper : blockKeeper BlockHeader :=
  { chain := mkHeader 100 0 0, headerList := [],
    headersReplies := [Reply.ok []], merkleReplies := [],
    requested := [], submitted := [] }

/-- A merkle block of header 101 that reveals transaction 7 with a proof made of the
hash 9, which is not the merkle root 7 of its header. -/
def badProofMerkle : MerkleBlock :=
  { Hash := 101, Version := 1, Height := 1, PreviousBlockHash := 100, Timestamp := 0,
    Bits := 1, TransactionsMerkleRoot := 7, TransactionStatusHash := 8,
    Transactions := [{ ID := 7 }], TxHashes := [9], StatusHashes := [8],
    RawTxStatuses := [[0]], Flags := [1] }

/-- A keeper at genesis whose sync peer answers the header request with the headers 101
and 102 (the checkpoint) and the first merkle-block request with `badProofMerkle`. -/
def badProofKeeper : blockKeeper BlockHeader :=
  { chain := mkHeader 100 0 0, headerList := [],
    headersReplies := [Reply.ok [mkHeader 101 1 100, mkHeader 102 2 101]],
    merkleReplies := [Reply.ok badProofMerkle],
    requested := [], submitted := [] }

/-- A store that accepts everything and keeps the list of its `SaveBlock` calls, block
and transaction status, oldest first. -/
def recordingStore : Store (List (Block × Option TransactionStatus)) where
  SaveBlock := fun st blk s => (st ++ [(blk, s)], none)
  SaveChainStatus := fun st _ => (st, none)

/-- The genesis chain over `recordingStore`, before any call. -/
def recordedGenesis : Chain (List (Block × Option TransactionStatus)) :=
  { index := { index := [genesisNode], mainChain := [100] },
    orphanManage := { orphan := [] },
    bestNode := genesisNode,
    store := [] }

/-- The chain `recordedGenesis` after block 102 was submitted with the status
`leafStatus` and parked: the pool holds the block, the status is nowhere. -/
def recordedParked : Chain (List (Block × Option TransactionStatus)) :=
  { recordedGenesis with orphanManage := { orphan := [mkBlock 102 2 101] } }

/-- The headers from genesis to the checkpoint of the examples: 100, 101 and 102. -/
def branch102 : List BlockHeader :=
  [mkHeader 100 0 0, mkHeader 101 1 100, mkHeader 102 2 101]

/-- A keeper at genesis whose sync peer answers the header request with a header of
height 5 on top of genesis, followed by a header that does not follow it. -/
def strayBatchKeeper : blockKeeper BlockHeader :=
  { chain := mkHeader 100 0 0, headerList := [],
    headersReplies := [Reply.ok [mkHeader 105 5 100, mkHeader 106 6 999]],
    merkleReplies := [Reply.ok (bareMerkle 105 5 100)],
    requested := [], submitted := [] }

/-! ## Theorems -/

section basics
variable {σ : Type} (S : Store σ) (CalcWork : Nat → Nat)

theorem saveBlock_ok {c c1 : Chain σ} {b : Block} {s : Option TransactionStatus}
    (h : saveBlock S CalcWork c b s = (c1, none)) :
    ∃ p node, c.index.GetNode b.PreviousBlockHash = some p ∧ b.Height = p.Height + 1 ∧
      (S.SaveBlock c.store b s).2 = none ∧
      node = { Parent := some p.Hash, Hash := b.Hash, Height := b.Height, Bits := b.Bits,
               WorkSum := p.WorkSum + CalcWork b.Bits } ∧
      c1 = { index := c.index.AddNode node,
             orphanManage := c.orphanManage.Delete b.Hash,
             bestNode := c.bestNode,
             store := (S.SaveBlock c.store b s).1 } := by
  unfold saveBlock at h
  rcases hs : S.SaveBlock c.store b s with ⟨st, _ | e⟩
  · rw [hs] at h
    simp only at h
    rcases hp : c.index.GetNode b.PreviousBlockHash with _ | p
    · rw [hp] at h
      simp [NewBlockNode] at h
    · rw [hp] at h
      by_cases hh : b.Height = p.Height + 1
      · simp [NewBlockNode, hh] at h
        exact ⟨p, _, rfl, hh, rfl, rfl, by rw [← h]; simp [hh]⟩
      · simp [NewBlockNode, hh] at h
  · rw [hs] at h
    simp at h

theorem saveBlock_err {c c1 : Chain σ} {b : Block} {s : Option TransactionStatus} {e : Error}
    (h : saveBlock S CalcWork c b s = (c1, some e)) :
    c1.index = c.index ∧ c1.bestNode = c.bestNode ∧
      (c1.orphanManage = c.orphanManage ∨ c1.orphanManage = c.orphanManage.Delete b.Hash) := by
  unfold saveBlock at h
  rcases hs : S.SaveBlock c.store b s with ⟨st, _ | e'⟩
  · rw [hs] at h
    simp only at h
    rcases hn : NewBlockNode CalcWork b.toBlockHeader (c.index.GetNode b.PreviousBlockHash) with e2 | n
    · rw [hn] at h
      simp at h
      rw [← h.1]
      simp
    · rw [hn] at h
      simp at h
  · rw [hs] at h
    simp at h
    rw [← h.1]
    simp

theorem OrphanManage.BlockExist_false_iff (o : OrphanManage) (h : bc.Hash) :
    o.BlockExist h = false ↔ ∀ b ∈ o.orphan, b.Hash ≠ h := by
  simp [OrphanManage.BlockExist, OrphanManage.Get, List.find?_eq_none]

theorem OrphanManage.Get_some {o : OrphanManage} {h : bc.Hash} {b : Block}
    (hg : o.Get h = some b) : b ∈ o.orphan ∧ b.Hash = h := by
  unfold OrphanManage.Get at hg
  exact ⟨List.mem_of_find?_eq_some hg, by simpa using List.find?_some hg⟩

theorem OrphanManage.Get_none {o : OrphanManage} {h : bc.Hash}
    (hg : o.Get h = none) : ∀ b ∈ o.orphan, b.Hash ≠ h := by
  simpa [OrphanManage.Get, List.find?_eq_none] using hg

theorem OrphanManage.Delete_sublist (o : OrphanManage) (h : bc.Hash) :
    (o.Delete h).orphan.Sublist o.orphan := by
  simp [OrphanManage.Delete]

theorem OrphanManage.Delete_hash_ne (o : OrphanManage) (h : bc.Hash) :
    ∀ b ∈ (o.Delete h).orphan, b.Hash ≠ h := by
  intro b hb
  simp [OrphanManage.Delete, List.mem_filter] at hb
  exact hb.2

theorem OrphanManage.Delete_length_lt {o : OrphanManage} {h : bc.Hash} {b : Block}
    (hb : b ∈ o.orphan) (hh : b.Hash = h) :
    (o.Delete h).orphan.length < o.orphan.length := by
  unfold OrphanManage.Delete
  simp only
  rw [List.length_filter_lt_length_iff_exists]
  exact ⟨b, hb, by simp [hh]⟩

theorem BlockIndex.GetNode_append_of_fresh (bi : BlockIndex) (added : List BlockNode)
    (h : bc.Hash) (hfresh : ∀ n ∈ added, n.Hash ≠ h) :
    BlockIndex.GetNode { bi with index := added ++ bi.index } h = bi.GetNode h := by
  unfold BlockIndex.GetNode
  simp only [List.find?_append]
  have : added.find? (fun n => decide (n.Hash = h)) = none := by
    rw [List.find?_eq_none]
    intro n hn
    simpa using hfresh n hn
  rw [this]
  rfl

theorem Indexed.mono {c c' : Chain σ} {x : Block} {added : List BlockNode}
    (hx : Indexed c x) (hidx : c'.index.index = added ++ c.index.index)
    (hadd : ∀ n ∈ added, ∃ o ∈ c.orphanManage.orphan, o.Hash = n.Hash)
    (hsub : c'.orphanManage.orphan.Sublist c.orphanManage.orphan) : Indexed c' x := by
  obtain ⟨⟨n, hn, hh⟩, hpool⟩ := hx
  rw [OrphanManage.BlockExist_false_iff] at hpool
  refine ⟨⟨n, ?_, hh⟩, ?_⟩
  · have hfresh : ∀ m ∈ added, m.Hash ≠ x.Hash := by
      intro m hm hEq
      obtain ⟨o, ho, hoh⟩ := hadd m hm
      exact hpool o ho (hoh.trans hEq)
    have := BlockIndex.GetNode_append_of_fresh c.index added x.Hash hfresh
    rw [← hn, ← this]
    unfold BlockIndex.GetNode
    rw [hidx]
  · rw [OrphanManage.BlockExist_false_iff]
    intro b hb
    exact hpool b (hsub.subset hb)
end basics

section promotion
variable {σ : Type} (S : Store σ) (CalcWork : Nat → Nat)

theorem saveBlock_err_pool {c c1 : Chain σ} {b : Block} {s : Option TransactionStatus} {e : Error}
    (h : saveBlock S CalcWork c b s = (c1, some e))
    (hs : (S.SaveBlock c.store b s).2 = none) :
    c1.orphanManage = c.orphanManage.Delete b.Hash := by
  unfold saveBlock at h
  rcases hs' : S.SaveBlock c.store b s with ⟨st, _ | e'⟩
  · rw [hs'] at h
    simp only at h
    rcases hn : NewBlockNode CalcWork b.toBlockHeader (c.index.GetNode b.PreviousBlockHash) with e2 | n
    · rw [hn] at h
      simp at h
      rw [← h.1]
    · rw [hn] at h
      simp at h
  · rw [hs'] at hs
    simp at hs

theorem BlockIndex.GetNode_AddNode_self (bi : BlockIndex) (n : BlockNode) :
    (bi.AddNode n).GetNode n.Hash = some n := by
  simp [BlockIndex.GetNode, BlockIndex.AddNode]

theorem saveSubBlockLoop_spec (P : Block → Prop)
    (hS : ∀ st o s, P o → (S.SaveBlock st o s).2 = none)
    (fuel : Nat) (s : Option TransactionStatus)
    (recur : Chain σ → Block → Option (Chain σ × Block))
    (hrec : ∀ c b, c.orphanManage.orphan.length < fuel → Indexed c b →
        ∃ c' b' added, recur c b = some (c', b') ∧
          Promoted P (fun o => o.PreviousBlockHash ≠ b.Hash) c b c' b' added) :
    ∀ (l : List bc.Hash) (c : Chain σ) (b : Block),
      c.orphanManage.orphan.length ≤ fuel → Indexed c b →
      ∃ c' b' added, saveSubBlockLoop S CalcWork recur s l c b = some (c', b') ∧
        Promoted P (fun o => o.Hash ∉ l) c b c' b' added := by
  intro l
  induction l with
  | nil =>
    intro c b _ hb
    refine ⟨c, b, [], rfl, ?_⟩
    exact
      { bestNode_eq := rfl, mainChain_eq := rfl, index_eq := rfl, added_le := by simp,
        added_orphan := by simp, pool_sub := List.Sublist.refl _, height_le := le_refl _,
        indexed := hb, origin := Or.inl rfl, remaining := by intro _ o _; simp }
  | cons x rest ih =>
    intro c b hlen hb
    rw [saveSubBlockLoop]
    rcases hg : c.orphanManage.Get x with _ | o
    · simp only
      obtain ⟨c', b', added, hrun, hp⟩ := ih c b hlen hb
      refine ⟨c', b', added, hrun, ?_⟩
      exact
        { bestNode_eq := hp.bestNode_eq, mainChain_eq := hp.mainChain_eq,
          index_eq := hp.index_eq, added_le := hp.added_le, added_orphan := hp.added_orphan,
          pool_sub := hp.pool_sub, height_le := hp.height_le, indexed := hp.indexed,
          origin := hp.origin,
          remaining := by
            intro hP o ho
            have h1 := hp.remaining hP o ho
            refine ⟨?_, h1.2⟩
            simp only [List.mem_cons, not_or]
            exact ⟨OrphanManage.Get_none hg o (hp.pool_sub.subset ho), h1.1⟩ }
    · obtain ⟨hmem, hhash⟩ := OrphanManage.Get_some hg
      simp only
      rcases hsb : saveBlock S CalcWork c o s with ⟨c1, _ | e⟩
      · -- the orphan is saved and promoted
        simp only
        obtain ⟨p, node, -, hheight, -, hnode, hc1⟩ := saveBlock_ok S CalcWork hsb
        have hnH : node.Hash = o.Hash := by rw [hnode]
        have hnHt : node.Height = o.Height := by rw [hnode]
        clear hnode
        have hpool1 : c1.orphanManage = c.orphanManage.Delete o.Hash := by rw [hc1]
        have hidx1 : c1.index.index = [node] ++ c.index.index := by
          rw [hc1]; rfl
        have hsub1 : c1.orphanManage.orphan.Sublist c.orphanManage.orphan := by
          rw [hpool1]; exact OrphanManage.Delete_sublist _ _
        have hadd1 : ∀ n ∈ [node], ∃ o' ∈ c.orphanManage.orphan, o'.Hash = n.Hash := by
          intro n hn
          simp only [List.mem_singleton] at hn
          exact ⟨o, hmem, by rw [hn, hnH]⟩
        have hlen1 : c1.orphanManage.orphan.length < fuel := by
          rw [hpool1]
          exact lt_of_lt_of_le (OrphanManage.Delete_length_lt hmem rfl) hlen
        have hio : Indexed c1 o := by
          refine ⟨⟨node, ?_, hnHt⟩, ?_⟩
          · rw [hc1, ← hnH]
            exact BlockIndex.GetNode_AddNode_self c.index node
          · rw [OrphanManage.BlockExist_false_iff, hpool1]
            exact OrphanManage.Delete_hash_ne _ _
        obtain ⟨c2, sub, added1, hrun1, hp1⟩ := hrec c1 o hlen1 hio
        rw [hrun1]
        simp only
        have hb2 : Indexed c2 b :=
          (hb.mono hidx1 hadd1 hsub1).mono hp1.index_eq hp1.added_orphan hp1.pool_sub
        have hbn : Indexed c2 (if sub.Height > b.Height then sub else b) := by
          split
          · exact hp1.indexed
          · exact hb2
        have hlen2 : c2.orphanManage.orphan.length ≤ fuel :=
          le_trans hp1.pool_sub.length_le (le_of_lt hlen1)
        obtain ⟨c', b', added2, hrun2, hp2⟩ := ih c2 _ hlen2 hbn
        have hsubH : sub.Height ≤ b'.Height := by
          refine le_trans ?_ hp2.height_le
          split
          · exact le_refl _
          · omega
        have hbH : b.Height ≤ b'.Height := by
          refine le_trans ?_ hp2.height_le
          split
          · omega
          · exact le_refl _
        refine ⟨c', b', added2 ++ (added1 ++ [node]),
          hrun2, ?_⟩
        exact
          { bestNode_eq := by rw [hp2.bestNode_eq, hp1.bestNode_eq, hc1]
            mainChain_eq := by rw [hp2.mainChain_eq, hp1.mainChain_eq, hc1]; rfl
            index_eq := by rw [hp2.index_eq, hp1.index_eq, hidx1]; simp
            added_le := by
              intro n hn
              simp only [List.mem_append, List.mem_singleton] at hn
              rcases hn with hn | hn | hn
              · exact hp2.added_le n hn
              · exact le_trans (hp1.added_le n hn) hsubH
              · rw [hn, hnHt]
                exact le_trans hp1.height_le hsubH
            added_orphan := by
              intro n hn
              simp only [List.mem_append, List.mem_singleton] at hn
              rcases hn with hn | hn | hn
              · obtain ⟨o', ho', he⟩ := hp2.added_orphan n hn
                exact ⟨o', hsub1.subset (hp1.pool_sub.subset ho'), he⟩
              · obtain ⟨o', ho', he⟩ := hp1.added_orphan n hn
                exact ⟨o', hsub1.subset ho', he⟩
              · exact ⟨o, hmem, by rw [hn, hnH]⟩
            pool_sub := (hp2.pool_sub.trans hp1.pool_sub).trans hsub1
            height_le := hbH
            indexed := hp2.indexed
            origin := by
              rcases hp2.origin with h | h
              · by_cases hgt : sub.Height > b.Height
                · rw [if_pos hgt] at h
                  rcases hp1.origin with h1 | h1
                  · right; rw [h, h1]; exact hmem
                  · right; rw [h]; exact hsub1.subset h1
                · rw [if_neg hgt] at h
                  exact Or.inl h
              · exact Or.inr (hsub1.subset (hp1.pool_sub.subset h))
            remaining := by
              intro hP o' ho'
              have hP1 : ∀ q ∈ c1.orphanManage.orphan, P q :=
                fun q hq => hP q (hsub1.subset hq)
              have hP2 : ∀ q ∈ c2.orphanManage.orphan, P q :=
                fun q hq => hP1 q (hp1.pool_sub.subset hq)
              have h2 := hp2.remaining hP2 o' ho'
              have ho2 : o' ∈ c2.orphanManage.orphan := hp2.pool_sub.subset ho'
              have h1 := hp1.remaining hP1 o' ho2
              have ho1 : o' ∈ c1.orphanManage.orphan := hp1.pool_sub.subset ho2
              refine ⟨?_, ?_⟩
              · simp only [List.mem_cons, not_or]
                refine ⟨?_, h2.1⟩
                rw [hpool1] at ho1
                rw [← hhash]
                exact OrphanManage.Delete_hash_ne _ _ o' ho1
              · intro n hn
                simp only [List.mem_append, List.mem_singleton] at hn
                rcases hn with hn | hn | hn
                · exact h2.2 n hn
                · exact h1.2 n hn
                · rw [hn, hnH]
                  exact h1.1 }
      · -- the orphan could not be saved: it is skipped
        simp only
        obtain ⟨hidx, hbest, hpool⟩ := saveBlock_err S CalcWork hsb
        have hsub1 : c1.orphanManage.orphan.Sublist c.orphanManage.orphan := by
          rcases hpool with h | h
          · rw [h]
          · rw [h]; exact OrphanManage.Delete_sublist _ _
        have hidx1 : c1.index.index = [] ++ c.index.index := by rw [hidx]; rfl
        have hb1 : Indexed c1 b := hb.mono hidx1 (by simp) hsub1
        obtain ⟨c', b', added, hrun, hp⟩ := ih c1 b (le_trans hsub1.length_le hlen) hb1
        refine ⟨c', b', added, hrun, ?_⟩
        exact
          { bestNode_eq := by rw [hp.bestNode_eq, hbest]
            mainChain_eq := by rw [hp.mainChain_eq, hidx]
            index_eq := by rw [hp.index_eq, hidx]
            added_le := hp.added_le
            added_orphan := by
              intro n hn
              obtain ⟨o', ho', he⟩ := hp.added_orphan n hn
              exact ⟨o', hsub1.subset ho', he⟩
            pool_sub := hp.pool_sub.trans hsub1
            height_le := hp.height_le
            indexed := hp.indexed
            origin := by
              rcases hp.origin with h | h
              · exact Or.inl h
              · exact Or.inr (hsub1.subset h)
            remaining := by
              intro hP o' ho'
              have hP1 : ∀ q ∈ c1.orphanManage.orphan, P q :=
                fun q hq => hP q (hsub1.subset hq)
              have h1 := hp.remaining hP1 o' ho'
              refine ⟨?_, h1.2⟩
              simp only [List.mem_cons, not_or]
              refine ⟨?_, h1.1⟩
              have hdel := saveBlock_err_pool S CalcWork hsb (hS _ _ _ (hP o hmem))
              have ho1 : o' ∈ c1.orphanManage.orphan := hp.pool_sub.subset ho'
              rw [hdel] at ho1
              rw [← hhash]
              exact OrphanManage.Delete_hash_ne _ _ o' ho1 }

theorem saveSubBlock_spec (P : Block → Prop)
    (hS : ∀ st o s, P o → (S.SaveBlock st o s).2 = none) (s : Option TransactionStatus) :
    ∀ (fuel : Nat) (c : Chain σ) (b : Block),
      c.orphanManage.orphan.length < fuel → Indexed c b →
      ∃ c' b' added, saveSubBlock S CalcWork fuel c b s = some (c', b') ∧
        Promoted P (fun o => o.PreviousBlockHash ≠ b.Hash) c b c' b' added := by
  intro fuel
  induction fuel with
  | zero => intro c b h; exact absurd h (Nat.not_lt_zero _)
  | succ fuel ih =>
    intro c b hlen hb
    rw [saveSubBlock]
    rcases hg : c.orphanManage.GetPrevOrphans b.Hash with _ | l
    · simp only
      refine ⟨c, b, [], rfl, ?_⟩
      exact
        { bestNode_eq := rfl, mainChain_eq := rfl, index_eq := rfl, added_le := by simp,
          added_orphan := by simp, pool_sub := List.Sublist.refl _, height_le := le_refl _,
          indexed := hb, origin := Or.inl rfl,
          remaining := by
            intro _ o ho
            refine ⟨?_, by simp⟩
            intro hprev
            unfold OrphanManage.GetPrevOrphans at hg
            split at hg
            · rename_i hnil
              have : o.Hash ∈ (c.orphanManage.orphan.filter
                  (fun q => decide (q.PreviousBlockHash = b.Hash))).map (fun q => q.Hash) :=
                List.mem_map.mpr ⟨o, List.mem_filter.mpr ⟨ho, by simpa using hprev⟩, rfl⟩
              rw [hnil] at this
              simp at this
            · simp at hg }
    · simp only
      obtain ⟨c', b', added, hrun, hp⟩ :=
        saveSubBlockLoop_spec S CalcWork P hS fuel s (fun c1 q => saveSubBlock S CalcWork fuel c1 q s)
          ih l c b (Nat.lt_succ_iff.mp hlen) hb
      refine ⟨c', b', added, hrun, ?_⟩
      exact
        { bestNode_eq := hp.bestNode_eq, mainChain_eq := hp.mainChain_eq,
          index_eq := hp.index_eq, added_le := hp.added_le, added_orphan := hp.added_orphan,
          pool_sub := hp.pool_sub, height_le := hp.height_le, indexed := hp.indexed,
          origin := hp.origin,
          remaining := by
            intro hP o ho
            have h1 := hp.remaining hP o ho
            refine ⟨?_, h1.2⟩
            intro hprev
            apply h1.1
            unfold OrphanManage.GetPrevOrphans at hg
            have hmem : o.Hash ∈ (c.orphanManage.orphan.filter
                (fun q => decide (q.PreviousBlockHash = b.Hash))).map (fun q => q.Hash) :=
              List.mem_map.mpr
                ⟨o, List.mem_filter.mpr ⟨hp.pool_sub.subset ho, by simpa using hprev⟩, rfl⟩
            split at hg
            · simp at hg
            · simp only [Option.some.injEq] at hg
              rw [← hg]
              exact hmem }
end promotion

section classification
variable {σ : Type} (S : Store σ) (CalcWork : Nat → Nat)

theorem setState_index (c : Chain σ) (n : BlockNode) :
    (setState S c n).1.index.index = c.index.index ∧
      (setState S c n).1.orphanManage = c.orphanManage := by
  unfold setState
  rcases S.SaveChainStatus c.store n with ⟨st, _ | e⟩ <;> simp [BlockIndex.SetMainChain]

theorem setState_ok {c c' : Chain σ} {n : BlockNode} (h : setState S c n = (c', none)) :
    c'.bestNode = n := by
  unfold setState at h
  rcases hs : S.SaveChainStatus c.store n with ⟨st, _ | e⟩
  · rw [hs] at h
    simp at h
    rw [← h]
  · rw [hs] at h
    simp at h

theorem Indexed_of_saveBlock {c c1 : Chain σ} {b : Block} {s : Option TransactionStatus}
    (h : saveBlock S CalcWork c b s = (c1, none)) : Indexed c1 b := by
  obtain ⟨p, node, -, -, -, hnode, hc1⟩ := saveBlock_ok S CalcWork h
  have hnH : node.Hash = b.Hash := by rw [hnode]
  have hnHt : node.Height = b.Height := by rw [hnode]
  refine ⟨⟨node, ?_, hnHt⟩, ?_⟩
  · rw [hc1, ← hnH]
    exact BlockIndex.GetNode_AddNode_self c.index node
  · rw [OrphanManage.BlockExist_false_iff, hc1]
    exact OrphanManage.Delete_hash_ne _ _

/-- The saved path of `processBlock`, spelled out: promotion returns, the candidate is
an index node at least as high as every node the call created, and the outcome is
`setState` on the candidate or no state advance. -/
theorem processBlock_saved (P : Block → Prop)
    (hS : ∀ st o s, P o → (S.SaveBlock st o s).2 = none)
    (c : Chain σ) (b : Block) (s : Option TransactionStatus) (c1 : Chain σ)
    (hunknown : c.BlockExist b.Hash = false)
    (hsave : saveBlock S CalcWork c b s = (c1, none)) :
    ∃ c2 bestBlock cand added,
      saveSubBlock S CalcWork (c1.orphanManage.orphan.length + 1) c1 b s = some (c2, bestBlock) ∧
      Promoted P (fun o => o.PreviousBlockHash ≠ b.Hash) c1 b c2 bestBlock added ∧
      c2.index.GetNode bestBlock.Hash = some cand ∧ cand.Height = bestBlock.Height ∧
      processBlock S CalcWork c b s =
        (if cand.Parent = some c.bestNode.Hash ∨
            (cand.Height > c.bestNode.Height ∧ cand.WorkSum ≥ c.bestNode.WorkSum) then
          some ((setState S c2 cand).1, false, (setState S c2 cand).2)
        else some (c2, false, none)) := by
  obtain ⟨c2, best, added, hrun, hp⟩ :=
    saveSubBlock_spec S CalcWork P hS s (c1.orphanManage.orphan.length + 1) c1 b
      (Nat.lt_succ_self _) (Indexed_of_saveBlock S CalcWork hsave)
  obtain ⟨⟨cand, hcand, hcH⟩, -⟩ := hp.indexed
  refine ⟨c2, best, cand, added, hrun, hp, hcand, hcH, ?_⟩
  obtain ⟨p, node, hpar, -, -, -, hc1⟩ := saveBlock_ok S CalcWork hsave
  have hbest : c2.bestNode = c.bestNode := by rw [hp.bestNode_eq, hc1]
  unfold processBlock
  rw [if_neg (by simp [hunknown]), hpar]
  simp only [hsave, hrun, hcand, connectBlock, reorganizeChain, hbest]
  by_cases h1 : cand.Parent = some c.bestNode.Hash
  · simp [h1]
  · by_cases h2 : cand.Height > c.bestNode.Height ∧ cand.WorkSum ≥ c.bestNode.WorkSum
    · simp [h1, h2]
    · simp [h1, h2]

/-- C1: for an unknown block whose parent is indexed and whose save succeeds, with
`cand` the index node of the highest block among the block and the orphans promoted
under it, `processBlock` calls `setState cand` exactly when `cand.Parent` is the best
node or `cand` is higher than the best node with at least its work; otherwise the best
node and the main chain are unchanged and the call returns `(false, nil)`. -/
theorem processBlock_classifies (c : Chain σ) (b : Block) (s : Option TransactionStatus)
    (c1 : Chain σ)
    (hunknown : c.BlockExist b.Hash = false)
    (_hparent : (c.index.GetNode b.PreviousBlockHash).isSome = true)
    (hsave : saveBlock S CalcWork c b s = (c1, none)) :
    ∃ c2 bestBlock cand added,
      saveSubBlock S CalcWork (c1.orphanManage.orphan.length + 1) c1 b s = some (c2, bestBlock) ∧
      c2.index.GetNode bestBlock.Hash = some cand ∧ cand.Height = bestBlock.Height ∧
      (bestBlock = b ∨ bestBlock ∈ c.orphanManage.orphan) ∧
      c2.index.index = added ++ c.index.index ∧ (∀ n ∈ added, n.Height ≤ cand.Height) ∧
      c2.bestNode = c.bestNode ∧ c2.index.mainChain = c.index.mainChain ∧
      processBlock S CalcWork c b s =
        (if cand.Parent = some c.bestNode.Hash ∨
            (cand.Height > c.bestNode.Height ∧ cand.WorkSum ≥ c.bestNode.WorkSum) then
          some ((setState S c2 cand).1, false, (setState S c2 cand).2)
        else some (c2, false, none)) := by
  obtain ⟨c2, best, cand, added, hrun, hp, hcand, hcH, hres⟩ :=
    processBlock_saved S CalcWork (fun _ => False) (fun _ _ _ h => h.elim) c b s c1 hunknown hsave
  obtain ⟨p, node, -, -, -, hnode, hc1⟩ := saveBlock_ok S CalcWork hsave
  have hnHt : node.Height = b.Height := by rw [hnode]
  refine ⟨c2, best, cand, added ++ [node], hrun, hcand, hcH, ?_, ?_, ?_, ?_, ?_, hres⟩
  · rcases hp.origin with h | h
    · exact Or.inl h
    · right
      rw [hc1] at h
      exact (OrphanManage.Delete_sublist _ _).subset h
  · rw [hp.index_eq, hc1]
    simp [BlockIndex.AddNode]
  · intro n hn
    simp only [List.mem_append, List.mem_singleton] at hn
    rw [hcH]
    rcases hn with hn | hn
    · exact hp.added_le n hn
    · rw [hn, hnHt]
      exact hp.height_le
  · rw [hp.bestNode_eq, hc1]
  · rw [hp.mainChain_eq, hc1]
    rfl

theorem processBlock_classifies_witness :
    orphanChain.BlockExist (mkBlock 101 1 100).Hash = false ∧
      (orphanChain.index.GetNode (mkBlock 101 1 100).PreviousBlockHash).isSome = true ∧
      saveBlock (listStore []) bitsWork orphanChain (mkBlock 101 1 100) none = (savedChain, none) ∧
      ∃ c2 bestBlock cand added,
        saveSubBlock (listStore []) bitsWork (savedChain.orphanManage.orphan.length + 1) savedChain
          (mkBlock 101 1 100) none = some (c2, bestBlock) ∧
        c2.index.GetNode bestBlock.Hash = some cand ∧ cand.Height = bestBlock.Height ∧
        (bestBlock = mkBlock 101 1 100 ∨ bestBlock ∈ orphanChain.orphanManage.orphan) ∧
        c2.index.index = added ++ orphanChain.index.index ∧
        (∀ n ∈ added, n.Height ≤ cand.Height) ∧
        c2.bestNode = orphanChain.bestNode ∧ c2.index.mainChain = orphanChain.index.mainChain ∧
        processBlock (listStore []) bitsWork orphanChain (mkBlock 101 1 100) none =
          (if cand.Parent = some orphanChain.bestNode.Hash ∨
              (cand.Height > orphanChain.bestNode.Height ∧
                cand.WorkSum ≥ orphanChain.bestNode.WorkSum) then
            some ((setState (listStore []) c2 cand).1, false, (setState (listStore []) c2 cand).2)
          else some (c2, false, none)) :=
  ⟨by decide, by decide, by decide,
    processBlock_classifies (listStore []) bitsWork orphanChain (mkBlock 101 1 100) none
      savedChain (by decide) (by decide) (by decide)⟩

end classification

section resubmission
variable {σ : Type} (S : Store σ) (CalcWork : Nat → Nat)

theorem BlockIndex.GetNode_congr {bi bi' : BlockIndex} (h : bi'.index = bi.index) (x : bc.Hash) :
    bi'.GetNode x = bi.GetNode x := by
  unfold BlockIndex.GetNode
  rw [h]

theorem BlockIndex.GetNode_of_fresh {bi bi' : BlockIndex} {added : List BlockNode}
    (h : bi'.index = added ++ bi.index) (x : bc.Hash) (hfresh : ∀ n ∈ added, n.Hash ≠ x) :
    bi'.GetNode x = bi.GetNode x := by
  rw [← BlockIndex.GetNode_append_of_fresh bi added x hfresh]
  exact BlockIndex.GetNode_congr h x

theorem OrphanManage.BlockExist_Add (o : OrphanManage) (b : Block) :
    (o.Add b).BlockExist b.Hash = true := by
  unfold OrphanManage.Add
  by_cases h : o.BlockExist b.Hash = true
  · rw [if_pos h]; exact h
  · rw [if_neg h]
    simp only [Bool.not_eq_true] at h
    rw [OrphanManage.BlockExist_false_iff] at h
    have hnone : o.orphan.find? (fun q => decide (q.Hash = b.Hash)) = none := by
      rw [List.find?_eq_none]
      intro q hq
      simpa using h q hq
    simp [OrphanManage.BlockExist, OrphanManage.Get, List.find?_append, hnone]

theorem OrphanManage.mem_Add {o : OrphanManage} {b q : Block} (h : q ∈ (o.Add b).orphan) :
    q ∈ o.orphan ∨ q = b := by
  unfold OrphanManage.Add at h
  split at h
  · exact Or.inl h
  · simpa using h

theorem processBlock_known (c : Chain σ) (b : Block) (s : Option TransactionStatus)
    (h : c.BlockExist b.Hash = true) :
    processBlock S CalcWork c b s = some (c, c.orphanManage.BlockExist b.Hash, none) := by
  unfold processBlock
  rw [if_pos h]

theorem processBlock_orphan (c : Chain σ) (b : Block) (s : Option TransactionStatus)
    (h : c.BlockExist b.Hash = false) (hp : c.index.GetNode b.PreviousBlockHash = none) :
    processBlock S CalcWork c b s =
      some ({ c with orphanManage := c.orphanManage.Add b }, true, none) := by
  unfold processBlock
  rw [if_neg (by simp [h]), hp]

theorem processBlock_unsaved (c c1 : Chain σ) (b : Block) (s : Option TransactionStatus)
    (e : Error) (p : BlockNode)
    (h : c.BlockExist b.Hash = false) (hp : c.index.GetNode b.PreviousBlockHash = some p)
    (hsave : saveBlock S CalcWork c b s = (c1, some e)) :
    processBlock S CalcWork c b s = some (c1, false, some e) := by
  unfold processBlock
  rw [if_neg (by simp [h]), hp]
  simp only [hsave]

/-- C2: when `processBlock` returns without error, submitting the same block again
(with any status) returns no error, reports whether the block is in the orphan pool,
and leaves the whole chain state (index, orphan pool, best node, store) as it was. -/
theorem processBlock_idempotent (c : Chain σ) (b : Block) (s s' : Option TransactionStatus)
    (c' : Chain σ) (isOrphan : Bool)
    (h : processBlock S CalcWork c b s = some (c', isOrphan, none)) :
    processBlock S CalcWork c' b s' = some (c', c'.orphanManage.BlockExist b.Hash, none) := by
  have hknown : c'.BlockExist b.Hash = true := by
    by_cases hk : c.BlockExist b.Hash = true
    · rw [processBlock_known S CalcWork c b s hk] at h
      simp only [Option.some.injEq, Prod.mk.injEq] at h
      rw [← h.1]; exact hk
    · simp only [Bool.not_eq_true] at hk
      rcases hp : c.index.GetNode b.PreviousBlockHash with _ | p
      · rw [processBlock_orphan S CalcWork c b s hk hp] at h
        simp only [Option.some.injEq, Prod.mk.injEq] at h
        rw [← h.1]
        simp [Chain.BlockExist, OrphanManage.BlockExist_Add]
      · rcases hsb : saveBlock S CalcWork c b s with ⟨c1, _ | e⟩
        · obtain ⟨c2, best, cand, added, -, hpr, -, -, hres⟩ :=
            processBlock_saved S CalcWork (fun _ => False) (fun _ _ _ h => h.elim) c b s c1 hk hsb
          have hb2 : Indexed c2 b :=
            (Indexed_of_saveBlock S CalcWork hsb).mono hpr.index_eq hpr.added_orphan hpr.pool_sub
          obtain ⟨⟨n, hn, -⟩, -⟩ := hb2
          have hidx : c'.index.index = c2.index.index := by
            rw [hres] at h
            split at h
            · simp only [Option.some.injEq, Prod.mk.injEq] at h
              rw [← h.1]
              exact (setState_index S c2 cand).1
            · simp only [Option.some.injEq, Prod.mk.injEq] at h
              rw [← h.1]
          have : c'.index.GetNode b.Hash = some n := by
            rw [BlockIndex.GetNode_congr hidx, hn]
          simp [Chain.BlockExist, BlockIndex.BlockExist, this]
        · rw [processBlock_unsaved S CalcWork c c1 b s e p hk hp hsb] at h
          simp at h
  exact processBlock_known S CalcWork c' b s' hknown

theorem processBlock_idempotent_witness :
    processBlock (listStore []) bitsWork orphanChain (mkBlock 101 1 100) none =
        some (promotedChain, false, none) ∧
      processBlock (listStore []) bitsWork promotedChain (mkBlock 101 1 100) none =
        some (promotedChain, promotedChain.orphanManage.BlockExist (mkBlock 101 1 100).Hash, none) :=
  ⟨by decide, processBlock_idempotent (listStore []) bitsWork orphanChain (mkBlock 101 1 100)
    none none promotedChain false (by decide)⟩

/-- C3: for an unknown block whose parent is indexed, a failing `store.SaveBlock`
makes `processBlock` return `(false, that error)` with the block index, the orphan
pool and the best node unchanged. -/
theorem processBlock_store_failure (c : Chain σ) (b : Block) (s : Option TransactionStatus)
    (e : Error)
    (hunknown : c.BlockExist b.Hash = false)
    (hparent : (c.index.GetNode b.PreviousBlockHash).isSome = true)
    (hfail : (S.SaveBlock c.store b s).2 = some e) :
    ∃ c', processBlock S CalcWork c b s = some (c', false, some e) ∧
      c'.index = c.index ∧ c'.orphanManage = c.orphanManage ∧ c'.bestNode = c.bestNode := by
  obtain ⟨p, hp⟩ := Option.isSome_iff_exists.mp hparent
  have hsave : saveBlock S CalcWork c b s =
      ({ c with store := (S.SaveBlock c.store b s).1 }, some e) := by
    unfold saveBlock
    rcases hs : S.SaveBlock c.store b s with ⟨st, _ | e'⟩
    · rw [hs] at hfail; simp at hfail
    · rw [hs] at hfail
      simp only [Option.some.injEq] at hfail
      simp [hfail]
  exact ⟨_, processBlock_unsaved S CalcWork c _ b s e p hunknown hp hsave, rfl, rfl, rfl⟩

theorem processBlock_store_failure_witness :
    genesisChain.BlockExist (mkBlock 101 1 100).Hash = false ∧
      (genesisChain.index.GetNode (mkBlock 101 1 100).PreviousBlockHash).isSome = true ∧
      ((listStore [101]).SaveBlock genesisChain.store (mkBlock 101 1 100) none).2 =
        some (Error.external 1) ∧
      ∃ c', processBlock (listStore [101]) bitsWork genesisChain (mkBlock 101 1 100) none =
          some (c', false, some (Error.external 1)) ∧
        c'.index = genesisChain.index ∧ c'.orphanManage = genesisChain.orphanManage ∧
        c'.bestNode = genesisChain.bestNode :=
  ⟨by decide, by decide, by decide,
    processBlock_store_failure (listStore [101]) bitsWork genesisChain (mkBlock 101 1 100) none
      (Error.external 1) (by decide) (by decide) (by decide)⟩

end resubmission

section reverseOrder
variable {σ : Type} (S : Store σ) (CalcWork : Nat → Nat)

theorem saveBlock_eq (c : Chain σ) (b : Block) (s : Option TransactionStatus) (p : BlockNode)
    (hp : c.index.GetNode b.PreviousBlockHash = some p) (hh : b.Height = p.Height + 1)
    (hs : (S.SaveBlock c.store b s).2 = none) :
    saveBlock S CalcWork c b s =
      ({ index := c.index.AddNode
            { Parent := some p.Hash, Hash := b.Hash, Height := b.Height, Bits := b.Bits,
              WorkSum := p.WorkSum + CalcWork b.Bits },
         orphanManage := c.orphanManage.Delete b.Hash,
         bestNode := c.bestNode,
         store := (S.SaveBlock c.store b s).1 }, none) := by
  unfold saveBlock
  rcases hsv : S.SaveBlock c.store b s with ⟨st, _ | e⟩
  · simp [hp, NewBlockNode, hh]
  · rw [hsv] at hs; simp at hs

theorem setState_eq (c : Chain σ) (n : BlockNode) (hs : (S.SaveChainStatus c.store n).2 = none) :
    setState S c n =
      ({ c with store := (S.SaveChainStatus c.store n).1, index := c.index.SetMainChain n,
                bestNode := n }, none) := by
  unfold setState
  rcases hsv : S.SaveChainStatus c.store n with ⟨st, _ | e⟩
  · rfl
  · rw [hsv] at hs; simp at hs

/-- C4: from an empty orphan pool, three unknown blocks that chain on the best node and
are submitted in the order `b3`, `b2`, `b1`, all saves succeeding, end with `b3` as best
node and an empty orphan pool; the first two calls report an orphan, the third does
not. -/
theorem orphans_promoted_in_reverse_order (c : Chain σ) (b1 b2 b3 : Block)
    (s1 s2 s3 : Option TransactionStatus)
    (hempty : c.orphanManage.orphan = [])
    (hbest : c.index.GetNode c.bestNode.Hash = some c.bestNode)
    (hp1 : b1.PreviousBlockHash = c.bestNode.Hash)
    (hp2 : b2.PreviousBlockHash = b1.Hash)
    (hp3 : b3.PreviousBlockHash = b2.Hash)
    (hu1 : c.BlockExist b1.Hash = false)
    (hu2 : c.BlockExist b2.Hash = false)
    (hu3 : c.BlockExist b3.Hash = false)
    (h12 : b1.Hash ≠ b2.Hash) (h13 : b1.Hash ≠ b3.Hash) (h23 : b2.Hash ≠ b3.Hash)
    (hh1 : b1.Height = c.bestNode.Height + 1)
    (hh2 : b2.Height = b1.Height + 1)
    (hh3 : b3.Height = b2.Height + 1)
    (hsb : ∀ st blk s, (S.SaveBlock st blk s).2 = none)
    (hsc : ∀ st n, (S.SaveChainStatus st n).2 = none) :
    ∃ cA cB cC,
      processBlock S CalcWork c b3 s3 = some (cA, true, none) ∧
      processBlock S CalcWork cA b2 s2 = some (cB, true, none) ∧
      processBlock S CalcWork cB b1 s1 = some (cC, false, none) ∧
      cC.index.GetNode b3.Hash = some cC.bestNode ∧
      cC.bestNode.Hash = b3.Hash ∧ cC.bestNode.Height = c.bestNode.Height + 3 ∧
      cC.orphanManage.orphan = [] := by
  have hi1 : c.index.GetNode b1.Hash = none := by
    have h := hu1
    simp only [Chain.BlockExist, BlockIndex.BlockExist, Bool.or_eq_false_iff] at h
    simpa using h.1
  have hi2 : c.index.GetNode b2.Hash = none := by
    have h := hu2
    simp only [Chain.BlockExist, BlockIndex.BlockExist, Bool.or_eq_false_iff] at h
    simpa using h.1
  have hi3 : c.index.GetNode b3.Hash = none := by
    have h := hu3
    simp only [Chain.BlockExist, BlockIndex.BlockExist, Bool.or_eq_false_iff] at h
    simpa using h.1
  -- first call: `b3` is parked
  have hA : processBlock S CalcWork c b3 s3 =
      some ({ c with orphanManage := { orphan := [b3] } }, true, none) := by
    rw [processBlock_orphan S CalcWork c b3 s3 hu3 (by rw [hp3]; exact hi2)]
    simp [OrphanManage.Add, OrphanManage.BlockExist, OrphanManage.Get, hempty]
  -- second call: `b2` is parked
  have hB : processBlock S CalcWork { c with orphanManage := { orphan := [b3] } } b2 s2 =
      some ({ c with orphanManage := { orphan := [b3, b2] } }, true, none) := by
    rw [processBlock_orphan S CalcWork _ b2 s2
      (by simp [Chain.BlockExist, BlockIndex.BlockExist, hi2, OrphanManage.BlockExist,
            OrphanManage.Get, Ne.symm h23])
      (by simp only; rw [hp2]; exact hi1)]
    simp [OrphanManage.Add, OrphanManage.BlockExist, OrphanManage.Get, Ne.symm h23]
  -- third call: `b1` is saved and both orphans are promoted
  obtain ⟨n1, hn1⟩ : ∃ n1 : BlockNode, n1 =
      { Parent := some c.bestNode.Hash, Hash := b1.Hash, Height := b1.Height, Bits := b1.Bits,
        WorkSum := c.bestNode.WorkSum + CalcWork b1.Bits } := ⟨_, rfl⟩
  obtain ⟨n2, hn2⟩ : ∃ n2 : BlockNode, n2 =
      { Parent := some n1.Hash, Hash := b2.Hash, Height := b2.Height, Bits := b2.Bits,
        WorkSum := n1.WorkSum + CalcWork b2.Bits } := ⟨_, rfl⟩
  obtain ⟨n3, hn3⟩ : ∃ n3 : BlockNode, n3 =
      { Parent := some n2.Hash, Hash := b3.Hash, Height := b3.Height, Bits := b3.Bits,
        WorkSum := n2.WorkSum + CalcWork b3.Bits } := ⟨_, rfl⟩
  have e1 : n1.Hash = b1.Hash ∧ n1.Height = b1.Height := by rw [hn1]; exact ⟨rfl, rfl⟩
  have e2 : n2.Hash = b2.Hash ∧ n2.Height = b2.Height := by rw [hn2]; exact ⟨rfl, rfl⟩
  have e3 : n3.Hash = b3.Hash ∧ n3.Height = b3.Height ∧ n3.Parent = some n2.Hash ∧
      n3.WorkSum = n2.WorkSum + CalcWork b3.Bits := by rw [hn3]; exact ⟨rfl, rfl, rfl, rfl⟩
  have w2 : n2.WorkSum = c.bestNode.WorkSum + CalcWork b1.Bits + CalcWork b2.Bits := by
    rw [hn2, hn1]
  -- the three saves
  have hs1 : saveBlock S CalcWork { c with orphanManage := { orphan := [b3, b2] } } b1 s1 =
      ({ index := c.index.AddNode n1, orphanManage := { orphan := [b3, b2] },
         bestNode := c.bestNode, store := (S.SaveBlock c.store b1 s1).1 }, none) := by
    rw [saveBlock_eq S CalcWork _ b1 s1 c.bestNode (by simp only; rw [hp1]; exact hbest) hh1
      (hsb _ _ _), hn1]
    simp [OrphanManage.Delete, Ne.symm h12, Ne.symm h13]
  have hs2 : saveBlock S CalcWork
      { index := c.index.AddNode n1, orphanManage := { orphan := [b3, b2] },
        bestNode := c.bestNode, store := (S.SaveBlock c.store b1 s1).1 } b2 s1 =
      ({ index := (c.index.AddNode n1).AddNode n2, orphanManage := { orphan := [b3] },
         bestNode := c.bestNode,
         store := (S.SaveBlock (S.SaveBlock c.store b1 s1).1 b2 s1).1 }, none) := by
    rw [saveBlock_eq S CalcWork _ b2 s1 n1
      (by simp only; rw [hp2, ← e1.1]; exact BlockIndex.GetNode_AddNode_self _ _)
      (by rw [hh2, e1.2]) (hsb _ _ _), hn2]
    simp [OrphanManage.Delete, Ne.symm h23]
  have hs3 : saveBlock S CalcWork
      { index := (c.index.AddNode n1).AddNode n2, orphanManage := { orphan := [b3] },
        bestNode := c.bestNode,
        store := (S.SaveBlock (S.SaveBlock c.store b1 s1).1 b2 s1).1 } b3 s1 =
      ({ index := ((c.index.AddNode n1).AddNode n2).AddNode n3, orphanManage := { orphan := [] },
         bestNode := c.bestNode,
         store := (S.SaveBlock (S.SaveBlock (S.SaveBlock c.store b1 s1).1 b2 s1).1 b3 s1).1 },
       none) := by
    rw [saveBlock_eq S CalcWork _ b3 s1 n2
      (by simp only; rw [hp3, ← e2.1]; exact BlockIndex.GetNode_AddNode_self _ _)
      (by rw [hh3, e2.2]) (hsb _ _ _), hn3]
    simp [OrphanManage.Delete]
  -- the promotion, innermost call first
  have hr3 : saveSubBlock S CalcWork 1
      { index := ((c.index.AddNode n1).AddNode n2).AddNode n3, orphanManage := { orphan := [] },
        bestNode := c.bestNode,
        store := (S.SaveBlock (S.SaveBlock (S.SaveBlock c.store b1 s1).1 b2 s1).1 b3 s1).1 }
      b3 s1 =
      some ({ index := ((c.index.AddNode n1).AddNode n2).AddNode n3,
              orphanManage := { orphan := [] }, bestNode := c.bestNode,
              store := (S.SaveBlock (S.SaveBlock (S.SaveBlock c.store b1 s1).1 b2 s1).1 b3 s1).1 },
            b3) := by
    simp [saveSubBlock, OrphanManage.GetPrevOrphans]
  have hr2 : saveSubBlock S CalcWork 2
      { index := (c.index.AddNode n1).AddNode n2, orphanManage := { orphan := [b3] },
        bestNode := c.bestNode,
        store := (S.SaveBlock (S.SaveBlock c.store b1 s1).1 b2 s1).1 } b2 s1 =
      some ({ index := ((c.index.AddNode n1).AddNode n2).AddNode n3,
              orphanManage := { orphan := [] }, bestNode := c.bestNode,
              store := (S.SaveBlock (S.SaveBlock (S.SaveBlock c.store b1 s1).1 b2 s1).1 b3 s1).1 },
            b3) := by
    rw [saveSubBlock]
    simp only [OrphanManage.GetPrevOrphans, List.filter, hp3, decide_True, List.map,
      saveSubBlockLoop, OrphanManage.Get, List.find?, hs3, hr3]
    simp [hh3]
  have hr1 : saveSubBlock S CalcWork 3
      { index := c.index.AddNode n1, orphanManage := { orphan := [b3, b2] },
        bestNode := c.bestNode, store := (S.SaveBlock c.store b1 s1).1 } b1 s1 =
      some ({ index := ((c.index.AddNode n1).AddNode n2).AddNode n3,
              orphanManage := { orphan := [] }, bestNode := c.bestNode,
              store := (S.SaveBlock (S.SaveBlock (S.SaveBlock c.store b1 s1).1 b2 s1).1 b3 s1).1 },
            b3) := by
    rw [saveSubBlock]
    have hd1 : decide (b2.Hash = b1.Hash) = false := by simpa using Ne.symm h12
    have hd2 : decide (b3.Hash = b2.Hash) = false := by simpa using Ne.symm h23
    simp only [OrphanManage.GetPrevOrphans, List.filter, hp3, hp2, hd1, decide_True, List.map,
      saveSubBlockLoop, OrphanManage.Get, List.find?, hd2, hs2, hr2]
    have : b3.Height > b1.Height := by omega
    simp [this]
  have hne : b2.Hash ≠ c.bestNode.Hash := by
    intro h
    rw [h, hbest] at hi2
    simp at hi2
  have hC : processBlock S CalcWork { c with orphanManage := { orphan := [b3, b2] } } b1 s1 =
      some ({ index := (((c.index.AddNode n1).AddNode n2).AddNode n3).SetMainChain n3,
              orphanManage := { orphan := [] }, bestNode := n3,
              store := (S.SaveChainStatus
                (S.SaveBlock (S.SaveBlock (S.SaveBlock c.store b1 s1).1 b2 s1).1 b3 s1).1 n3).1 },
            false, none) := by
    unfold processBlock
    rw [if_neg (by
      simp [Chain.BlockExist, BlockIndex.BlockExist, hi1, OrphanManage.BlockExist,
        OrphanManage.Get, Ne.symm h12, Ne.symm h13])]
    simp only [hp1, hbest, hs1, List.length_cons, List.length_nil, hr1]
    have hg3 : BlockIndex.GetNode (((c.index.AddNode n1).AddNode n2).AddNode n3) b3.Hash =
        some n3 := by
      rw [← e3.1]; exact BlockIndex.GetNode_AddNode_self _ _
    simp only [Nat.zero_add, Nat.reduceAdd, hr1, hg3]
    have hpar : ¬ (n3.Parent = some c.bestNode.Hash) := by
      rw [e3.2.2.1, e2.1]
      simpa using hne
    have hgt : n3.Height > c.bestNode.Height ∧ n3.WorkSum ≥ c.bestNode.WorkSum := by
      rw [e3.2.1, e3.2.2.2, w2]
      omega
    rw [if_neg hpar, if_pos hgt]
    simp only [reorganizeChain]
    rw [setState_eq S _ n3 (hsc _ _)]
  refine ⟨_, _, _, hA, hB, hC, ?_, e3.1, ?_, rfl⟩
  · simp only [BlockIndex.SetMainChain]
    rw [← e3.1]
    exact BlockIndex.GetNode_AddNode_self _ _
  · simp only
    rw [e3.2.1]
    omega

theorem orphans_promoted_in_reverse_order_witness :
    genesisChain.orphanManage.orphan = [] ∧
      genesisChain.index.GetNode genesisChain.bestNode.Hash = some genesisChain.bestNode ∧
      (mkBlock 101 1 100).PreviousBlockHash = genesisChain.bestNode.Hash ∧
      (mkBlock 102 2 101).PreviousBlockHash = (mkBlock 101 1 100).Hash ∧
      (mkBlock 103 3 102).PreviousBlockHash = (mkBlock 102 2 101).Hash ∧
      genesisChain.BlockExist (mkBlock 101 1 100).Hash = false ∧
      genesisChain.BlockExist (mkBlock 102 2 101).Hash = false ∧
      genesisChain.BlockExist (mkBlock 103 3 102).Hash = false ∧
      (∀ st blk s, ((listStore []).SaveBlock st blk s).2 = none) ∧
      (∀ st n, ((listStore []).SaveChainStatus st n).2 = none) ∧
      ∃ cA cB cC,
        processBlock (listStore []) bitsWork genesisChain (mkBlock 103 3 102) none =
          some (cA, true, none) ∧
        processBlock (listStore []) bitsWork cA (mkBlock 102 2 101) none = some (cB, true, none) ∧
        processBlock (listStore []) bitsWork cB (mkBlock 101 1 100) none = some (cC, false, none) ∧
        cC.index.GetNode (mkBlock 103 3 102).Hash = some cC.bestNode ∧
        cC.bestNode.Hash = (mkBlock 103 3 102).Hash ∧
        cC.bestNode.Height = genesisChain.bestNode.Height + 3 ∧
        cC.orphanManage.orphan = [] :=
  ⟨by decide, by decide, by decide, by decide, by decide, by decide, by decide, by decide,
    fun _ _ _ => by simp [listStore], fun _ _ => rfl,
    orphans_promoted_in_reverse_order (listStore []) bitsWork genesisChain
      (mkBlock 101 1 100) (mkBlock 102 2 101) (mkBlock 103 3 102) none none none
      (by decide) (by decide) (by decide) (by decide) (by decide) (by decide) (by decide)
      (by decide) (by decide) (by decide) (by decide) (by decide) (by decide) (by decide)
      (fun _ _ _ => by simp [listStore]) (fun _ _ => rfl)⟩

end reverseOrder

section orphanInvariant
variable {σ : Type} (S : Store σ) (CalcWork : Nat → Nat)

/-- Counterexample to C6 as stated: block 102 is parked on the unknown block 101, the store refuses
block 102, and after block 101 is processed the parked block's parent is indexed. -/
theorem orphan_invariant_counterexample :
    (∀ o ∈ orphanChain.orphanManage.orphan,
        orphanChain.index.GetNode o.PreviousBlockHash = none) ∧
      processBlock (listStore [102]) bitsWork orphanChain (mkBlock 101 1 100) none =
        some (stuckChain, false, none) ∧
      ¬ (∀ o ∈ stuckChain.orphanManage.orphan,
        stuckChain.index.GetNode o.PreviousBlockHash = none) := by
  decide

/-- C6 (amended): if every block of the orphan pool has a previous hash absent from the
block index and the store does not refuse any block of the orphan pool, then
`processBlock` returns and the same holds of the resulting pool and index, for every
submitted block, whatever the store does with the submitted block and the chain
status. -/
theorem orphan_invariant_preserved (c : Chain σ) (b : Block) (s : Option TransactionStatus)
    (hinv : ∀ o ∈ c.orphanManage.orphan, c.index.GetNode o.PreviousBlockHash = none)
    (hstore : ∀ st o s', o ∈ c.orphanManage.orphan → (S.SaveBlock st o s').2 = none) :
    ∃ c' isOrphan err, processBlock S CalcWork c b s = some (c', isOrphan, err) ∧
      ∀ o ∈ c'.orphanManage.orphan, c'.index.GetNode o.PreviousBlockHash = none := by
  by_cases hk : c.BlockExist b.Hash = true
  · exact ⟨_, _, _, processBlock_known S CalcWork c b s hk, hinv⟩
  · simp only [Bool.not_eq_true] at hk
    rcases hp : c.index.GetNode b.PreviousBlockHash with _ | p
    · refine ⟨_, _, _, processBlock_orphan S CalcWork c b s hk hp, ?_⟩
      intro o ho
      rcases OrphanManage.mem_Add ho with h | h
      · exact hinv o h
      · rw [h]; exact hp
    · rcases hsb : saveBlock S CalcWork c b s with ⟨c1, _ | e⟩
      · obtain ⟨c2, best, cand, added, -, hpr, -, -, hres⟩ :=
          processBlock_saved S CalcWork (fun o => o ∈ c.orphanManage.orphan)
            (fun st o s' h => hstore st o s' h) c b s c1 hk hsb
        obtain ⟨q, node, -, -, -, hnode, hc1⟩ := saveBlock_ok S CalcWork hsb
        have hnH : node.Hash = b.Hash := by rw [hnode]
        have hsub1 : c1.orphanManage.orphan.Sublist c.orphanManage.orphan := by
          rw [hc1]; exact OrphanManage.Delete_sublist _ _
        have hidx2 : c2.index.index = (added ++ [node]) ++ c.index.index := by
          rw [hpr.index_eq, hc1]
          simp [BlockIndex.AddNode]
        have hinv2 : ∀ o ∈ c2.orphanManage.orphan,
            c2.index.GetNode o.PreviousBlockHash = none := by
          intro o ho
          have hrem := hpr.remaining (fun x hx => hsub1.subset hx) o ho
          rw [BlockIndex.GetNode_of_fresh hidx2]
          · exact hinv o (hsub1.subset (hpr.pool_sub.subset ho))
          · intro n hn
            simp only [List.mem_append, List.mem_singleton] at hn
            rcases hn with hn | hn
            · exact fun h => hrem.2 n hn h.symm
            · rw [hn, hnH]
              exact fun h => hrem.1 h.symm
        rw [hres]
        split
        · refine ⟨_, _, _, rfl, ?_⟩
          intro o ho
          rw [(setState_index S c2 cand).2] at ho
          rw [BlockIndex.GetNode_congr (setState_index S c2 cand).1]
          exact hinv2 o ho
        · exact ⟨_, _, _, rfl, hinv2⟩
      · refine ⟨_, _, _, processBlock_unsaved S CalcWork c c1 b s e p hk hp hsb, ?_⟩
        obtain ⟨hidx, -, hpool⟩ := saveBlock_err S CalcWork hsb
        intro o ho
        rw [hidx]
        apply hinv
        rcases hpool with h | h
        · rw [h] at ho; exact ho
        · rw [h] at ho; exact (OrphanManage.Delete_sublist _ _).subset ho

theorem orphan_invariant_preserved_witness :
    (∀ o ∈ orphanChain.orphanManage.orphan,
        orphanChain.index.GetNode o.PreviousBlockHash = none) ∧
      (∀ st o s', o ∈ orphanChain.orphanManage.orphan →
        ((listStore []).SaveBlock st o s').2 = none) ∧
      ∃ c' isOrphan err,
        processBlock (listStore []) bitsWork orphanChain (mkBlock 101 1 100) none =
          some (c', isOrphan, err) ∧
        ∀ o ∈ c'.orphanManage.orphan, c'.index.GetNode o.PreviousBlockHash = none :=
  ⟨by decide, fun _ _ _ _ => by simp [listStore],
    orphan_invariant_preserved (listStore []) bitsWork orphanChain (mkBlock 101 1 100) none
      (by decide) (fun _ _ _ _ => by simp [listStore])⟩

end orphanInvariant

section mainChain

theorem BlockIndex.GetNode_some {bi : BlockIndex} {h : bc.Hash} {n : BlockNode}
    (hg : bi.GetNode h = some n) : n.Hash = h ∧ n ∈ bi.index := by
  unfold BlockIndex.GetNode at hg
  exact ⟨by simpa using List.find?_some hg, List.mem_of_find?_eq_some hg⟩

theorem BlockIndex.parentOf_some {bi : BlockIndex} {n p : BlockNode}
    (h : bi.parentOf n = some p) : n.Parent = some p.Hash ∧ p ∈ bi.index := by
  unfold BlockIndex.parentOf at h
  rcases hp : n.Parent with _ | ph
  · rw [hp] at h; simp at h
  · rw [hp] at h
    simp only [Option.some_bind] at h
    obtain ⟨h1, h2⟩ := BlockIndex.GetNode_some h
    exact ⟨by rw [h1], h2⟩

theorem BlockIndex.WellFormed.cases {bi : BlockIndex} (hwf : bi.WellFormed) {n : BlockNode}
    (hn : n ∈ bi.index) :
    (n.Parent = none ∧ n.Height = 0) ∨
      ∃ p, bi.parentOf n = some p ∧ p ∈ bi.index ∧ p.Height + 1 = n.Height ∧
        n.Parent = some p.Hash := by
  rcases (hwf.1 n hn).2 with h | h
  · exact Or.inl h
  · right
    obtain ⟨p, hp, hh⟩ := Option.map_eq_some'.mp h
    obtain ⟨h1, h2⟩ := BlockIndex.parentOf_some hp
    exact ⟨p, hp, h2, hh, h1⟩

theorem BlockIndex.parentPath_root {bi : BlockIndex} (hwf : bi.WellFormed) {n : BlockNode}
    (hn : n ∈ bi.index) (hp : n.Parent = none) :
    bi.parentPath (n.Height + 1) (some n.Hash) = [n.Hash] := by
  rcases hwf.cases hn with h | ⟨p, -, -, -, h⟩
  · rw [BlockIndex.parentPath, (hwf.1 n hn).1, h.2]
    simp [BlockIndex.parentPath]
  · rw [hp] at h; simp at h

theorem BlockIndex.parentPath_step {bi : BlockIndex} (hwf : bi.WellFormed) {n p : BlockNode}
    (hn : n ∈ bi.index) (hp : bi.parentOf n = some p) (hh : p.Height + 1 = n.Height) :
    bi.parentPath (n.Height + 1) (some n.Hash) =
      n.Hash :: bi.parentPath (p.Height + 1) (some p.Hash) := by
  rw [BlockIndex.parentPath, (hwf.1 n hn).1, ← hh]
  simp only
  rw [(BlockIndex.parentOf_some hp).1]

/-- The main chain that `SetMainChain` builds for a tip, as a function of the tip: it
has one entry per height up to the tip, the tip on top, the root at the bottom, and it
is closed under taking parents. -/
theorem BlockIndex.mainChain_of_tip {bi : BlockIndex} (hwf : bi.WellFormed) :
    ∀ (k : Nat) (x : BlockNode), x ∈ bi.index → x.Height = k →
      ((bi.parentPath (x.Height + 1) (some x.Hash)).reverse.length = x.Height + 1) ∧
      ((bi.parentPath (x.Height + 1) (some x.Hash)).reverse.get? x.Height = some x.Hash) ∧
      (∀ r ∈ bi.index, r.Parent = none →
        (bi.parentPath (x.Height + 1) (some x.Hash)).reverse.get? 0 = some r.Hash) ∧
      (∀ y ∈ bi.index,
        (bi.parentPath (x.Height + 1) (some x.Hash)).reverse.get? y.Height = some y.Hash →
        ∀ q, bi.parentOf y = some q →
          (bi.parentPath (x.Height + 1) (some x.Hash)).reverse.get? q.Height = some q.Hash) := by
  intro k
  induction k with
  | zero =>
    intro x hx hk
    rcases hwf.cases hx with h | ⟨p, -, -, hh, -⟩
    · rw [BlockIndex.parentPath_root hwf hx h.1, hk]
      refine ⟨by simp, by simp, ?_, ?_⟩
      · intro r hr hrp
        rw [hwf.2 r hr x hx hrp h.1]
        simp
      · intro y hy hget q hq
        rcases hwf.cases hy with h' | ⟨p, hp, -, hh, -⟩
        · rw [BlockIndex.parentOf, h'.1] at hq
          simp at hq
        · rw [List.get?_eq_getElem?, List.getElem?_eq_none (by simp; omega)] at hget
          simp at hget
    · omega
  | succ k ih =>
    intro x hx hk
    rcases hwf.cases hx with h | ⟨p, hp, hpi, hh, -⟩
    · omega
    · obtain ⟨hlen, htop, hroot, hclosed⟩ := ih p hpi (by omega)
      rw [BlockIndex.parentPath_step hwf hx hp hh]
      simp only [List.reverse_cons, List.get?_eq_getElem?] at *
      have hl : (bi.parentPath (p.Height + 1) (some p.Hash)).reverse.length = x.Height := by
        rw [hlen, hh]
      refine ⟨by simp [hl], ?_, ?_, ?_⟩
      · rw [← hl]
        simp
      · intro r hr hrp
        rw [List.getElem?_append_left (by omega)]
        exact hroot r hr hrp
      · intro y hy hget q hq
        have hqy : q.Height + 1 = y.Height := by
          rcases hwf.cases hy with h' | ⟨p', hp', -, hh', -⟩
          · rw [BlockIndex.parentOf, h'.1] at hq
            simp at hq
          · rw [hq] at hp'
            simp only [Option.some.injEq] at hp'
            rw [hp']; exact hh'
        by_cases hlt : y.Height < x.Height
        · rw [List.getElem?_append_left (by omega)] at hget
          rw [List.getElem?_append_left (by omega)]
          exact hclosed y hy hget q hq
        · have hle : y.Height ≤ x.Height := by
            by_contra hc
            rw [List.getElem?_eq_none (by simp [hl]; omega)] at hget
            simp at hget
          have heq : y.Height = x.Height := by omega
          rw [heq, ← hl] at hget
          simp only [List.getElem?_concat_length, Option.some.injEq] at hget
          have hyx : y = x := by
            have h1 := (hwf.1 y hy).1
            rw [← hget, (hwf.1 x hx).1] at h1
            simpa using h1.symm
          rw [hyx, hp] at hq
          simp only [Option.some.injEq] at hq
          rw [List.getElem?_append_left (by omega), ← hq]
          exact htop

end mainChain

section reorganisation

theorem BlockIndex.onMainChain_iff {bi : BlockIndex} (hwf : bi.WellFormed) {y : BlockNode}
    (hy : y ∈ bi.index) :
    bi.onMainChain y = true ↔ bi.mainChain.get? y.Height = some y.Hash := by
  unfold BlockIndex.onMainChain BlockIndex.NodeByHeight
  rcases hget : bi.mainChain.get? y.Height with _ | hh
  · simp
  · simp only [decide_eq_true_eq, Option.some.injEq]
    constructor
    · intro h
      obtain ⟨m, hm, hmh⟩ := Option.map_eq_some'.mp h
      rw [← (BlockIndex.GetNode_some hm).1, hmh]
    · intro h
      rw [h, (hwf.1 y hy).1]
      rfl

theorem BlockIndex.IsParentPath.head {bi : BlockIndex} {bottom top : BlockNode}
    {l : List BlockNode} (h : bi.IsParentPath bottom top l) : ∀ u ∈ l.head?, u = top := by
  cases l with
  | nil => simp
  | cons x l =>
    intro u hu
    simp only [List.head?_cons, Option.mem_def, Option.some.injEq] at hu
    rw [← hu]
    exact h.1

/-- The first loop of `calcReorganizeNodes` on a well-formed index whose main chain
contains the root. -/
theorem attachLoop_spec {bi : BlockIndex} (hwf : bi.WellFormed)
    (hroot : ∀ r ∈ bi.index, r.Parent = none → bi.onMainChain r = true) :
    ∀ (k : Nat) (x : BlockNode), x ∈ bi.index → x.Height = k →
      ∃ l a, (∀ fuel acc, k < fuel → attachLoop bi fuel x acc = some (l ++ acc, a)) ∧
        a ∈ bi.index ∧ bi.onMainChain a = true ∧ a.Height ≤ x.Height ∧
        bi.IsParentPath a x l.reverse ∧ (∀ y ∈ l, bi.onMainChain y = false) ∧
        List.Chain' (fun u v => u.Height + 1 = v.Height) l := by
  intro k
  induction k with
  | zero =>
    intro x hx hk
    have hon : bi.onMainChain x = true := by
      rcases hwf.cases hx with h | ⟨p, -, -, hh, -⟩
      · exact hroot x hx h.1
      · omega
    refine ⟨[], x, ?_, hx, hon, le_refl _, rfl, by simp, by simp⟩
    intro fuel acc hf
    obtain ⟨f, rfl⟩ : ∃ f, fuel = f + 1 := ⟨fuel - 1, by omega⟩
    simp [attachLoop, hon]
  | succ k ih =>
    intro x hx hk
    by_cases hon : bi.onMainChain x = true
    · refine ⟨[], x, ?_, hx, hon, le_refl _, rfl, by simp, by simp⟩
      intro fuel acc hf
      obtain ⟨f, rfl⟩ : ∃ f, fuel = f + 1 := ⟨fuel - 1, by omega⟩
      simp [attachLoop, hon]
    · rcases hwf.cases hx with h | ⟨p, hp, hpi, hh, -⟩
      · omega
      · obtain ⟨l, a, hrun, hai, haon, hale, hpath, hoff, hchain⟩ := ih p hpi (by omega)
        refine ⟨l ++ [x], a, ?_, hai, haon, by omega, ?_, ?_, ?_⟩
        · intro fuel acc hf
          obtain ⟨f, rfl⟩ : ∃ f, fuel = f + 1 := ⟨fuel - 1, by omega⟩
          rw [attachLoop, if_neg hon, hp]
          simp only
          rw [hrun f (x :: acc) (by omega)]
          simp
        · rw [List.reverse_append]
          refine ⟨rfl, ?_, p, hp, hpath⟩
          intro hxa
          rw [hxa] at hh
          omega
        · intro y hy
          simp only [List.mem_append, List.mem_singleton] at hy
          rcases hy with hy | hy
          · exact hoff y hy
          · rw [hy]; simpa using hon
        · refine List.Chain'.append hchain (by simp) ?_
          intro u hu v hv
          simp only [List.head?_cons, Option.mem_def, Option.some.injEq] at hv
          have hup : u = p := by
            apply hpath.head
            rw [List.head?_reverse]
            exact hu
          rw [hup, ← hv]
          exact hh

/-- The second loop of `calcReorganizeNodes`, started on a main-chain node at or above
the main-chain node `a`. -/
theorem detachLoop_spec {bi : BlockIndex} (hwf : bi.WellFormed)
    (hclosed : ∀ y ∈ bi.index, bi.onMainChain y = true → ∀ q, bi.parentOf y = some q →
      bi.onMainChain q = true)
    (a : BlockNode) (hai : a ∈ bi.index) (haon : bi.onMainChain a = true) :
    ∀ (k : Nat) (d : BlockNode), d ∈ bi.index → bi.onMainChain d = true →
      a.Height ≤ d.Height → d.Height - a.Height = k →
      ∃ l, (∀ fuel acc, d.Height < fuel → detachLoop bi a fuel d acc = some (acc ++ l)) ∧
        bi.IsParentPath a d l ∧ List.Chain' (fun u v => u.Height = v.Height + 1) l := by
  intro k
  induction k with
  | zero =>
    intro d hd hdon hle hk
    have hda : d = a := by
      have h1 := (BlockIndex.onMainChain_iff hwf hd).mp hdon
      have h2 := (BlockIndex.onMainChain_iff hwf hai).mp haon
      have hheq : d.Height = a.Height := by omega
      rw [hheq, h2] at h1
      simp only [Option.some.injEq] at h1
      have h3 := (hwf.1 d hd).1
      rw [← h1, (hwf.1 a hai).1] at h3
      simpa using h3.symm
    refine ⟨[], ?_, hda, by simp⟩
    intro fuel acc hf
    obtain ⟨f, rfl⟩ : ∃ f, fuel = f + 1 := ⟨fuel - 1, by omega⟩
    simp [detachLoop, hda]
  | succ k ih =>
    intro d hd hdon hle hk
    have hne : ¬ d.Hash = a.Hash := by
      intro h
      have h3 := (hwf.1 d hd).1
      rw [h, (hwf.1 a hai).1] at h3
      have : a = d := by simpa using h3
      rw [this] at hk
      omega
    rcases hwf.cases hd with h | ⟨p, hp, hpi, hh, -⟩
    · omega
    · obtain ⟨l, hrun, hpath, hchain⟩ :=
        ih p hpi (hclosed d hd hdon p hp) (by omega) (by omega)
      refine ⟨d :: l, ?_, ⟨rfl, ?_, p, hp, hpath⟩, ?_⟩
      · intro fuel acc hf
        obtain ⟨f, rfl⟩ : ∃ f, fuel = f + 1 := ⟨fuel - 1, by omega⟩
        rw [detachLoop, if_neg hne, hp]
        simp only
        rw [hrun f (acc ++ [d]) (by omega)]
        simp
      · intro hda
        exact hne (by rw [hda])
      · rw [List.chain'_cons']
        refine ⟨?_, hchain⟩
        intro u hu
        rw [hpath.head u hu]
        exact hh.symm

/-- C5: on a well-formed index whose main chain is the parent path from the best node
to genesis, `calcReorganizeNodes n` returns, for every index node `n`, the pair
`(attach, detach)` where, with `a` the highest ancestor-or-self of `n` on the main
chain, `attach` reversed is the parent path from `n` down to `a` (excluded) and `detach`
is the parent path from the best node down to `a` (excluded); heights grow by one along
`attach` and fall by one along `detach`, and `detach` is empty when the parent of `n`
is the best node. -/
theorem calcReorganizeNodes_meets_at_fork {σ : Type} (c : Chain σ) (n : BlockNode)
    (hwf : c.index.WellFormed)
    (hbest : c.bestNode ∈ c.index.index)
    (hmain : c.index.mainChain =
      (c.index.parentPath (c.bestNode.Height + 1) (some c.bestNode.Hash)).reverse)
    (hn : n ∈ c.index.index) :
    ∃ attach detach a,
      (∀ fuel, n.Height < fuel → c.bestNode.Height < fuel →
        calcReorganizeNodes fuel c n = some (attach, detach)) ∧
      a ∈ c.index.index ∧ c.index.onMainChain a = true ∧
      c.index.IsParentPath a n attach.reverse ∧
      (∀ y ∈ attach, c.index.onMainChain y = false) ∧
      c.index.IsParentPath a c.bestNode detach ∧
      List.Chain' (fun u v => u.Height + 1 = v.Height) attach ∧
      List.Chain' (fun u v => u.Height = v.Height + 1) detach ∧
      (n.Parent = some c.bestNode.Hash → attach = [n] ∧ detach = []) := by
  obtain ⟨hlen, htop, hroot, hclosed⟩ :=
    BlockIndex.mainChain_of_tip hwf c.bestNode.Height c.bestNode hbest rfl
  rw [← hmain] at hlen htop hroot hclosed
  have hbon : c.index.onMainChain c.bestNode = true :=
    (BlockIndex.onMainChain_iff hwf hbest).mpr htop
  have hroot' : ∀ r ∈ c.index.index, r.Parent = none → c.index.onMainChain r = true := by
    intro r hr hrp
    rw [BlockIndex.onMainChain_iff hwf hr]
    rcases hwf.cases hr with h | ⟨p, -, -, -, h⟩
    · rw [h.2]; exact hroot r hr hrp
    · rw [hrp] at h; simp at h
  have hclosed' : ∀ y ∈ c.index.index, c.index.onMainChain y = true →
      ∀ q, c.index.parentOf y = some q → c.index.onMainChain q = true := by
    intro y hy hyon q hq
    rw [BlockIndex.onMainChain_iff hwf (BlockIndex.parentOf_some hq).2]
    exact hclosed y hy ((BlockIndex.onMainChain_iff hwf hy).mp hyon) q hq
  obtain ⟨attach, a, harun, hai, haon, -, hapath, haoff, hachain⟩ :=
    attachLoop_spec hwf hroot' n.Height n hn rfl
  have hale : a.Height ≤ c.bestNode.Height := by
    have h := (BlockIndex.onMainChain_iff hwf hai).mp haon
    rw [List.get?_eq_getElem?] at h
    have := (List.getElem?_eq_some.mp h).1
    omega
  obtain ⟨detach, hdrun, hdpath, hdchain⟩ :=
    detachLoop_spec hwf hclosed' a hai haon (c.bestNode.Height - a.Height) c.bestNode hbest hbon
      hale rfl
  refine ⟨attach, detach, a, ?_, hai, haon, hapath, haoff, hdpath, hachain, hdchain, ?_⟩
  · intro fuel hf1 hf2
    unfold calcReorganizeNodes
    rw [harun fuel [] hf1]
    simp only [List.append_nil]
    rw [hdrun fuel [] hf2]
    simp
  · intro hpar
    have hpb : c.index.parentOf n = some c.bestNode := by
      rw [BlockIndex.parentOf, hpar]
      exact (hwf.1 c.bestNode hbest).1
    have hnoff : c.index.onMainChain n = false := by
      rcases hwf.cases hn with h | ⟨p, hp, -, hh, -⟩
      · rw [hpar] at h; simp at h
      · rw [hpb] at hp
        simp only [Option.some.injEq] at hp
        rw [← hp] at hh
        rw [← Bool.not_eq_true, BlockIndex.onMainChain_iff hwf hn, List.get?_eq_getElem?,
          List.getElem?_eq_none (by omega)]
        simp
    have hab : a = c.bestNode := by
      rcases hrev : attach.reverse with _ | ⟨x, l2⟩
      · rw [hrev] at hapath
        have : n = a := hapath
        rw [← this, hnoff] at haon
        simp at haon
      · rw [hrev] at hapath
        obtain ⟨-, -, p, hp, hrest⟩ := hapath
        rw [hpb] at hp
        simp only [Option.some.injEq] at hp
        rw [← hp] at hrest
        cases l2 with
        | nil => exact hrest.symm
        | cons y l3 =>
          have hy : y = c.bestNode := hrest.1
          have hmem : y ∈ attach := by
            rw [← List.mem_reverse, hrev]
            simp
          rw [hy] at hmem
          rw [haoff _ hmem] at hbon
          simp at hbon
    constructor
    · rcases hrev : attach.reverse with _ | ⟨x, l2⟩
      · rw [hrev] at hapath
        have : n = a := hapath
        rw [← this, hnoff] at haon
        simp at haon
      · rw [hrev] at hapath
        obtain ⟨hx, -, p, hp, hrest⟩ := hapath
        rw [hpb] at hp
        simp only [Option.some.injEq] at hp
        rw [← hp, hab] at hrest
        cases l2 with
        | nil =>
          have := congrArg List.reverse hrev
          simpa [hx] using this
        | cons y l3 => exact absurd rfl hrest.2.1
    · cases detach with
      | nil => rfl
      | cons y l =>
        rw [hab] at hdpath
        exact absurd rfl hdpath.2.1

theorem calcReorganizeNodes_meets_at_fork_witness :
    forkChain.index.WellFormed ∧ forkChain.bestNode ∈ forkChain.index.index ∧
      forkChain.index.mainChain =
        (forkChain.index.parentPath (forkChain.bestNode.Height + 1)
          (some forkChain.bestNode.Hash)).reverse ∧
      node113 ∈ forkChain.index.index ∧
      calcReorganizeNodes 5 forkChain node113 =
        some ([{ Parent := some 101, Hash := 111, Height := 2, Bits := 1, WorkSum := 3 },
               { Parent := some 111, Hash := 112, Height := 3, Bits := 1, WorkSum := 4 },
               node113], [node102]) ∧
      ∃ attach detach a,
        (∀ fuel, node113.Height < fuel → forkChain.bestNode.Height < fuel →
          calcReorganizeNodes fuel forkChain node113 = some (attach, detach)) ∧
        a ∈ forkChain.index.index ∧ forkChain.index.onMainChain a = true ∧
        forkChain.index.IsParentPath a node113 attach.reverse ∧
        (∀ y ∈ attach, forkChain.index.onMainChain y = false) ∧
        forkChain.index.IsParentPath a forkChain.bestNode detach ∧
        List.Chain' (fun u v => u.Height + 1 = v.Height) attach ∧
        List.Chain' (fun u v => u.Height = v.Height + 1) detach ∧
        (node113.Parent = some forkChain.bestNode.Hash → attach = [node113] ∧ detach = []) :=
  ⟨by decide, by decide, by decide, by decide, by decide,
    calcReorganizeNodes_meets_at_fork forkChain node113 (by decide) (by decide) (by decide)
      (by decide)⟩

end reorganisation

section headerList
variable {κ : Type} (A : ChainAPI κ) (V : Validators) (checkpoints : List Checkpoint)

/-- When `appendHeaders` reports an order mismatch, the list it leaves is the old list
followed by the headers of the batch before the first one that fails to chain; those
headers alone append without error. -/
theorem appendHeaders_error :
    ∀ (headers headerList l' : List BlockHeader) (e : Error),
      appendHeaders headerList headers = some (l', some e) →
      e = Error.errAppendHeaders ∧
      ∃ pre bad post prev, headers = pre ++ bad :: post ∧ l' = headerList ++ pre ∧
        appendHeaders headerList pre = some (headerList ++ pre, none) ∧
        (headerList ++ pre).getLast? = some prev ∧ prev.Hash ≠ bad.PreviousBlockHash := by
  intro headers
  induction headers with
  | nil =>
    intro headerList l' e h
    simp [appendHeaders] at h
  | cons header rest ih =>
    intro headerList l' e h
    rw [appendHeaders] at h
    rcases hlast : headerList.getLast? with _ | prevHeader
    · rw [hlast] at h; simp at h
    · rw [hlast] at h
      simp only at h
      by_cases hne : prevHeader.Hash ≠ header.PreviousBlockHash
      · rw [if_pos hne] at h
        simp only [Option.some.injEq, Prod.mk.injEq] at h
        exact ⟨h.2.symm, [], header, rest, prevHeader, rfl, by simp [h.1],
          by simp [appendHeaders], by simpa using hlast, hne⟩
      · rw [if_neg hne] at h
        obtain ⟨he, pre, bad, post, prev, h1, h2, h3, h4, h5⟩ := ih _ _ _ h
        refine ⟨he, header :: pre, bad, post, prev, by simp [h1], by simp [h2], ?_, ?_, h5⟩
        · rw [appendHeaders, hlast]
          simp only
          rw [if_neg hne, h3]
          simp
        · simpa using h4

/-- Counterexample to C10 as stated: the first header of the batch chains on the list and is
appended, the second does not chain; `appendHeaderList` returns `errAppendHeaders` and
the list has grown by one header. -/
theorem appendHeaderList_counterexample :
    appendHeaderList seededKeeper [mkHeader 101 1 100, mkHeader 102 2 999] =
        some ({ seededKeeper with headerList := [mkHeader 100 0 0, mkHeader 101 1 100] },
          some Error.errAppendHeaders) ∧
      [mkHeader 100 0 0, mkHeader 101 1 100] ≠ seededKeeper.headerList := by
  decide

/-- C10 (amended): when `appendHeaderList` returns `errAppendHeaders`, the header list is
the list before the call followed by the headers of the batch that precede the first
header failing to chain on its predecessor (those headers alone append without error),
and nothing else in the keeper changes; the list is what it was exactly when that
header is the first of the batch. -/
theorem appendHeaderList_error_keeps_chained_prefix (bk bk' : blockKeeper κ)
    (headers : List BlockHeader)
    (h : appendHeaderList bk headers = some (bk', some Error.errAppendHeaders)) :
    ∃ pre bad post prev, headers = pre ++ bad :: post ∧
      bk' = { bk with headerList := bk.headerList ++ pre } ∧
      appendHeaderList bk pre = some (bk', none) ∧
      (bk.headerList ++ pre).getLast? = some prev ∧ prev.Hash ≠ bad.PreviousBlockHash ∧
      (bk'.headerList = bk.headerList ↔ pre = []) := by
  unfold appendHeaderList at h
  rcases hrun : appendHeaders bk.headerList headers with _ | ⟨l, err⟩
  · rw [hrun] at h; simp at h
  · rw [hrun] at h
    simp only [Option.some.injEq, Prod.mk.injEq] at h
    obtain ⟨hbk, herr⟩ := h
    rw [herr] at hrun
    obtain ⟨-, pre, bad, post, prev, h1, h2, h3, h4, h5⟩ := appendHeaders_error _ _ _ _ hrun
    refine ⟨pre, bad, post, prev, h1, by rw [← hbk, h2], ?_, h4, h5, ?_⟩
    · unfold appendHeaderList
      rw [h3, ← hbk, h2]
    · rw [← hbk]
      simp [h2]

theorem appendHeaderList_error_keeps_chained_prefix_witness :
    appendHeaderList seededKeeper [mkHeader 101 1 100, mkHeader 102 2 999] =
        some ({ seededKeeper with headerList := [mkHeader 100 0 0, mkHeader 101 1 100] },
          some Error.errAppendHeaders) ∧
      ∃ pre bad post prev, [mkHeader 101 1 100, mkHeader 102 2 999] = pre ++ bad :: post ∧
        ({ seededKeeper with headerList := [mkHeader 100 0 0, mkHeader 101 1 100] } :
            blockKeeper Unit) =
          { seededKeeper with headerList := seededKeeper.headerList ++ pre } ∧
        appendHeaderList seededKeeper pre =
          some ({ seededKeeper with headerList := [mkHeader 100 0 0, mkHeader 101 1 100] },
            none) ∧
        (seededKeeper.headerList ++ pre).getLast? = some prev ∧
        prev.Hash ≠ bad.PreviousBlockHash ∧
        (({ seededKeeper with headerList := [mkHeader 100 0 0, mkHeader 101 1 100] } :
            blockKeeper Unit).headerList = seededKeeper.headerList ↔ pre = []) :=
  ⟨by decide,
    appendHeaderList_error_keeps_chained_prefix seededKeeper _
      [mkHeader 101 1 100, mkHeader 102 2 999] (by decide)⟩

/-- Counterexample to C7 as stated: a merkle block that reveals no transaction is accepted although
the transaction proof it carries does not reconstruct the root in its header. -/
theorem VerifyMerkleBlock_counterexample :
    VerifyMerkleBlock leafValidators (bareMerkle 101 1 100) = Except.ok none ∧
      leafValidators.ValidateTxMerkleTreeProof (bareMerkle 101 1 100).TxHashes
        (bareMerkle 101 1 100).Flags ((bareMerkle 101 1 100).Transactions.map (fun v => v.ID))
        (bareMerkle 101 1 100).TransactionsMerkleRoot = false :=
  ⟨rfl, by decide⟩

/-- C7 (amended): for a merkle block that reveals at least one transaction,
`VerifyMerkleBlock` returns without error only if `ValidateTxMerkleTreeProof` accepts
the transaction proof against the header's `TransactionsMerkleRoot`, every raw status
decodes, and `ValidateStatusMerkleTreeProof` accepts the decoded statuses against the
header's `TransactionStatusHash`; the status returned is the decoded one. -/
theorem VerifyMerkleBlock_sound (merkleBlock : MerkleBlock) (txStatus : Option TransactionStatus)
    (hne : merkleBlock.Transactions ≠ [])
    (h : VerifyMerkleBlock V merkleBlock = Except.ok txStatus) :
    V.ValidateTxMerkleTreeProof merkleBlock.TxHashes merkleBlock.Flags
        (merkleBlock.Transactions.map (fun v => v.ID)) merkleBlock.TransactionsMerkleRoot = true ∧
      ∃ relatedStatus, decodeStatuses V merkleBlock.RawTxStatuses = some relatedStatus ∧
        V.ValidateStatusMerkleTreeProof merkleBlock.StatusHashes merkleBlock.Flags relatedStatus
          merkleBlock.TransactionStatusHash = true ∧
        txStatus = some { VerifyStatus := relatedStatus } := by
  unfold VerifyMerkleBlock at h
  have hlen : ¬ merkleBlock.Transactions.length = 0 := by
    simpa using hne
  rw [if_neg hlen] at h
  simp only at h
  by_cases h1 : V.ValidateTxMerkleTreeProof merkleBlock.TxHashes merkleBlock.Flags
      (merkleBlock.Transactions.map (fun v => v.ID)) merkleBlock.TransactionsMerkleRoot = true
  · refine ⟨h1, ?_⟩
    simp only [h1, Bool.not_true, Bool.false_eq_true, if_false] at h
    rcases hd : decodeStatuses V merkleBlock.RawTxStatuses with _ | st
    · rw [hd] at h; simp at h
    · rw [hd] at h
      simp only at h
      by_cases h2 : V.ValidateStatusMerkleTreeProof merkleBlock.StatusHashes merkleBlock.Flags st
          merkleBlock.TransactionStatusHash = true
      · simp only [h2, Bool.not_true, Bool.false_eq_true, if_false] at h
        exact ⟨st, rfl, h2, by injection h with h; exact h.symm⟩
      · simp [h2] at h
  · simp [h1] at h

theorem VerifyMerkleBlock_sound_witness :
    leafMerkle.Transactions ≠ [] ∧
      VerifyMerkleBlock leafValidators leafMerkle =
        Except.ok (some leafStatus) ∧
      (leafValidators.ValidateTxMerkleTreeProof leafMerkle.TxHashes leafMerkle.Flags
          (leafMerkle.Transactions.map (fun v => v.ID)) leafMerkle.TransactionsMerkleRoot = true ∧
        ∃ relatedStatus, decodeStatuses leafValidators leafMerkle.RawTxStatuses =
            some relatedStatus ∧
          leafValidators.ValidateStatusMerkleTreeProof leafMerkle.StatusHashes leafMerkle.Flags
            relatedStatus leafMerkle.TransactionStatusHash = true ∧
          some leafStatus = some { VerifyStatus := relatedStatus }) :=
  ⟨by decide, rfl,
    VerifyMerkleBlock_sound leafValidators leafMerkle _ (by decide) rfl⟩

end headerList

section checkpointBranch
variable {κ : Type} (A : ChainAPI κ) (V : Validators) (checkpoints : List Checkpoint)

theorem requireHeaders_logs (bk : blockKeeper κ) (locator : List bc.Hash) (stopHash : bc.Hash) :
    (requireHeaders bk locator stopHash).1.submitted = bk.submitted ∧
      (requireHeaders bk locator stopHash).1.requested = bk.requested ∧
      (requireHeaders bk locator stopHash).1.headerList = bk.headerList := by
  unfold requireHeaders
  rcases bk.headersReplies with _ | ⟨r, rest⟩
  · exact ⟨rfl, rfl, rfl⟩
  · cases r <;> exact ⟨rfl, rfl, rfl⟩

theorem appendHeaderList_logs {bk bk' : blockKeeper κ} {headers : List BlockHeader}
    {err : Option Error} (h : appendHeaderList bk headers = some (bk', err)) :
    bk'.submitted = bk.submitted ∧ bk'.requested = bk.requested := by
  unfold appendHeaderList at h
  rcases hrun : appendHeaders bk.headerList headers with _ | ⟨l, e⟩
  · rw [hrun] at h; simp at h
  · rw [hrun] at h
    simp only [Option.some.injEq, Prod.mk.injEq] at h
    rw [← h.1]
    exact ⟨rfl, rfl⟩

theorem headerStep_logs (checkPoint : Checkpoint) (bk : blockKeeper κ) :
    (headerStep checkPoint bk).1.submitted = bk.submitted ∧
      (headerStep checkPoint bk).1.requested = bk.requested := by
  unfold headerStep
  rcases bk.headerList.getLast? with _ | lastHeader
  · exact ⟨rfl, rfl⟩
  · simp only
    split
    · exact ⟨rfl, rfl⟩
    · split
      · exact ⟨rfl, rfl⟩
      · have hreq := requireHeaders_logs bk [lastHeader.Hash] checkPoint.Hash
        rcases hr : requireHeaders bk [lastHeader.Hash] checkPoint.Hash with ⟨bk1, e | headers⟩
        · rw [hr] at hreq
          exact ⟨hreq.1, hreq.2.1⟩
        · rw [hr] at hreq
          simp only
          split
          · exact ⟨hreq.1, hreq.2.1⟩
          · rcases ha : appendHeaderList bk1 headers with _ | ⟨bk2, _ | e⟩
            · exact ⟨hreq.1, hreq.2.1⟩
            · have := appendHeaderList_logs ha
              exact ⟨this.1.trans hreq.1, this.2.trans hreq.2.1⟩
            · have := appendHeaderList_logs ha
              exact ⟨this.1.trans hreq.1, this.2.trans hreq.2.1⟩

theorem headerLoop_logs (checkPoint : Checkpoint) :
    ∀ (fuel : Nat) (bk : blockKeeper κ),
      (headerLoop checkPoint fuel bk).1.submitted = bk.submitted ∧
        (headerLoop checkPoint fuel bk).1.requested = bk.requested := by
  intro fuel
  induction fuel with
  | zero => intro bk; exact ⟨rfl, rfl⟩
  | succ fuel ih =>
    intro bk
    rw [headerLoop]
    have hs := headerStep_logs checkPoint bk
    rcases hstep : headerStep checkPoint bk with ⟨bk1, _ | _ | o⟩
    · rw [hstep] at hs
      simp only
      exact ⟨(ih bk1).1.trans hs.1, (ih bk1).2.trans hs.2⟩
    · rw [hstep] at hs; exact hs
    · rw [hstep] at hs; exact hs

theorem headerLoop_of_passes (checkPoint : Checkpoint) :
    ∀ (k : Nat) (bk bk' : blockKeeper κ), headerPasses checkPoint k bk = some bk' →
      ∀ m, headerLoop checkPoint (k + m) bk = headerLoop checkPoint m bk' := by
  intro k
  induction k with
  | zero =>
    intro bk bk' h m
    simp only [headerPasses, Option.some.injEq] at h
    rw [h, Nat.zero_add]
  | succ k ih =>
    intro bk bk' h m
    rw [headerPasses] at h
    rw [show k + 1 + m = (k + m) + 1 by omega, headerLoop]
    rcases hstep : headerStep checkPoint bk with ⟨bk1, _ | _ | o⟩
    · rw [hstep] at h
      simp only at h
      exact ih bk1 bk' h m
    · rw [hstep] at h; simp at h
    · rw [hstep] at h; simp at h

theorem headerPasses_logs (checkPoint : Checkpoint) :
    ∀ (k : Nat) (bk bk' : blockKeeper κ), headerPasses checkPoint k bk = some bk' →
      bk'.submitted = bk.submitted := by
  intro k
  induction k with
  | zero =>
    intro bk bk' h
    simp only [headerPasses, Option.some.injEq] at h
    rw [h]
  | succ k ih =>
    intro bk bk' h
    rw [headerPasses] at h
    have hs := headerStep_logs checkPoint bk
    rcases hstep : headerStep checkPoint bk with ⟨bk1, _ | _ | o⟩
    · rw [hstep] at h hs
      simp only at h
      exact (ih bk1 bk' h).trans hs.1
    · rw [hstep] at h; simp at h
    · rw [hstep] at h; simp at h

theorem resetHeaderState_logs (bk : blockKeeper κ) :
    (resetHeaderState A checkpoints bk).submitted = bk.submitted ∧
      (resetHeaderState A checkpoints bk).requested = bk.requested := by
  unfold resetHeaderState
  simp only
  split <;> exact ⟨rfl, rfl⟩

end checkpointBranch

section submissionOrder
variable {κ : Type} (A : ChainAPI κ) (V : Validators) (checkpoints : List Checkpoint)

theorem requireMerkleBlock_logs (bk : blockKeeper κ) (height : Nat) (hash : Option bc.Hash) :
    (requireMerkleBlock bk height hash).1.requested = bk.requested ++ [(height, hash.getD 0)] ∧
      (requireMerkleBlock bk height hash).1.submitted = bk.submitted ∧
      (requireMerkleBlock bk height hash).1.headerList = bk.headerList := by
  unfold requireMerkleBlock
  rcases bk.merkleReplies with _ | ⟨r, rest⟩
  · exact ⟨rfl, rfl, rfl⟩
  · cases r <;> exact ⟨rfl, rfl, rfl⟩

theorem ProcessMerkleBlock_logs (bk : blockKeeper κ) (merkleBlock : MerkleBlock)
    (txStatus : Option TransactionStatus) :
    (ProcessMerkleBlock A bk merkleBlock txStatus).1.requested = bk.requested ∧
      (ProcessMerkleBlock A bk merkleBlock txStatus).1.submitted =
        bk.submitted ++ [(merkleBlockToBlock merkleBlock, txStatus)] ∧
      (ProcessMerkleBlock A bk merkleBlock txStatus).1.headerList = bk.headerList := by
  unfold ProcessMerkleBlock
  exact ⟨rfl, rfl, rfl⟩

/-- The logs of the body-fetch loop: the requests it sends are for elements of the
cursor's list, in list order, and the blocks it submits carry, one by one, the hashes
of the requests. -/
theorem bodyLoop_logs (checkPoint : Checkpoint) :
    ∀ (fuel : Nat) (bk : blockKeeper κ) (fastHeader : List BlockHeader),
      ∃ newReq newSub,
        (bodyLoop A V checkPoint fuel bk fastHeader).1.requested = bk.requested ++ newReq ∧
        (bodyLoop A V checkPoint fuel bk fastHeader).1.submitted = bk.submitted ++ newSub ∧
        (bodyLoop A V checkPoint fuel bk fastHeader).1.headerList = bk.headerList ∧
        newReq.Sublist (fastHeader.map (fun h => (h.Height, h.Hash))) ∧
        newSub.map (fun p => p.1.Hash) <+: newReq.map (fun r => r.2) ∧
        newReq.length ≤ newSub.length + 1 := by
  intro fuel
  induction fuel with
  | zero =>
    intro bk fastHeader
    exact ⟨[], [], by simp [bodyLoop], by simp [bodyLoop], rfl, by simp, by simp, by simp⟩
  | succ fuel ih =>
    intro bk fastHeader
    rw [bodyLoop]
    by_cases hcond : A.BestBlockHeight bk.chain ≤ checkPoint.Height
    · rw [if_pos hcond]
      have hcur : (if A.BestBlockHeight bk.chain = 0 then fastHeader.tail else fastHeader).Sublist
          fastHeader := by
        split
        · exact List.tail_sublist _
        · exact List.Sublist.refl _
      rcases hc : (if A.BestBlockHeight bk.chain = 0 then fastHeader.tail else fastHeader) with
        _ | ⟨header, next⟩
      · exact ⟨[], [], by simp, by simp, rfl, by simp, by simp, by simp⟩
      · rw [hc] at hcur
        simp only
        have hreq := requireMerkleBlock_logs bk header.Height (some header.Hash)
        simp only [Option.getD_some] at hreq
        have hone : [(header.Height, header.Hash)].Sublist
            (fastHeader.map (fun h => (h.Height, h.Hash))) := by
          have := hcur.map (fun h => (h.Height, h.Hash))
          simp only [List.map_cons] at this
          exact (List.Sublist.cons₂ _ (List.nil_sublist _)).trans this
        rcases hr : requireMerkleBlock bk header.Height (some header.Hash) with
          ⟨bk1, e | merkleBlock⟩
        · rw [hr] at hreq
          simp only at hreq
          exact ⟨[(header.Height, header.Hash)], [], hreq.1, by simp [hreq.2.1], hreq.2.2, hone,
            by simp, by simp⟩
        · rw [hr] at hreq
          simp only at hreq
          simp only
          rcases hv : VerifyBlockHeader header merkleBlock with _ | e
          · simp only
            rcases hm : VerifyMerkleBlock V merkleBlock with e | txStatus
            · exact ⟨[(header.Height, header.Hash)], [], hreq.1, by simp [hreq.2.1], hreq.2.2,
                hone, by simp, by simp⟩
            · simp only
              by_cases hh : merkleBlock.Hash ≠ header.Hash
              · rw [if_pos hh]
                exact ⟨[(header.Height, header.Hash)], [], hreq.1, by simp [hreq.2.1], hreq.2.2,
                  hone, by simp, by simp⟩
              · rw [if_neg hh]
                have hheq : merkleBlock.Hash = header.Hash := by simpa using hh
                rcases hs : A.CalcNextSeed bk1.chain merkleBlock.PreviousBlockHash with e | seed
                · exact ⟨[(header.Height, header.Hash)], [], hreq.1, by simp [hreq.2.1],
                    hreq.2.2, hone, by simp, by simp⟩
                · simp only
                  have hp := ProcessMerkleBlock_logs A bk1 merkleBlock txStatus
                  have hbh : (merkleBlockToBlock merkleBlock).Hash = header.Hash := hheq
                  rcases hpr : ProcessMerkleBlock A bk1 merkleBlock txStatus with
                    ⟨bk2, isOrphan, _ | e⟩
                  · rw [hpr] at hp
                    simp only at hp
                    simp only
                    cases next with
                    | nil =>
                      exact ⟨[(header.Height, header.Hash)],
                        [(merkleBlockToBlock merkleBlock, txStatus)],
                        by rw [hp.1, hreq.1], by rw [hp.2.1, hreq.2.1],
                        by rw [hp.2.2, hreq.2.2], hone, by simp [hbh], by simp⟩
                    | cons h2 next2 =>
                      simp only
                      obtain ⟨nr, ns, h1, h2', h3, h4, h5, h6⟩ := ih bk2 (h2 :: next2)
                      refine ⟨(header.Height, header.Hash) :: nr,
                        (merkleBlockToBlock merkleBlock, txStatus) :: ns, ?_, ?_, ?_, ?_, ?_, ?_⟩
                      · rw [h1, hp.1, hreq.1]; simp
                      · rw [h2', hp.2.1, hreq.2.1]; simp
                      · rw [h3, hp.2.2, hreq.2.2]
                      · have := hcur.map (fun h => (h.Height, h.Hash))
                        simp only [List.map_cons] at this h4
                        exact (List.Sublist.cons₂ _ h4).trans this
                      · simp only [List.map_cons, hbh]
                        exact (List.prefix_cons_inj _).mpr h5
                      · simp only [List.length_cons]
                        omega
                  · rw [hpr] at hp
                    simp only at hp
                    simp only
                    exact ⟨[(header.Height, header.Hash)],
                      [(merkleBlockToBlock merkleBlock, txStatus)],
                      by rw [hp.1, hreq.1], by rw [hp.2.1, hreq.2.1],
                      by rw [hp.2.2, hreq.2.2], hone, by simp [hbh], by simp⟩
          · exact ⟨[(header.Height, header.Hash)], [], hreq.1, by simp [hreq.2.1], hreq.2.2, hone,
              by simp, by simp⟩
    · rw [if_neg hcond]
      exact ⟨[], [], by simp, by simp, rfl, by simp, by simp, by simp⟩

/-- C9: in every run of `fastBlockSync`, whatever the peer replies and however the run
finishes, the merkle-block requests are for elements of the header list in list order,
and the blocks passed to `chain.ProcessBlock` carry, in the same order, the hashes of
the headers they were requested for; so a merkle block whose header hash differs from
the requested header's is never submitted. -/
theorem fastBlockSync_submits_requested_headers (fuel : Nat) (checkPoint : Checkpoint)
    (bk : blockKeeper κ) :
    ∃ newReq newSub,
      (fastBlockSync A V checkpoints fuel checkPoint bk).1.requested = bk.requested ++ newReq ∧
      (fastBlockSync A V checkpoints fuel checkPoint bk).1.submitted = bk.submitted ++ newSub ∧
      newReq.Sublist ((fastBlockSync A V checkpoints fuel checkPoint bk).1.headerList.map
        (fun h => (h.Height, h.Hash))) ∧
      newSub.map (fun p => p.1.Hash) <+: newReq.map (fun r => r.2) ∧
      newReq.length ≤ newSub.length + 1 := by
  unfold fastBlockSync
  have hl := headerLoop_logs checkPoint fuel (resetHeaderState A checkpoints bk)
  have hr := resetHeaderState_logs A checkpoints bk
  rcases hloop : headerLoop checkPoint fuel (resetHeaderState A checkpoints bk) with
    ⟨bk1, _ | _ | o⟩
  all_goals rw [hloop] at hl
  all_goals simp only at hl ⊢
  · obtain ⟨nr, ns, h1, h2, h3, h4, h5, h6⟩ := bodyLoop_logs A V checkPoint fuel bk1 bk1.headerList
    exact ⟨nr, ns, by rw [h1, hl.2, hr.2], by rw [h2, hl.1, hr.1], by rw [h3]; exact h4, h5, h6⟩
  · obtain ⟨nr, ns, h1, h2, h3, h4, h5, h6⟩ := bodyLoop_logs A V checkPoint fuel bk1 bk1.headerList
    exact ⟨nr, ns, by rw [h1, hl.2, hr.2], by rw [h2, hl.1, hr.1], by rw [h3]; exact h4, h5, h6⟩
  · exact ⟨[], [], by rw [hl.2, hr.2]; simp, by rw [hl.1, hr.1]; simp, by simp, by simp,
      by simp⟩

end submissionOrder

section termination
variable {σ κ : Type} (S : Store σ) (CalcWork : Nat → Nat)
variable (A : ChainAPI κ) (V : Validators) (checkpoints : List Checkpoint)

/-- The model of `processBlock` returns for every chain, block and store: the depth it
grants to `saveSubBlock` is never exhausted and no nil node is dereferenced. -/
theorem processBlock_returns (c : Chain σ) (b : Block) (s : Option TransactionStatus) :
    ∃ c' isOrphan err, processBlock S CalcWork c b s = some (c', isOrphan, err) := by
  by_cases hk : c.BlockExist b.Hash = true
  · exact ⟨_, _, _, processBlock_known S CalcWork c b s hk⟩
  · simp only [Bool.not_eq_true] at hk
    rcases hp : c.index.GetNode b.PreviousBlockHash with _ | p
    · exact ⟨_, _, _, processBlock_orphan S CalcWork c b s hk hp⟩
    · rcases hsb : saveBlock S CalcWork c b s with ⟨c1, _ | e⟩
      · obtain ⟨c2, best, cand, added, -, -, -, -, hres⟩ :=
          processBlock_saved S CalcWork (fun _ => False) (fun _ _ _ h => h.elim) c b s c1 hk hsb
        rw [hres]
        split
        · exact ⟨_, _, _, rfl⟩
        · exact ⟨_, _, _, rfl⟩
      · exact ⟨_, _, _, processBlock_unsaved S CalcWork c c1 b s e p hk hp hsb⟩

theorem appendHeaders_length :
    ∀ (headers headerList l : List BlockHeader) (err : Option Error),
      appendHeaders headerList headers = some (l, err) →
      l.length ≤ headerList.length + headers.length := by
  intro headers
  induction headers with
  | nil =>
    intro headerList l err h
    simp only [appendHeaders, Option.some.injEq, Prod.mk.injEq] at h
    rw [← h.1]; simp
  | cons header rest ih =>
    intro headerList l err h
    rw [appendHeaders] at h
    rcases hlast : headerList.getLast? with _ | prevHeader
    · rw [hlast] at h; simp at h
    · rw [hlast] at h
      simp only at h
      split at h
      · simp only [Option.some.injEq, Prod.mk.injEq] at h
        rw [← h.1]; simp
      · have := ih _ _ _ h
        simp only [List.length_append, List.length_cons, List.length_nil] at this ⊢
        omega

/-- One more pass of the header loop uses up one reply and adds at most that reply's
headers to the list. -/
theorem headerStep_again {checkPoint : Checkpoint} {bk bk1 : blockKeeper κ}
    (h : headerStep checkPoint bk = (bk1, Step.again)) :
    bk1.headersReplies.length < bk.headersReplies.length ∧
      bk1.headerList.length + pendingHeaders bk1.headersReplies ≤
        bk.headerList.length + pendingHeaders bk.headersReplies := by
  unfold headerStep at h
  rcases hl : bk.headerList.getLast? with _ | lastHeader
  · rw [hl] at h; simp at h
  · rw [hl] at h
    simp only at h
    split at h
    · simp at h
    · split at h
      · simp at h
      · unfold requireHeaders at h
        rcases hr : bk.headersReplies with _ | ⟨r, rest⟩
        · rw [hr] at h; simp at h
        · rw [hr] at h
          cases r with
          | dropped => simp at h
          | timeout => simp at h
          | ok headers =>
            simp only at h
            split at h
            · simp at h
            · unfold appendHeaderList at h
              simp only at h
              rcases ha : appendHeaders bk.headerList headers with _ | ⟨l, _ | e⟩
              · rw [ha] at h; simp at h
              · rw [ha] at h
                simp only [Prod.mk.injEq, and_true] at h
                rw [← h]
                have := appendHeaders_length _ _ _ _ ha
                simp only [List.length_cons, pendingHeaders]
                omega
              · rw [ha] at h; simp at h

theorem headerStep_leave {checkPoint : Checkpoint} {bk bk1 : blockKeeper κ}
    (h : headerStep checkPoint bk = (bk1, Step.leave)) : bk1 = bk := by
  unfold headerStep at h
  rcases hl : bk.headerList.getLast? with _ | lastHeader
  · rw [hl] at h; simp at h
  · rw [hl] at h
    simp only at h
    split at h
    · simp only [Prod.mk.injEq, and_true] at h
      exact h.symm
    · split at h
      · simp at h
      · rcases hr : requireHeaders bk [lastHeader.Hash] checkPoint.Hash with ⟨bk2, e | headers⟩
        · rw [hr] at h; simp at h
        · rw [hr] at h
          simp only at h
          split at h
          · simp at h
          · rcases ha : appendHeaderList bk2 headers with _ | ⟨bk3, _ | e⟩
            · rw [ha] at h; simp at h
            · rw [ha] at h; simp at h
            · rw [ha] at h; simp at h

theorem headerStep_stop {checkPoint : Checkpoint} {bk bk1 : blockKeeper κ} {o : Outcome}
    (h : headerStep checkPoint bk = (bk1, Step.stop o)) : o ≠ Outcome.unfinished := by
  unfold headerStep at h
  rcases hl : bk.headerList.getLast? with _ | lastHeader
  · rw [hl] at h
    simp only [Prod.mk.injEq, Step.stop.injEq] at h
    rw [← h.2]; simp
  · rw [hl] at h
    simp only at h
    split at h
    · simp at h
    · split at h
      · simp only [Prod.mk.injEq, Step.stop.injEq] at h
        rw [← h.2]; simp
      · rcases hr : requireHeaders bk [lastHeader.Hash] checkPoint.Hash with ⟨bk2, e | headers⟩
        · rw [hr] at h
          simp only [Prod.mk.injEq, Step.stop.injEq] at h
          rw [← h.2]; simp
        · rw [hr] at h
          simp only at h
          split at h
          · simp only [Prod.mk.injEq, Step.stop.injEq] at h
            rw [← h.2]; simp
          · rcases ha : appendHeaderList bk2 headers with _ | ⟨bk3, _ | e⟩
            · rw [ha] at h
              simp only [Prod.mk.injEq, Step.stop.injEq] at h
              rw [← h.2]; simp
            · rw [ha] at h; simp at h
            · rw [ha] at h
              simp only [Prod.mk.injEq, Step.stop.injEq] at h
              rw [← h.2]; simp

/-- The header loop ends by itself once the fuel exceeds the number of pending replies;
when it leaves for the body loop, the list is no longer than the old list plus the
pending headers. -/
theorem headerLoop_finishes (checkPoint : Checkpoint) :
    ∀ (fuel : Nat) (bk : blockKeeper κ), bk.headersReplies.length < fuel →
      (headerLoop checkPoint fuel bk).2 ≠ Step.stop Outcome.unfinished ∧
      (headerLoop checkPoint fuel bk).2 ≠ Step.again ∧
      ((headerLoop checkPoint fuel bk).2 = Step.leave →
        (headerLoop checkPoint fuel bk).1.headerList.length ≤
          bk.headerList.length + pendingHeaders bk.headersReplies) := by
  intro fuel
  induction fuel with
  | zero => intro bk h; omega
  | succ fuel ih =>
    intro bk hf
    rw [headerLoop]
    rcases hstep : headerStep checkPoint bk with ⟨bk1, _ | _ | o⟩
    · simp only
      obtain ⟨h1, h2⟩ := headerStep_again hstep
      obtain ⟨i1, i2, i3⟩ := ih bk1 (by omega)
      exact ⟨i1, i2, fun hl => le_trans (i3 hl) h2⟩
    · simp only
      refine ⟨by simp, by simp, fun _ => ?_⟩
      rw [headerStep_leave hstep]
      omega
    · simp only
      refine ⟨?_, by simp, by simp⟩
      intro h
      simp only [Step.stop.injEq] at h
      exact headerStep_stop hstep h

/-- The body loop ends by itself once the fuel exceeds the length of the cursor's
list. -/
theorem bodyLoop_finishes (checkPoint : Checkpoint) :
    ∀ (fuel : Nat) (bk : blockKeeper κ) (fastHeader : List BlockHeader),
      fastHeader.length < fuel →
      (bodyLoop A V checkPoint fuel bk fastHeader).2 ≠ Outcome.unfinished := by
  intro fuel
  induction fuel with
  | zero => intro bk fastHeader h; omega
  | succ fuel ih =>
    intro bk fastHeader hf
    rw [bodyLoop]
    split
    · have hcur : (if A.BestBlockHeight bk.chain = 0 then fastHeader.tail else fastHeader).length ≤
          fastHeader.length := by
        split
        · simp
        · exact le_refl _
      rcases hc : (if A.BestBlockHeight bk.chain = 0 then fastHeader.tail else fastHeader) with
        _ | ⟨header, next⟩
      · simp
      · rw [hc] at hcur
        simp only [List.length_cons] at hcur
        simp only
        rcases requireMerkleBlock bk header.Height (some header.Hash) with ⟨bk1, e | merkleBlock⟩
        · simp
        · simp only
          rcases VerifyBlockHeader header merkleBlock with _ | e
          · simp only
            rcases VerifyMerkleBlock V merkleBlock with e | txStatus
            · simp
            · simp only
              split
              · simp
              · rcases A.CalcNextSeed bk1.chain merkleBlock.PreviousBlockHash with e | seed
                · simp
                · simp only
                  rcases ProcessMerkleBlock A bk1 merkleBlock txStatus with ⟨bk2, isOrphan, _ | e⟩
                  · simp only
                    cases next with
                    | nil => simp
                    | cons h2 next2 =>
                      simp only
                      apply ih
                      simp only [List.length_cons] at hcur ⊢
                      omega
                  · simp
          · simp
    · simp

/-- Every run of `fastBlockSync` ends by itself, in a return or a panic, once the fuel
exceeds the number of pending header replies and the number of pending headers plus
one. -/
theorem fastBlockSync_finishes (fuel : Nat) (checkPoint : Checkpoint) (bk : blockKeeper κ)
    (h1 : bk.headersReplies.length < fuel)
    (h2 : pendingHeaders bk.headersReplies + 1 < fuel) :
    (fastBlockSync A V checkpoints fuel checkPoint bk).2 ≠ Outcome.unfinished := by
  have hreset : (resetHeaderState A checkpoints bk).headersReplies = bk.headersReplies ∧
      (resetHeaderState A checkpoints bk).headerList.length ≤ 1 := by
    unfold resetHeaderState
    simp only
    split
    · exact ⟨rfl, by simp⟩
    · exact ⟨rfl, by simp⟩
  obtain ⟨f1, f2, f3⟩ := headerLoop_finishes checkPoint fuel (resetHeaderState A checkpoints bk)
    (by rw [hreset.1]; exact h1)
  unfold fastBlockSync
  rcases hloop : headerLoop checkPoint fuel (resetHeaderState A checkpoints bk) with
    ⟨bk1, _ | _ | o⟩
  · rw [hloop] at f2; simp at f2
  · rw [hloop] at f3
    simp only
    apply bodyLoop_finishes
    have := f3 rfl
    rw [hreset.1] at this
    simp only at this
    omega
  · rw [hloop] at f1
    simp only
    intro h
    apply f1
    simp only [h]

end termination

section serviceFlags

theorem land_eq_right_iff (f r : Nat) :
    f &&& r = r ↔ ∀ i, r.testBit i = true → f.testBit i = true := by
  constructor
  · intro h i hi
    have := congrArg (fun n => n.testBit i) h
    simp only [Nat.testBit_land, hi, Bool.and_true] at this
    exact this
  · intro h
    apply Nat.eq_of_testBit_eq
    intro i
    rw [Nat.testBit_land]
    cases hr : r.testBit i
    · simp
    · simp [h i hr]

/-- C18: `f.IsEnable(r)` is true iff `f & r == r`, that is iff every bit set in `r` is set
in `f`; the three flags are 1, 2 and 4, and `f.IsEnable(SFFastSync|SFFullNode)` holds iff
`f.IsEnable(SFFastSync)` and `f.IsEnable(SFFullNode)` both hold. -/
theorem IsEnable_iff_bits (f r : ServiceFlag) :
    (ServiceFlag.IsEnable f r = true ↔ f &&& r = r) ∧
      (ServiceFlag.IsEnable f r = true ↔ ∀ i, r.testBit i = true → f.testBit i = true) ∧
      SFFullNode = 1 ∧ SFFastSync = 2 ∧ SFSpvProof = 4 ∧
      (ServiceFlag.IsEnable f (SFFastSync ||| SFFullNode) = true ↔
        ServiceFlag.IsEnable f SFFastSync = true ∧ ServiceFlag.IsEnable f SFFullNode = true) := by
  have h1 : ∀ g : Nat, ServiceFlag.IsEnable f g = true ↔ f &&& g = g := by
    intro g
    simp [ServiceFlag.IsEnable]
  refine ⟨h1 r, ?_, rfl, rfl, rfl, ?_⟩
  · rw [h1 r]
    exact land_eq_right_iff f r
  · rw [h1, h1, h1, land_eq_right_iff, land_eq_right_iff, land_eq_right_iff]
    constructor
    · intro h
      exact ⟨fun i hi => h i (by rw [Nat.testBit_lor, hi]; rfl),
        fun i hi => h i (by rw [Nat.testBit_lor, hi]; simp)⟩
    · intro h i hi
      rw [Nat.testBit_lor] at hi
      rcases Bool.or_eq_true _ _ ▸ hi with h2 | h2
      · exact h.1 i h2
      · exact h.2 i h2

end serviceFlags

section checkpoints

/-- The loop of `nextCheckpoint` on checkpoints of falling height: it ends on the first
checkpoint, in rising order, that lies above the height. -/
theorem nextCheckpointLoop_find (height : Nat) :
    ∀ (below : List Checkpoint) (cur : Checkpoint),
      List.Pairwise (fun a b => b.Height < a.Height) (cur :: below) → height < cur.Height →
      (below.reverse ++ [cur]).find? (fun cp => decide (height < cp.Height)) =
        some (nextCheckpointLoop height below cur) := by
  intro below
  induction below with
  | nil =>
    intro cur _ h
    simp [nextCheckpointLoop, h]
  | cons cp rest ih =>
    intro cur hp h
    rw [nextCheckpointLoop]
    have hp' := List.pairwise_cons.mp hp
    by_cases hge : height ≥ cp.Height
    · rw [if_pos hge]
      have hnone : (cp :: rest).reverse.find? (fun c => decide (height < c.Height)) = none := by
        rw [List.find?_eq_none]
        intro c hc
        rw [List.mem_reverse] at hc
        simp only [decide_eq_true_eq, not_lt]
        rcases List.mem_cons.mp hc with h1 | h1
        · rw [h1]; exact hge
        · have := (List.pairwise_cons.mp hp'.2).1 c h1
          omega
      rw [List.find?_append, hnone]
      simp [h]
    · rw [if_neg hge]
      have hlt : height < cp.Height := by omega
      rw [List.reverse_cons, List.find?_append, ih cp hp'.2 hlt]
      rfl

/-- C12: for checkpoints of strictly increasing height, `nextCheckpoint` returns the
first checkpoint of the list whose height is strictly greater than the best height, and
none exactly when no checkpoint is higher (the empty list included). -/
theorem nextCheckpoint_is_first_above (checkpoints : List Checkpoint) (height : Nat)
    (hsorted : List.Pairwise (fun a b => a.Height < b.Height) checkpoints) :
    nextCheckpointOf checkpoints height =
        checkpoints.find? (fun cp => decide (height < cp.Height)) ∧
      (nextCheckpointOf checkpoints height = none ↔
        ∀ cp ∈ checkpoints, ¬ height < cp.Height) := by
  have hmain : nextCheckpointOf checkpoints height =
      checkpoints.find? (fun cp => decide (height < cp.Height)) := by
    unfold nextCheckpointOf
    rcases hrev : checkpoints.reverse with _ | ⟨last, below⟩
    · have : checkpoints = [] := by simpa using hrev
      simp [this]
    · have hcps : checkpoints = below.reverse ++ [last] := by
        have := congrArg List.reverse hrev
        simpa using this
      have hdesc : List.Pairwise (fun a b => b.Height < a.Height) (last :: below) := by
        rw [← hrev, List.pairwise_reverse]
        exact hsorted
      simp only
      by_cases hge : height ≥ last.Height
      · rw [if_pos hge]
        symm
        rw [List.find?_eq_none]
        intro c hc
        simp only [decide_eq_true_eq, not_lt]
        rw [hcps] at hc
        simp only [List.mem_append, List.mem_reverse, List.mem_singleton] at hc
        rcases hc with h1 | h1
        · have := (List.pairwise_cons.mp hdesc).1 c h1
          omega
        · rw [h1]; exact hge
      · rw [if_neg hge, hcps]
        exact (nextCheckpointLoop_find height below last hdesc (by omega)).symm
  refine ⟨hmain, ?_⟩
  rw [hmain, List.find?_eq_none]
  simp

theorem nextCheckpoint_is_first_above_witness :
    List.Pairwise (fun a b => a.Height < b.Height) threeCheckpoints ∧
      nextCheckpointOf threeCheckpoints 3 = some { Height := 5, Hash := 105 } ∧
      nextCheckpointOf threeCheckpoints 9 = none ∧
      (nextCheckpointOf threeCheckpoints 3 =
          threeCheckpoints.find? (fun cp => decide (3 < cp.Height)) ∧
        (nextCheckpointOf threeCheckpoints 3 = none ↔
          ∀ cp ∈ threeCheckpoints, ¬ 3 < cp.Height)) :=
  ⟨by decide, by decide, by decide,
    nextCheckpoint_is_first_above threeCheckpoints 3 (by decide)⟩

end checkpoints

section chaining
variable {κ : Type} (A : ChainAPI κ) (checkpoints : List Checkpoint)

theorem appendHeaders_chained :
    ∀ (headers headerList l : List BlockHeader) (err : Option Error),
      Chained headerList → appendHeaders headerList headers = some (l, err) → Chained l := by
  intro headers
  induction headers with
  | nil =>
    intro headerList l err hc h
    simp only [appendHeaders, Option.some.injEq, Prod.mk.injEq] at h
    rw [← h.1]; exact hc
  | cons header rest ih =>
    intro headerList l err hc h
    rw [appendHeaders] at h
    rcases hlast : headerList.getLast? with _ | prevHeader
    · rw [hlast] at h; simp at h
    · rw [hlast] at h
      simp only at h
      by_cases hne : prevHeader.Hash ≠ header.PreviousBlockHash
      · rw [if_pos hne] at h
        simp only [Option.some.injEq, Prod.mk.injEq] at h
        rw [← h.1]; exact hc
      · rw [if_neg hne] at h
        refine ih _ _ _ ?_ h
        unfold Chained at hc ⊢
        refine List.Chain'.append hc (by simp) ?_
        intro x hx y hy
        simp only [List.head?_cons, Option.mem_def, Option.some.injEq] at hy
        rw [Option.mem_def, hlast] at hx
        simp only [Option.some.injEq] at hx
        rw [← hy, ← hx]
        exact (not_not.mp hne).symm

theorem appendHeaderListSeq_chained :
    ∀ (batches : List (List BlockHeader)) (bk bk' : blockKeeper κ),
      Chained bk.headerList → appendHeaderListSeq bk batches = some bk' →
      Chained bk'.headerList := by
  intro batches
  induction batches with
  | nil =>
    intro bk bk' hc h
    simp only [appendHeaderListSeq, Option.some.injEq] at h
    rw [← h]; exact hc
  | cons headers rest ih =>
    intro bk bk' hc h
    rw [appendHeaderListSeq] at h
    unfold appendHeaderList at h
    rcases hrun : appendHeaders bk.headerList headers with _ | ⟨l, err⟩
    · rw [hrun] at h; simp at h
    · rw [hrun] at h
      simp only at h
      exact ih _ _ (appendHeaders_chained _ _ _ _ hc hrun) h

/-- C11: after `resetHeaderState` the header list is the best header alone when a next
checkpoint exists and empty otherwise, and after any sequence of `appendHeaderList`
calls on it, successful or failing, every element except the first has the hash of the
element before it as `PreviousBlockHash`. -/
theorem headerList_stays_chained (bk bk' : blockKeeper κ) (batches : List (List BlockHeader))
    (h : appendHeaderListSeq (resetHeaderState A checkpoints bk) batches = some bk') :
    (resetHeaderState A checkpoints bk).headerList =
        (if (nextCheckpoint A checkpoints bk).isSome then [A.BestBlockHeader bk.chain] else []) ∧
      Chained bk'.headerList := by
  have hreset : (resetHeaderState A checkpoints bk).headerList =
      (if (nextCheckpoint A checkpoints bk).isSome then [A.BestBlockHeader bk.chain] else []) := by
    unfold resetHeaderState
    simp only
    split <;> rfl
  refine ⟨hreset, appendHeaderListSeq_chained _ _ _ ?_ h⟩
  rw [hreset]
  unfold Chained
  split <;> simp

theorem headerList_stays_chained_witness :
    appendHeaderListSeq (resetHeaderState tipChain [checkpoint102] genesisKeeper)
        [[mkHeader 101 1 100, mkHeader 102 2 999], [mkHeader 109 2 101]] =
        some { genesisKeeper with
          headerList := [mkHeader 100 0 0, mkHeader 101 1 100, mkHeader 109 2 101] } ∧
      ((resetHeaderState tipChain [checkpoint102] genesisKeeper).headerList =
          (if (nextCheckpoint tipChain [checkpoint102] genesisKeeper).isSome then
            [tipChain.BestBlockHeader genesisKeeper.chain] else []) ∧
        Chained ({ genesisKeeper with
          headerList := [mkHeader 100 0 0, mkHeader 101 1 100, mkHeader 109 2 101] } :
            blockKeeper BlockHeader).headerList) :=
  ⟨by decide,
    headerList_stays_chained tipChain [checkpoint102] genesisKeeper _
      [[mkHeader 101 1 100, mkHeader 102 2 999], [mkHeader 109 2 101]] (by decide)⟩

end chaining

section wrongHeight
variable {σ : Type} (S : Store σ) (CalcWork : Nat → Nat)

theorem saveBlock_wrong_height (c : Chain σ) (b : Block) (s : Option TransactionStatus)
    (p : BlockNode) (hp : c.index.GetNode b.PreviousBlockHash = some p)
    (hh : b.Height ≠ p.Height + 1) :
    ∃ c1 e, saveBlock S CalcWork c b s = (c1, some e) := by
  unfold saveBlock
  rcases hsv : S.SaveBlock c.store b s with ⟨st, _ | e⟩
  · simp [hp, NewBlockNode, hh]
  · simp

/-- C17 (amended): for a block that is not yet known to the chain (neither in the index
nor in the orphan pool), whose parent is in the block index and whose height is not the
parent height plus one, `processBlock` returns with an error, leaves the index as it
was (so no node is added for the block) and does not change the best node. -/
theorem processBlock_rejects_wrong_height (c : Chain σ) (block : Block)
    (txStatus : Option TransactionStatus) (parent : BlockNode)
    (hnew : c.BlockExist block.Hash = false)
    (hparent : c.index.GetNode block.PreviousBlockHash = some parent)
    (hheight : block.Height ≠ parent.Height + 1) :
    ∃ c1 err, processBlock S CalcWork c block txStatus = some (c1, false, some err) ∧
      c1.index = c.index ∧ c1.index.GetNode block.Hash = none ∧ c1.bestNode = c.bestNode := by
  obtain ⟨c1, e, hsave⟩ := saveBlock_wrong_height S CalcWork c block txStatus parent hparent hheight
  have herr := saveBlock_err S CalcWork hsave
  refine ⟨c1, e, processBlock_unsaved S CalcWork c c1 block txStatus e parent hnew hparent hsave,
    herr.1, ?_, herr.2.1⟩
  rw [herr.1]
  have hx : c.index.BlockExist block.Hash = false := by
    unfold Chain.BlockExist at hnew
    simpa using (Bool.or_eq_false_iff.mp hnew).1
  unfold BlockIndex.BlockExist at hx
  simpa using hx

theorem processBlock_rejects_wrong_height_witness :
    genesisChain.BlockExist (mkBlock 105 5 100).Hash = false ∧
      genesisChain.index.GetNode (mkBlock 105 5 100).PreviousBlockHash = some genesisNode ∧
      (mkBlock 105 5 100).Height ≠ genesisNode.Height + 1 ∧
      ∃ c1 err, processBlock (listStore []) bitsWork genesisChain (mkBlock 105 5 100) none =
          some (c1, false, some err) ∧
        c1.index = genesisChain.index ∧ c1.index.GetNode (mkBlock 105 5 100).Hash = none ∧
        c1.bestNode = genesisChain.bestNode :=
  ⟨by decide, by decide, by decide,
    processBlock_rejects_wrong_height (listStore []) bitsWork genesisChain (mkBlock 105 5 100)
      none genesisNode (by decide) (by decide) (by decide)⟩

/-- C17 as stated fails: block 102 claims height 5 on top of block 101 of height 1. It
arrives before its parent and is parked; when block 101 arrives the store refuses block
102, which stays parked. Now its parent is in the index and its height does not follow,
yet submitting it again returns no error (it is reported as a known orphan). -/
theorem processBlock_wrong_height_counterexample :
    processBlock (listStore [102]) bitsWork genesisChain (mkBlock 102 5 101) none =
        some (parkedChain, true, none) ∧
      processBlock (listStore [102]) bitsWork parkedChain (mkBlock 101 1 100) none =
        some (misplacedChain, false, none) ∧
      misplacedChain.index.GetNode (mkBlock 102 5 101).PreviousBlockHash = some node101 ∧
      (mkBlock 102 5 101).Height ≠ node101.Height + 1 ∧
      processBlock (listStore [102]) bitsWork misplacedChain (mkBlock 102 5 101) none =
        some (misplacedChain, true, none) := by
  refine ⟨by decide, by decide, by decide, by decide, by decide⟩

end wrongHeight

section regularSync
variable {κ : Type} (A : ChainAPI κ) (V : Validators)

/-- C20 (the code departs from the claim): at best height 0 with `wantHeight = 5`, the
peer answers the request for height 1 with a block the chain reports as an orphan, so
`i` drops to 0; it answers the request for height 0 the same way, and `i--` wraps to
`2 ^ 64 - 1`, which ends the loop: `regularBlockSync` returns nil while the best height
is still 0, short of the target. -/
theorem regularBlockSync_wraps_below_zero :
    regularBlockSync tipChain leafValidators 3 5 strayKeeper =
        ({ strayKeeper with
            merkleReplies := [],
            requested := [(1, 0), (0, 0)],
            submitted := [(merkleBlockToBlock (bareMerkle 107 7 106), none),
              (merkleBlockToBlock (bareMerkle 107 7 106), none)] },
          Outcome.returned none) ∧
      tipChain.BestBlockHeight
          (regularBlockSync tipChain leafValidators 3 5 strayKeeper).1.chain = 0 ∧
      ¬ 5 ≤ tipChain.BestBlockHeight
          (regularBlockSync tipChain leafValidators 3 5 strayKeeper).1.chain := by
  refine ⟨by decide, by decide, by decide⟩

end regularSync

section regularSyncCases
variable {κ : Type} (A : ChainAPI κ) (V : Validators)

theorem regularLoop_requested_mono (wantHeight : Nat) (x : Nat × bc.Hash) :
    ∀ (fuel : Nat) (bk : blockKeeper κ) (i : Nat), x ∈ bk.requested →
      x ∈ (regularLoop A V wantHeight fuel bk i).1.requested := by
  intro fuel
  induction fuel with
  | zero => intro bk i hx; simpa [regularLoop] using hx
  | succ fuel ih =>
    intro bk i hx
    rw [regularLoop]
    split
    · have hreq := requireMerkleBlock_logs bk i none
      rcases hr : requireMerkleBlock bk i none with ⟨bk1, err | merkleBlock⟩
      · rw [hr] at hreq
        simp only at hreq ⊢
        rw [hreq.1]
        exact List.mem_append_left _ hx
      · rw [hr] at hreq
        simp only at hreq ⊢
        have hx1 : x ∈ bk1.requested := by rw [hreq.1]; exact List.mem_append_left _ hx
        rcases hv : VerifyMerkleBlock V merkleBlock with err | txStatus
        · exact hx1
        · simp only
          have hp := ProcessMerkleBlock_logs A bk1 merkleBlock txStatus
          rcases hpr : ProcessMerkleBlock A bk1 merkleBlock txStatus with ⟨bk2, isOrphan, _ | err⟩
          · rw [hpr] at hp
            simp only at hp
            have hx2 : x ∈ bk2.requested := by rw [hp.1]; exact hx1
            cases isOrphan
            · exact ih _ _ hx2
            · exact ih _ _ hx2
          · rw [hpr] at hp
            simp only at hp ⊢
            rw [hp.1]; exact hx1
    · exact hx

/-- When the loop of `regularBlockSync` ends with nil, the best height has reached the
target, unless a request for height 0 was answered with an orphan (the decrement then
wraps) or the best height is the last `uint64`. -/
theorem regularLoop_nil_cases (wantHeight : Nat) :
    ∀ (fuel : Nat) (bk bk' : blockKeeper κ) (i : Nat),
      (i ≤ wantHeight ∨ i = (A.BestBlockHeight bk.chain + 1) % 2 ^ 64) →
      regularLoop A V wantHeight fuel bk i = (bk', Outcome.returned none) →
      wantHeight ≤ A.BestBlockHeight bk'.chain ∨ (0, 0) ∈ bk'.requested ∨
        2 ^ 64 ≤ A.BestBlockHeight bk'.chain + 1 := by
  intro fuel
  induction fuel with
  | zero => intro bk bk' i _ h; simp [regularLoop] at h
  | succ fuel ih =>
    intro bk bk' i hinv h
    rw [regularLoop] at h
    split at h
    · rename_i hle
      have hreq := requireMerkleBlock_logs bk i none
      rcases hr : requireMerkleBlock bk i none with ⟨bk1, err | merkleBlock⟩
      · rw [hr] at h; simp at h
      · rw [hr] at h hreq
        simp only at h hreq
        rcases hv : VerifyMerkleBlock V merkleBlock with err | txStatus
        · rw [hv] at h; simp at h
        · rw [hv] at h
          simp only at h
          have hp := ProcessMerkleBlock_logs A bk1 merkleBlock txStatus
          rcases hpr : ProcessMerkleBlock A bk1 merkleBlock txStatus with ⟨bk2, isOrphan, _ | err⟩
          · rw [hpr] at h hp
            simp only at h hp
            cases isOrphan
            · simp only at h
              exact ih _ _ _ (Or.inr rfl) h
            · simp only at h
              by_cases hi : i = 0
              · right; left
                have hmem : ((0 : Nat), (0 : bc.Hash)) ∈ bk2.requested := by
                  rw [hp.1, hreq.1, hi]
                  simp
                have := regularLoop_requested_mono A V wantHeight (0, 0) fuel bk2
                  ((i + (2 ^ 64 - 1)) % 2 ^ 64) hmem
                rw [h] at this
                exact this
              · refine ih _ _ _ (Or.inl ?_) h
                have : (i + (2 ^ 64 - 1)) % 2 ^ 64 ≤ i - 1 := by
                  have h1 : i + (2 ^ 64 - 1) = (i - 1) + 2 ^ 64 := by omega
                  rw [h1, Nat.add_mod_right]
                  exact Nat.mod_le _ _
                omega
          · rw [hpr] at h; simp at h
    · rename_i hgt
      simp only [Prod.mk.injEq, and_true] at h
      subst h
      rcases hinv with hle | heq
      · exact absurd hle hgt
      · by_cases hov : A.BestBlockHeight bk.chain + 1 < 2 ^ 64
        · rw [Nat.mod_eq_of_lt hov] at heq
          left; omega
        · right; right; omega

/-- When `regularBlockSync` returns nil, the best height has reached the target, unless a
request for height 0 was answered with an orphan or the best height is the last
`uint64`. -/
theorem regularBlockSync_nil_cases (fuel wantHeight : Nat) (bk bk' : blockKeeper κ)
    (h : regularBlockSync A V fuel wantHeight bk = (bk', Outcome.returned none)) :
    wantHeight ≤ A.BestBlockHeight bk'.chain ∨ (0, 0) ∈ bk'.requested ∨
      2 ^ 64 ≤ A.BestBlockHeight bk'.chain + 1 :=
  regularLoop_nil_cases A V wantHeight fuel bk bk' _ (Or.inr rfl) h

/-- The loop of `regularBlockSync` ends by itself once the fuel exceeds the number of
replies the peer still has for the merkle-block requests. -/
theorem regularLoop_finishes (wantHeight : Nat) :
    ∀ (fuel : Nat) (bk : blockKeeper κ) (i : Nat), bk.merkleReplies.length < fuel →
      (regularLoop A V wantHeight fuel bk i).2 ≠ Outcome.unfinished := by
  intro fuel
  induction fuel with
  | zero => intro bk i h; omega
  | succ fuel ih =>
    intro bk i hf
    rw [regularLoop]
    split
    · rcases hr : requireMerkleBlock bk i none with ⟨bk1, err | merkleBlock⟩
      · simp
      · simp only
        have hlen : bk1.merkleReplies.length < fuel := by
          unfold requireMerkleBlock at hr
          rcases hm : bk.merkleReplies with _ | ⟨r, rest⟩
          · rw [hm] at hr; simp at hr
          · rw [hm] at hr hf
            cases r <;> simp at hr
            rw [← hr.1]
            simp at hf ⊢
            omega
        rcases hv : VerifyMerkleBlock V merkleBlock with err | txStatus
        · simp
        · simp only
          rcases hpr : ProcessMerkleBlock A bk1 merkleBlock txStatus with ⟨bk2, isOrphan, _ | err⟩
          · have hk : bk2.merkleReplies = bk1.merkleReplies := by
              unfold ProcessMerkleBlock at hpr
              simp only [Prod.mk.injEq] at hpr
              rw [← hpr.1]
            cases isOrphan
            · exact ih _ _ (by rw [hk]; exact hlen)
            · exact ih _ _ (by rw [hk]; exact hlen)
          · simp
    · simp

end regularSyncCases

section syncCycle
variable {κ π : Type} (A : ChainAPI κ) (V : Validators) (P : PeerSetAPI π)
  (checkpoints : List Checkpoint)

theorem RanMode_of_run (sk : syncKeeper κ π) (p : peer) (r : blockKeeper κ × Outcome) :
    RanMode P sk p r
      (match r with
        | (bk1, Outcome.returned (some err)) =>
          (({ keeper := bk1, peers := P.errorHandler sk.peers p.ID err, syncPeer := some p } :
            syncKeeper κ π), some false)
        | (bk1, Outcome.returned none) =>
          ({ keeper := bk1, peers := sk.peers, syncPeer := some p }, some true)
        | (bk1, _) => ({ keeper := bk1, peers := sk.peers, syncPeer := some p }, none)) := by
  rcases r with ⟨bk1, (_ | err) | _ | _⟩ <;> simp [RanMode]

/-- C13: one `startSync` call runs at most one sync function. With a next checkpoint
`cp` and a peer `p = bestPeer(SFFastSync | SFFullNode)` of height at least `cp.Height` it
runs `fastBlockSync(cp)` with sync peer `p`. Otherwise, with a peer
`p = bestPeer(SFFullNode)` higher than the best height, it runs `regularBlockSync` with
target `min(p.Height, best height + 128)`, the sum being the `uint64` sum (the plain sum
whenever that does not overflow). Otherwise it runs nothing, leaves the keeper as it was
and returns false. It returns true exactly when the function it ran returned nil. -/
theorem startSync_runs_one_mode (fuel : Nat) (sk : syncKeeper κ π) :
    (∀ cp p, nextCheckpoint A checkpoints sk.keeper = some cp →
        P.bestPeer sk.peers (SFFastSync ||| SFFullNode) = some p → p.Height ≥ cp.Height →
        RanMode P sk p (fastBlockSync A V checkpoints fuel cp sk.keeper)
          (startSync A V P checkpoints fuel sk)) ∧
      ((¬ ∃ cp p, nextCheckpoint A checkpoints sk.keeper = some cp ∧
          P.bestPeer sk.peers (SFFastSync ||| SFFullNode) = some p ∧ p.Height ≥ cp.Height) →
        (∀ p, P.bestPeer sk.peers SFFullNode = some p →
          p.Height > A.BestBlockHeight sk.keeper.chain →
          RanMode P sk p
              (regularBlockSync A V fuel
                (min p.Height ((A.BestBlockHeight sk.keeper.chain + 128) % 2 ^ 64)) sk.keeper)
              (startSync A V P checkpoints fuel sk) ∧
            (A.BestBlockHeight sk.keeper.chain + 128 < 2 ^ 64 →
              min p.Height ((A.BestBlockHeight sk.keeper.chain + 128) % 2 ^ 64) =
                min p.Height (A.BestBlockHeight sk.keeper.chain + 128))) ∧
        ((¬ ∃ p, P.bestPeer sk.peers SFFullNode = some p ∧
            p.Height > A.BestBlockHeight sk.keeper.chain) →
          startSync A V P checkpoints fuel sk = (sk, some false))) := by
  refine ⟨?_, ?_⟩
  · intro cp p hcp hp hge
    unfold startSync
    simp only [hcp, hp, hge, if_true]
    exact RanMode_of_run P sk p _
  · intro hno
    have hgate : (match P.bestPeer sk.peers (SFFastSync ||| SFFullNode),
          nextCheckpoint A checkpoints sk.keeper with
        | some p, some cp => if p.Height ≥ cp.Height then some (p, cp) else none
        | _, _ => none) = none := by
      rcases hp : P.bestPeer sk.peers (SFFastSync ||| SFFullNode) with _ | p
      · rfl
      · rcases hcp : nextCheckpoint A checkpoints sk.keeper with _ | cp
        · rfl
        · simp only
          rw [if_neg]
          intro hge
          exact hno ⟨cp, p, hcp, hp, hge⟩
    refine ⟨?_, ?_⟩
    · intro p hp hgt
      refine ⟨?_, fun hbound => by rw [Nat.mod_eq_of_lt hbound]⟩
      unfold startSync
      simp only [hgate, hp, hgt, if_true, maxBlockPerMsg]
      have htarget : (if (A.BestBlockHeight sk.keeper.chain + 128) % 2 ^ 64 > p.Height
          then p.Height else (A.BestBlockHeight sk.keeper.chain + 128) % 2 ^ 64) =
          min p.Height ((A.BestBlockHeight sk.keeper.chain + 128) % 2 ^ 64) := by
        split <;> omega
      rw [htarget]
      exact RanMode_of_run P sk p _
    · intro hnone
      unfold startSync
      simp only [hgate]
      rcases hp : P.bestPeer sk.peers SFFullNode with _ | p
      · rfl
      · simp only
        rw [if_neg]
        intro hgt
        exact hnone ⟨p, hp, hgt⟩

theorem startSync_runs_one_mode_witness :
    listPeers.bestPeer idleSync.peers (SFFastSync ||| SFFullNode) = none ∧
      listPeers.bestPeer idleSync.peers SFFullNode = some { ID := "full", Height := 300 } ∧
      min 300 ((tipChain.BestBlockHeight idleSync.keeper.chain + 128) % 2 ^ 64) = 128 ∧
      RanMode listPeers idleSync { ID := "full", Height := 300 }
        (regularBlockSync tipChain leafValidators 4
          (min 300 ((tipChain.BestBlockHeight idleSync.keeper.chain + 128) % 2 ^ 64))
          idleSync.keeper)
        (startSync tipChain leafValidators listPeers [checkpoint102] 4 idleSync) :=
  ⟨by decide, by decide, by decide,
    (((startSync_runs_one_mode tipChain leafValidators listPeers [checkpoint102] 4 idleSync).2
        (fun ⟨_, _, _, hp, _⟩ =>
          Option.noConfusion ((show listPeers.bestPeer idleSync.peers (SFFastSync ||| SFFullNode) =
            none by decide).symm.trans hp))).1
      { ID := "full", Height := 300 } (by decide) (by decide)).1⟩

end syncCycle

section locatorShape
variable {κ : Type} (A : ChainAPI κ)

theorem locatorOffset_succ (i : Nat) :
    locatorOffset (i + 1) = locatorOffset i + locatorStep i := by
  unfold locatorOffset locatorStep
  by_cases h1 : i < 9
  · have h2 : i + 1 ≤ 9 := by omega
    have h3 : i ≤ 9 := by omega
    rw [if_pos h2, if_pos h3, if_pos h1]
  · by_cases h2 : i = 9
    · subst h2; norm_num
    · have h3 : ¬ i + 1 ≤ 9 := by omega
      have h4 : ¬ i ≤ 9 := by omega
      rw [if_neg h3, if_neg h4, if_neg h1]
      have h5 : i + 1 - 8 = (i - 8) + 1 := by omega
      rw [h5, pow_succ]; omega

theorem locatorStep_pos (i : Nat) : 0 < locatorStep i := by
  unfold locatorStep
  split
  · omega
  · exact Nat.pos_pow_of_pos _ (by omega)

theorem locatorCount_pos (H : Nat) : 0 < locatorCount H := by
  unfold locatorCount
  split <;> omega

theorem two_le_clog (H : Nat) (h : 9 < H) : 2 ≤ Nat.clog 2 (H - 7) := by
  have : 2 ^ 1 < H - 7 := by norm_num; omega
  exact (Nat.pow_lt_iff_lt_clog (by omega)).mp this

theorem locatorOffset_last (H : Nat) : H ≤ locatorOffset (locatorCount H - 1) := by
  unfold locatorCount
  split
  · rename_i h
    unfold locatorOffset
    rw [if_pos (by omega)]
    omega
  · rename_i h
    have hc := two_le_clog H (by omega)
    have hle := Nat.le_pow_clog (show 1 < 2 by omega) (H - 7)
    unfold locatorOffset
    rw [if_neg (by omega)]
    have : 9 + Nat.clog 2 (H - 7) - 1 - 8 = Nat.clog 2 (H - 7) := by omega
    rw [this]
    omega

theorem locatorOffset_lt (H i : Nat) (h : i + 1 < locatorCount H) : locatorOffset i < H := by
  unfold locatorCount at h
  split at h
  · unfold locatorOffset
    rw [if_pos (by omega)]
    omega
  · rename_i hH
    unfold locatorOffset
    split
    · omega
    · rename_i hi
      have : 2 ^ (i - 8) < H - 7 :=
        (Nat.pow_lt_iff_lt_clog (show 1 < 2 by omega)).mpr (by omega)
      omega

theorem locatorLoop_closed_form (chain : κ) (H : Nat) (hdr : Nat → BlockHeader)
    (hH : H < 2 ^ 64)
    (hlookup : ∀ h, h ≤ H → A.GetHeaderByHeight chain h = Except.ok (hdr h))
    (hheight : ∀ h, h ≤ H → (hdr h).Height = h) :
    ∀ (fuel i : Nat) (locator : List bc.Hash) (step : Nat),
      i < locatorCount H → locator.length = i →
      (locatorOffset i < H → step = locatorStep i) →
      locatorCount H - i ≤ fuel →
      locatorLoop A chain fuel (hdr (H - locatorOffset i)) locator step =
        some (locator ++ (List.range' i (locatorCount H - i)).map
          (fun j => (hdr (H - locatorOffset j)).Hash)) := by
  intro fuel
  induction fuel with
  | zero => intro i locator step hi _ _ hf; omega
  | succ fuel ih =>
    intro i locator step hi hlen hstep hf
    rw [locatorLoop]
    have hhi : (hdr (H - locatorOffset i)).Height = H - locatorOffset i :=
      hheight _ (Nat.sub_le _ _)
    simp only [hhi]
    by_cases hzero : H - locatorOffset i = 0
    · rw [if_pos hzero]
      have hlast : i + 1 = locatorCount H := by
        by_contra hne
        have := locatorOffset_lt H i (by omega)
        omega
      have hone : locatorCount H - i = 1 := by omega
      rw [hone]
      simp [List.range']
    · rw [if_neg hzero]
      have hoff : locatorOffset i < H := by omega
      have hs := hstep hoff
      have hnext : i + 1 < locatorCount H := by
        by_contra hne
        have hl := locatorOffset_last H
        have : locatorCount H - 1 = i := by omega
        rw [this] at hl
        omega
      have hsucc := locatorOffset_succ i
      have hpos := locatorStep_pos i
      have hget : (if H - locatorOffset i < step then A.GetHeaderByHeight chain 0
          else A.GetHeaderByHeight chain (H - locatorOffset i - step)) =
          Except.ok (hdr (H - locatorOffset (i + 1))) := by
        split
        · rw [hlookup 0 (Nat.zero_le _)]
          have : H - locatorOffset (i + 1) = 0 := by omega
          rw [this]
        · rw [hlookup _ (by omega)]
          have : H - locatorOffset (i + 1) = H - locatorOffset i - step := by omega
          rw [this]
      rw [hget]
      simp only
      have hrange : List.range' i (locatorCount H - i) =
          i :: List.range' (i + 1) (locatorCount H - (i + 1)) := by
        have : locatorCount H - i = (locatorCount H - (i + 1)) + 1 := by omega
        rw [this, List.range'_succ]
      rw [ih (i + 1) (locator ++ [(hdr (H - locatorOffset i)).Hash]) _ hnext (by simp [hlen]) ?_
        (by omega), hrange]
      · simp
      · intro hlt
        rw [List.length_append, hlen, List.length_singleton, hs]
        unfold locatorStep
        by_cases h8 : i + 1 ≥ 9
        · have e1 : ¬ i + 1 < 9 := by omega
          rw [if_pos h8, if_neg e1]
          by_cases h88 : i = 8
          · subst h88; norm_num
          · have e2 : ¬ i < 9 := by omega
            rw [if_neg e2]
            have he : i + 1 - 8 = (i - 8) + 1 := by omega
            rw [he, pow_succ]
            have hbig : locatorOffset (i + 1) = 2 ^ (i + 1 - 8) + 7 := by
              unfold locatorOffset
              rw [if_neg (show ¬ i + 1 ≤ 9 by omega)]
            rw [hbig, he, pow_succ] at hlt
            exact Nat.mod_eq_of_lt (by omega)
        · have e1 : i + 1 < 9 := by omega
          have e2 : i < 9 := by omega
          rw [if_neg h8, if_pos e1, if_pos e2]

theorem blockLocator_closed_form (bk : blockKeeper κ) (H : Nat) (hdr : Nat → BlockHeader)
    (fuel : Nat) (hH : H < 2 ^ 64) (hbest : A.BestBlockHeader bk.chain = hdr H)
    (hlookup : ∀ h, h ≤ H → A.GetHeaderByHeight bk.chain h = Except.ok (hdr h))
    (hheight : ∀ h, h ≤ H → (hdr h).Height = h)
    (hfuel : locatorCount H ≤ fuel) :
    blockLocator A fuel bk = some ((locatorHeights H).map (fun h => (hdr h).Hash)) := by
  unfold blockLocator
  have h0 : H - locatorOffset 0 = H := by simp [locatorOffset]
  have := locatorLoop_closed_form A bk.chain H hdr hH hlookup hheight fuel 0 [] 1
    (locatorCount_pos H) rfl (fun _ => by simp [locatorStep]) (by omega)
  rw [h0] at this
  rw [hbest, this]
  simp [locatorHeights, List.range_eq_range', List.map_map, Function.comp_def]

end locatorShape

section locatorClaims
variable {κ : Type} (A : ChainAPI κ)

theorem locatorHeights_getLast (H : Nat) : (locatorHeights H).getLast? = some 0 := by
  unfold locatorHeights
  have hc : locatorCount H = (locatorCount H - 1) + 1 := by
    have := locatorCount_pos H
    omega
  have hl := locatorOffset_last H
  rw [hc, List.range_succ, List.map_append]
  simp [List.getLast?_append, Nat.sub_eq_zero_of_le hl]

theorem locatorHeights_eleven : locatorHeights 11 = [11, 10, 9, 8, 7, 6, 5, 4, 3, 2, 0] := by
  simp [locatorHeights, locatorCount, locatorOffset, Nat.clog, List.range, List.range.loop]

/-- C14 (amended): on a main chain with tip height `H` on which every height lookup
succeeds, `blockLocator` returns the hashes of the main-chain headers at the heights
`H - locatorOffset i`, clamped to 0: the walk back from the tip takes step 1 up to the
tenth entry and steps 2, 4, 8, ... after the tenth entry, every entry but the last is
above height 0 and the last one is genesis; for `H = 11` the heights are
`[11,10,9,8,7,6,5,4,3,2,0]`. -/
theorem blockLocator_walks_back (bk : blockKeeper κ) (H : Nat) (hdr : Nat → BlockHeader)
    (fuel : Nat) (hH : H < 2 ^ 64) (hbest : A.BestBlockHeader bk.chain = hdr H)
    (hlookup : ∀ h, h ≤ H → A.GetHeaderByHeight bk.chain h = Except.ok (hdr h))
    (hheight : ∀ h, h ≤ H → (hdr h).Height = h)
    (hfuel : locatorCount H ≤ fuel) :
    blockLocator A fuel bk = some ((locatorHeights H).map (fun h => (hdr h).Hash)) ∧
      locatorHeights H = (List.range (locatorCount H)).map (fun i => H - locatorOffset i) ∧
      locatorOffset 0 = 0 ∧
      (∀ i, locatorOffset (i + 1) = locatorOffset i + (if i < 9 then 1 else 2 ^ (i - 8))) ∧
      (∀ i, i + 1 < locatorCount H → 0 < H - locatorOffset i) ∧
      (locatorHeights H).getLast? = some 0 ∧
      locatorHeights 11 = [11, 10, 9, 8, 7, 6, 5, 4, 3, 2, 0] := by
  refine ⟨blockLocator_closed_form A bk H hdr fuel hH hbest hlookup hheight hfuel, rfl,
    by simp [locatorOffset], ?_, ?_, locatorHeights_getLast H, locatorHeights_eleven⟩
  · intro i
    have := locatorOffset_succ i
    unfold locatorStep at this
    exact this
  · intro i hi
    have := locatorOffset_lt H i hi
    omega

theorem blockLocator_walks_back_witness :
    (11 < 2 ^ 64) ∧ ladderChain.BestBlockHeader (ladderKeeper 11).chain = ladderHeader 11 ∧
      (∀ h, h ≤ 11 →
        ladderChain.GetHeaderByHeight (ladderKeeper 11).chain h = Except.ok (ladderHeader h)) ∧
      (∀ h, h ≤ 11 → (ladderHeader h).Height = h) ∧ locatorCount 11 ≤ 20 ∧
      blockLocator ladderChain 20 (ladderKeeper 11) =
        some ((locatorHeights 11).map (fun h => (ladderHeader h).Hash)) :=
  ⟨by norm_num, rfl, fun h hh => by simp [ladderChain, ladderKeeper, hh], fun _ _ => rfl,
    by simp [locatorCount, Nat.clog],
    (blockLocator_walks_back ladderChain (ladderKeeper 11) 11 ladderHeader 20 (by norm_num) rfl
      (fun h hh => by simp [ladderChain, ladderKeeper, hh]) (fun _ _ => rfl)
      (by simp [locatorCount, Nat.clog])).1⟩

/-- C14 as stated fails at its own example: on a chain of tip height 11 where every
lookup succeeds, the locator holds the hashes of the heights
`[11,10,9,8,7,6,5,4,3,2,0]`, not `[11,10,9,8,7,6,5,4,3,1,0]`: the step is still 1 after
the ninth entry. -/
theorem blockLocator_height_11_counterexample :
    (∀ h, h ≤ 11 →
        ladderChain.GetHeaderByHeight (ladderKeeper 11).chain h = Except.ok (ladderHeader h)) ∧
      ladderChain.BestBlockHeight (ladderKeeper 11).chain = 11 ∧
      blockLocator ladderChain 20 (ladderKeeper 11) =
        some ([11, 10, 9, 8, 7, 6, 5, 4, 3, 2, 0].map (fun h => (ladderHeader h).Hash)) ∧
      blockLocator ladderChain 20 (ladderKeeper 11) ≠
        some ([11, 10, 9, 8, 7, 6, 5, 4, 3, 1, 0].map (fun h => (ladderHeader h).Hash)) :=
  ⟨fun h hh => by simp [ladderChain, ladderKeeper, hh], rfl, by decide, by decide⟩

/-- C15 (amended): for every tip height `H > 9`, all main-chain height lookups
succeeding, `blockLocator` returns a list of length `9 + ceil(log2(H - 7))` whose first
element is the tip header hash and whose last element is the genesis header hash. -/
theorem blockLocator_length (bk : blockKeeper κ) (H : Nat) (hdr : Nat → BlockHeader)
    (fuel : Nat) (hH : H < 2 ^ 64) (hbest : A.BestBlockHeader bk.chain = hdr H)
    (hlookup : ∀ h, h ≤ H → A.GetHeaderByHeight bk.chain h = Except.ok (hdr h))
    (hheight : ∀ h, h ≤ H → (hdr h).Height = h)
    (hfuel : locatorCount H ≤ fuel) (h9 : 9 < H) :
    ∃ locator, blockLocator A fuel bk = some locator ∧
      locator.length = 9 + Nat.clog 2 (H - 7) ∧
      locator.head? = some (A.BestBlockHeader bk.chain).Hash ∧
      locator.getLast? = some (hdr 0).Hash := by
  refine ⟨_, blockLocator_closed_form A bk H hdr fuel hH hbest hlookup hheight hfuel, ?_, ?_, ?_⟩
  · simp only [List.length_map, locatorHeights, List.length_range, locatorCount]
    rw [if_neg (by omega)]
  · have hc : locatorCount H = (locatorCount H - 1) + 1 := by
      have := locatorCount_pos H
      omega
    unfold locatorHeights
    rw [hc, List.range_succ_eq_map]
    simp [locatorOffset, hbest]
  · rw [List.getLast?_map, locatorHeights_getLast]
    rfl

theorem blockLocator_length_witness :
    (12 < 2 ^ 64) ∧ ladderChain.BestBlockHeader (ladderKeeper 12).chain = ladderHeader 12 ∧
      (∀ h, h ≤ 12 →
        ladderChain.GetHeaderByHeight (ladderKeeper 12).chain h = Except.ok (ladderHeader h)) ∧
      (∀ h, h ≤ 12 → (ladderHeader h).Height = h) ∧ locatorCount 12 ≤ 20 ∧ 9 < 12 ∧
      ∃ locator, blockLocator ladderChain 20 (ladderKeeper 12) = some locator ∧
        locator.length = 9 + Nat.clog 2 (12 - 7) ∧
        locator.head? = some (ladderChain.BestBlockHeader (ladderKeeper 12).chain).Hash ∧
        locator.getLast? = some (ladderHeader 0).Hash :=
  ⟨by norm_num, rfl, fun h hh => by simp [ladderChain, ladderKeeper, hh], fun _ _ => rfl,
    by simp [locatorCount, Nat.clog], by decide,
    blockLocator_length ladderChain (ladderKeeper 12) 12 ladderHeader 20 (by norm_num) rfl
      (fun h hh => by simp [ladderChain, ladderKeeper, hh]) (fun _ _ => rfl)
      (by simp [locatorCount, Nat.clog]) (by decide)⟩

/-- C15 as stated fails at tip height 10: every lookup succeeds and the locator has the
11 entries of the heights 10, 9, ..., 1, 0, while `9 + ceil(log2(10 - 8))` is 10. -/
theorem blockLocator_length_counterexample :
    (∀ h, h ≤ 10 →
        ladderChain.GetHeaderByHeight (ladderKeeper 10).chain h = Except.ok (ladderHeader h)) ∧
      ladderChain.BestBlockHeight (ladderKeeper 10).chain = 10 ∧ 9 < 10 ∧
      (blockLocator ladderChain 20 (ladderKeeper 10)).map List.length = some 11 ∧
      9 + Nat.clog 2 (10 - 8) = 10 ∧
      (blockLocator ladderChain 20 (ladderKeeper 10)).map List.length ≠
        some (9 + Nat.clog 2 (10 - 8)) := by
  have hclog : 9 + Nat.clog 2 (10 - 8) = 10 := by simp [Nat.clog]
  refine ⟨fun h hh => by simp [ladderChain, ladderKeeper, hh], rfl, by decide, by decide,
    hclog, ?_⟩
  rw [hclog]
  decide

end locatorClaims

section requestOrder
variable {κ : Type} (A : ChainAPI κ) (V : Validators) (checkpoints : List Checkpoint)

theorem requireMerkleBlock_chain (bk : blockKeeper κ) (height : Nat) (hash : Option bc.Hash) :
    (requireMerkleBlock bk height hash).1.chain = bk.chain := by
  unfold requireMerkleBlock
  rcases bk.merkleReplies with _ | ⟨r, rest⟩
  · rfl
  · cases r <;> rfl

theorem appendHeaders_prefix :
    ∀ (headers headerList l : List BlockHeader) (err : Option Error),
      appendHeaders headerList headers = some (l, err) → headerList <+: l := by
  intro headers
  induction headers with
  | nil =>
    intro headerList l err h
    simp only [appendHeaders, Option.some.injEq, Prod.mk.injEq] at h
    rw [← h.1]
  | cons header rest ih =>
    intro headerList l err h
    rw [appendHeaders] at h
    rcases hlast : headerList.getLast? with _ | prevHeader
    · rw [hlast] at h; simp at h
    · rw [hlast] at h
      simp only at h
      by_cases hne : prevHeader.Hash ≠ header.PreviousBlockHash
      · rw [if_pos hne] at h
        simp only [Option.some.injEq, Prod.mk.injEq] at h
        rw [← h.1]
      · rw [if_neg hne] at h
        exact (List.prefix_append _ _).trans (ih _ _ _ h)

theorem headerStep_keeps (checkPoint : Checkpoint) (bk : blockKeeper κ) :
    (headerStep checkPoint bk).1.chain = bk.chain ∧
      bk.headerList <+: (headerStep checkPoint bk).1.headerList := by
  unfold headerStep
  rcases bk.headerList.getLast? with _ | lastHeader
  · exact ⟨rfl, List.prefix_refl _⟩
  · simp only
    split
    · exact ⟨rfl, List.prefix_refl _⟩
    · split
      · exact ⟨rfl, List.prefix_refl _⟩
      · have hreq : (requireHeaders bk [lastHeader.Hash] checkPoint.Hash).1.chain = bk.chain ∧
            (requireHeaders bk [lastHeader.Hash] checkPoint.Hash).1.headerList = bk.headerList := by
          unfold requireHeaders
          rcases bk.headersReplies with _ | ⟨r, rest⟩
          · exact ⟨rfl, rfl⟩
          · cases r <;> exact ⟨rfl, rfl⟩
        rcases hr : requireHeaders bk [lastHeader.Hash] checkPoint.Hash with ⟨bk1, e | headers⟩
        · rw [hr] at hreq
          simp only at hreq ⊢
          exact ⟨hreq.1, by rw [hreq.2]⟩
        · rw [hr] at hreq
          simp only at hreq ⊢
          split
          · exact ⟨hreq.1, by rw [hreq.2]⟩
          · have happ : ∀ bk2 err, appendHeaderList bk1 headers = some (bk2, err) →
                bk2.chain = bk.chain ∧ bk.headerList <+: bk2.headerList := by
              intro bk2 err ha
              unfold appendHeaderList at ha
              rcases hrun : appendHeaders bk1.headerList headers with _ | ⟨l, e⟩
              · rw [hrun] at ha; simp at ha
              · rw [hrun] at ha
                simp only [Option.some.injEq, Prod.mk.injEq] at ha
                have hp := appendHeaders_prefix _ _ _ _ hrun
                rw [← ha.1]
                simp only
                exact ⟨hreq.1, by rw [← hreq.2]; exact hp⟩
            rcases ha : appendHeaderList bk1 headers with _ | ⟨bk2, _ | e⟩
            · simp only
              exact ⟨hreq.1, by rw [hreq.2]⟩
            · exact happ _ _ ha
            · exact happ _ _ ha

theorem headerLoop_keeps (checkPoint : Checkpoint) :
    ∀ (fuel : Nat) (bk : blockKeeper κ),
      (headerLoop checkPoint fuel bk).1.chain = bk.chain ∧
        bk.headerList <+: (headerLoop checkPoint fuel bk).1.headerList := by
  intro fuel
  induction fuel with
  | zero => intro bk; exact ⟨rfl, List.prefix_refl _⟩
  | succ fuel ih =>
    intro bk
    rw [headerLoop]
    have hs := headerStep_keeps checkPoint bk
    rcases hstep : headerStep checkPoint bk with ⟨bk1, _ | _ | o⟩
    · rw [hstep] at hs
      simp only at hs ⊢
      exact ⟨(ih bk1).1.trans hs.1, hs.2.trans (ih bk1).2⟩
    · rw [hstep] at hs; exact hs
    · rw [hstep] at hs; exact hs

end requestOrder

section requestOrderClaim
variable {κ : Type} (A : ChainAPI κ) (V : Validators) (checkpoints : List Checkpoint)

/-- From a best height other than 0 that the chain does not lower back to 0, the
body-fetch loop requests the elements of the cursor list one after the other, from the
first one on. -/
theorem bodyLoop_requests_prefix (checkPoint : Checkpoint)
    (hstay : ∀ chain block txStatus, A.BestBlockHeight chain ≠ 0 →
      A.BestBlockHeight (A.ProcessBlock chain block txStatus).1 ≠ 0) :
    ∀ (fuel : Nat) (bk : blockKeeper κ) (fastHeader : List BlockHeader),
      A.BestBlockHeight bk.chain ≠ 0 →
      ∃ newReq,
        (bodyLoop A V checkPoint fuel bk fastHeader).1.requested = bk.requested ++ newReq ∧
        newReq <+: fastHeader.map (fun h => (h.Height, h.Hash)) := by
  intro fuel
  induction fuel with
  | zero => intro bk fastHeader _; exact ⟨[], by simp [bodyLoop], by simp⟩
  | succ fuel ih =>
    intro bk fastHeader hbest
    rw [bodyLoop]
    by_cases hcond : A.BestBlockHeight bk.chain ≤ checkPoint.Height
    · rw [if_pos hcond, if_neg hbest]
      cases fastHeader with
      | nil => exact ⟨[], by simp, by simp⟩
      | cons header next =>
        simp only
        have hreq := requireMerkleBlock_logs bk header.Height (some header.Hash)
        have hch := requireMerkleBlock_chain bk header.Height (some header.Hash)
        simp only [Option.getD_some] at hreq
        have hone : [(header.Height, header.Hash)] <+:
            (header :: next).map (fun h => (h.Height, h.Hash)) := by
          simp only [List.map_cons]
          exact (List.prefix_cons_inj _).mpr List.nil_prefix
        rcases hr : requireMerkleBlock bk header.Height (some header.Hash) with
          ⟨bk1, e | merkleBlock⟩
        · rw [hr] at hreq
          simp only at hreq
          exact ⟨[(header.Height, header.Hash)], hreq.1, hone⟩
        · rw [hr] at hreq hch
          simp only at hreq hch
          simp only
          rcases hv : VerifyBlockHeader header merkleBlock with _ | e
          · simp only
            rcases hm : VerifyMerkleBlock V merkleBlock with e | txStatus
            · exact ⟨[(header.Height, header.Hash)], hreq.1, hone⟩
            · simp only
              by_cases hh : merkleBlock.Hash ≠ header.Hash
              · rw [if_pos hh]
                exact ⟨[(header.Height, header.Hash)], hreq.1, hone⟩
              · rw [if_neg hh]
                rcases hs : A.CalcNextSeed bk1.chain merkleBlock.PreviousBlockHash with e | seed
                · exact ⟨[(header.Height, header.Hash)], hreq.1, hone⟩
                · simp only
                  have hp := ProcessMerkleBlock_logs A bk1 merkleBlock txStatus
                  have hbest2 : A.BestBlockHeight
                      (ProcessMerkleBlock A bk1 merkleBlock txStatus).1.chain ≠ 0 := by
                    unfold ProcessMerkleBlock
                    simp only
                    exact hstay _ _ _ (by rw [hch]; exact hbest)
                  rcases hpr : ProcessMerkleBlock A bk1 merkleBlock txStatus with
                    ⟨bk2, isOrphan, _ | e⟩
                  · rw [hpr] at hp hbest2
                    simp only at hp hbest2
                    simp only
                    cases next with
                    | nil =>
                      exact ⟨[(header.Height, header.Hash)], by rw [hp.1, hreq.1], hone⟩
                    | cons h2 next2 =>
                      simp only
                      obtain ⟨nr, h1, h4⟩ := ih bk2 (h2 :: next2) hbest2
                      refine ⟨(header.Height, header.Hash) :: nr, ?_, ?_⟩
                      · rw [h1, hp.1, hreq.1]; simp
                      · rw [List.map_cons]
                        exact (List.prefix_cons_inj _).mpr h4
                  · rw [hpr] at hp
                    simp only at hp
                    simp only
                    exact ⟨[(header.Height, header.Hash)], by rw [hp.1, hreq.1], hone⟩
          · exact ⟨[(header.Height, header.Hash)], hreq.1, hone⟩
    · rw [if_neg hcond]
      exact ⟨[], by simp, by simp⟩

/-- The first request of the body-fetch loop is for the first element of the cursor list,
or for the second one when the best height is 0. -/
theorem bodyLoop_first_request (checkPoint : Checkpoint) (fuel : Nat) (bk : blockKeeper κ)
    (fastHeader : List BlockHeader) :
    ∃ newReq,
      (bodyLoop A V checkPoint fuel bk fastHeader).1.requested = bk.requested ++ newReq ∧
      newReq.take 1 <+:
        (if A.BestBlockHeight bk.chain = 0 then fastHeader.tail else fastHeader).map
          (fun h => (h.Height, h.Hash)) := by
  cases fuel with
  | zero => exact ⟨[], by simp [bodyLoop], by simp⟩
  | succ fuel =>
    rw [bodyLoop]
    by_cases hcond : A.BestBlockHeight bk.chain ≤ checkPoint.Height
    · rw [if_pos hcond]
      rcases hc : (if A.BestBlockHeight bk.chain = 0 then fastHeader.tail else fastHeader) with
        _ | ⟨header, next⟩
      · exact ⟨[], by simp, by simp⟩
      · simp only
        have hreq := requireMerkleBlock_logs bk header.Height (some header.Hash)
        simp only [Option.getD_some] at hreq
        have hfirst : ∀ (bk' : blockKeeper κ) (nr : List (Nat × bc.Hash)),
            bk'.requested = bk.requested ++ (header.Height, header.Hash) :: nr →
            ∃ newReq, bk'.requested = bk.requested ++ newReq ∧
              newReq.take 1 <+: (header :: next).map (fun h => (h.Height, h.Hash)) := by
          intro bk' nr h
          refine ⟨_, h, ?_⟩
          simp only [List.take_succ_cons, List.take_zero, List.map_cons]
          exact (List.prefix_cons_inj _).mpr List.nil_prefix
        rcases hr : requireMerkleBlock bk header.Height (some header.Hash) with
          ⟨bk1, e | merkleBlock⟩
        · rw [hr] at hreq
          exact hfirst _ [] hreq.1
        · rw [hr] at hreq
          simp only at hreq
          simp only
          rcases hv : VerifyBlockHeader header merkleBlock with _ | e
          · simp only
            rcases hm : VerifyMerkleBlock V merkleBlock with e | txStatus
            · exact hfirst _ [] hreq.1
            · simp only
              by_cases hh : merkleBlock.Hash ≠ header.Hash
              · rw [if_pos hh]
                exact hfirst _ [] hreq.1
              · rw [if_neg hh]
                rcases hs : A.CalcNextSeed bk1.chain merkleBlock.PreviousBlockHash with e | seed
                · exact hfirst _ [] hreq.1
                · simp only
                  have hp := ProcessMerkleBlock_logs A bk1 merkleBlock txStatus
                  rcases hpr : ProcessMerkleBlock A bk1 merkleBlock txStatus with
                    ⟨bk2, isOrphan, _ | e⟩
                  · rw [hpr] at hp
                    simp only at hp
                    simp only
                    cases next with
                    | nil => exact hfirst _ [] (by rw [hp.1, hreq.1])
                    | cons h2 next2 =>
                      simp only
                      obtain ⟨nr, _, h1, _⟩ := bodyLoop_logs A V checkPoint fuel bk2 (h2 :: next2)
                      exact hfirst _ nr (by rw [h1, hp.1, hreq.1]; simp)
                  · rw [hpr] at hp
                    simp only at hp
                    simp only
                    exact hfirst _ [] (by rw [hp.1, hreq.1])
          · exact hfirst _ [] hreq.1
    · rw [if_neg hcond]
      exact ⟨[], by simp, by simp⟩

theorem headerLoop_from_reset (checkPoint : Checkpoint) (fuel : Nat) (bk : blockKeeper κ) :
    (headerLoop checkPoint fuel (resetHeaderState A checkpoints bk)).1.chain = bk.chain ∧
      (headerLoop checkPoint fuel (resetHeaderState A checkpoints bk)).1.requested =
        bk.requested ∧
      ((nextCheckpoint A checkpoints bk).isSome →
        (headerLoop checkPoint fuel (resetHeaderState A checkpoints bk)).1.headerList.head? =
          some (A.BestBlockHeader bk.chain)) := by
  have hk := headerLoop_keeps checkPoint fuel (resetHeaderState A checkpoints bk)
  have hl := headerLoop_logs checkPoint fuel (resetHeaderState A checkpoints bk)
  have hr := resetHeaderState_logs A checkpoints bk
  have hc : (resetHeaderState A checkpoints bk).chain = bk.chain := by
    unfold resetHeaderState
    simp only
    split <;> rfl
  refine ⟨hk.1.trans hc, hl.2.trans hr.2, ?_⟩
  intro hsome
  have hlist : (resetHeaderState A checkpoints bk).headerList = [A.BestBlockHeader bk.chain] := by
    unfold resetHeaderState
    simp only
    rw [if_pos hsome]
  obtain ⟨t, ht⟩ := hk.2
  rw [← ht, hlist]
  rfl

/-- C19 (amended): in a run of `fastBlockSync` the header list starts with the local best
header and the body-fetch loop requests merkle blocks, by height and hash, for
header-list elements in list order. When the local best height is not 0 (and the chain
never lowers its best height back to 0) it requests them without skipping any, starting
with the local best header itself, the front of the list; when the local best height is
0 the first header it requests is the one immediately after the local best header. -/
theorem fastBlockSync_requests_in_list_order (fuel : Nat) (checkPoint : Checkpoint)
    (bk : blockKeeper κ)
    (hstay : ∀ chain block txStatus, A.BestBlockHeight chain ≠ 0 →
      A.BestBlockHeight (A.ProcessBlock chain block txStatus).1 ≠ 0) :
    ∃ newReq,
      (fastBlockSync A V checkpoints fuel checkPoint bk).1.requested = bk.requested ++ newReq ∧
      ((nextCheckpoint A checkpoints bk).isSome →
        (fastBlockSync A V checkpoints fuel checkPoint bk).1.headerList.head? =
          some (A.BestBlockHeader bk.chain)) ∧
      newReq.Sublist ((fastBlockSync A V checkpoints fuel checkPoint bk).1.headerList.map
        (fun h => (h.Height, h.Hash))) ∧
      (A.BestBlockHeight bk.chain ≠ 0 →
        newReq <+: (fastBlockSync A V checkpoints fuel checkPoint bk).1.headerList.map
          (fun h => (h.Height, h.Hash))) ∧
      (A.BestBlockHeight bk.chain = 0 →
        newReq.take 1 <+: (fastBlockSync A V checkpoints fuel checkPoint bk).1.headerList.tail.map
          (fun h => (h.Height, h.Hash))) := by
  have hfrom := headerLoop_from_reset A checkpoints checkPoint fuel bk
  have hbody : ∀ bk1 : blockKeeper κ, bk1.chain = bk.chain → bk1.requested = bk.requested →
      ((nextCheckpoint A checkpoints bk).isSome →
        bk1.headerList.head? = some (A.BestBlockHeader bk.chain)) →
      ∃ newReq,
        (bodyLoop A V checkPoint fuel bk1 bk1.headerList).1.requested = bk.requested ++ newReq ∧
        ((nextCheckpoint A checkpoints bk).isSome →
          (bodyLoop A V checkPoint fuel bk1 bk1.headerList).1.headerList.head? =
            some (A.BestBlockHeader bk.chain)) ∧
        newReq.Sublist ((bodyLoop A V checkPoint fuel bk1 bk1.headerList).1.headerList.map
          (fun h => (h.Height, h.Hash))) ∧
        (A.BestBlockHeight bk.chain ≠ 0 →
          newReq <+: (bodyLoop A V checkPoint fuel bk1 bk1.headerList).1.headerList.map
            (fun h => (h.Height, h.Hash))) ∧
        (A.BestBlockHeight bk.chain = 0 →
          newReq.take 1 <+: (bodyLoop A V checkPoint fuel bk1 bk1.headerList).1.headerList.tail.map
            (fun h => (h.Height, h.Hash))) := by
    intro bk1 hc hq hhead
    obtain ⟨nr, ns, h1, _, h3, h4, _, _⟩ := bodyLoop_logs A V checkPoint fuel bk1 bk1.headerList
    refine ⟨nr, by rw [h1, hq], by rw [h3]; exact hhead, by rw [h3]; exact h4, ?_, ?_⟩
    · intro hbest
      obtain ⟨nr2, h5, h6⟩ := bodyLoop_requests_prefix A V checkPoint hstay fuel bk1 bk1.headerList
        (by rw [hc]; exact hbest)
      have : nr2 = nr := List.append_cancel_left (h5.symm.trans h1)
      rw [h3, ← this]
      exact h6
    · intro hbest
      obtain ⟨nr2, h5, h6⟩ := bodyLoop_first_request A V checkPoint fuel bk1 bk1.headerList
      have : nr2 = nr := List.append_cancel_left (h5.symm.trans h1)
      rw [hc, if_pos hbest, this] at h6
      rw [h3]
      exact h6
  unfold fastBlockSync
  rcases hloop : headerLoop checkPoint fuel (resetHeaderState A checkpoints bk) with
    ⟨bk1, _ | _ | o⟩
  all_goals rw [hloop] at hfrom
  all_goals simp only at hfrom ⊢
  · exact hbody bk1 hfrom.1 hfrom.2.1 hfrom.2.2
  · exact hbody bk1 hfrom.1 hfrom.2.1 hfrom.2.2
  · exact ⟨[], by rw [hfrom.2.1]; simp, hfrom.2.2, by simp, fun _ => by simp, fun _ => by simp⟩

theorem fastBlockSync_requests_in_list_order_witness :
    (∀ chain block txStatus, ladderChain.BestBlockHeight chain ≠ 0 →
        ladderChain.BestBlockHeight (ladderChain.ProcessBlock chain block txStatus).1 ≠ 0) ∧
      (fastBlockSync ladderChain leafValidators [checkpoint1003] 5 checkpoint1003 ladderSync).1.headerList =
        [ladderHeader 1, ladderHeader 2, ladderHeader 3] ∧
      (fastBlockSync ladderChain leafValidators [checkpoint1003] 5 checkpoint1003 ladderSync).1.requested =
        [(1, 1001), (2, 1002), (3, 1003)] ∧
      ∃ newReq,
        (fastBlockSync ladderChain leafValidators [checkpoint1003] 5 checkpoint1003
          ladderSync).1.requested = ladderSync.requested ++ newReq ∧
        ((nextCheckpoint ladderChain [checkpoint1003] ladderSync).isSome →
          (fastBlockSync ladderChain leafValidators [checkpoint1003] 5 checkpoint1003
            ladderSync).1.headerList.head? = some (ladderChain.BestBlockHeader ladderSync.chain)) ∧
        newReq.Sublist ((fastBlockSync ladderChain leafValidators [checkpoint1003] 5 checkpoint1003
          ladderSync).1.headerList.map (fun h => (h.Height, h.Hash))) ∧
        (ladderChain.BestBlockHeight ladderSync.chain ≠ 0 →
          newReq <+: (fastBlockSync ladderChain leafValidators [checkpoint1003] 5 checkpoint1003
            ladderSync).1.headerList.map (fun h => (h.Height, h.Hash))) ∧
        (ladderChain.BestBlockHeight ladderSync.chain = 0 →
          newReq.take 1 <+: (fastBlockSync ladderChain leafValidators [checkpoint1003] 5
            checkpoint1003 ladderSync).1.headerList.tail.map (fun h => (h.Height, h.Hash))) :=
  ⟨fun chain block txStatus h => by
      simp only [ladderChain] at h ⊢
      split
      · simp
      · split <;> exact h,
    by decide, by decide,
    fastBlockSync_requests_in_list_order ladderChain leafValidators [checkpoint1003] 5
      checkpoint1003 ladderSync (fun chain block txStatus h => by
        simp only [ladderChain] at h ⊢
        split
        · simp
        · split <;> exact h)⟩

/-- C19 as stated fails when the local best height is not 0: at best height 1, with the
checkpoint at height 3, the header list is made of the headers 1, 2 and 3, the run
succeeds, and the first merkle block requested is the one of the local best header
(height 1), not the one of the header immediately after it (height 2). -/
theorem fastBlockSync_first_request_counterexample :
    ladderChain.BestBlockHeader ladderSync.chain = ladderHeader 1 ∧
      fastBlockSync ladderChain leafValidators [checkpoint1003] 5 checkpoint1003 ladderSync =
        ({ ladderSync with
            chain := 3,
            headerList := [ladderHeader 1, ladderHeader 2, ladderHeader 3],
            headersReplies := [], merkleReplies := [],
            requested := [(1, 1001), (2, 1002), (3, 1003)],
            submitted := [(merkleBlockToBlock (bareMerkle 1001 1 1000), none),
              (merkleBlockToBlock (bareMerkle 1002 2 1001), none),
              (merkleBlockToBlock (bareMerkle 1003 3 1002), none)] },
          Outcome.returned none) ∧
      (fastBlockSync ladderChain leafValidators [checkpoint1003] 5 checkpoint1003
        ladderSync).1.requested.head? = some ((ladderHeader 1).Height, (ladderHeader 1).Hash) ∧
      (fastBlockSync ladderChain leafValidators [checkpoint1003] 5 checkpoint1003
        ladderSync).1.requested.head? ≠ some ((ladderHeader 2).Height, (ladderHeader 2).Hash) := by
  refine ⟨rfl, by decide, by decide, by decide⟩

end requestOrderClaim

section bodySteps
variable {κ : Type} (A : ChainAPI κ) (V : Validators) (checkpoints : List Checkpoint)

theorem bodyLoop_succ (checkPoint : Checkpoint) (fuel : Nat) (bk : blockKeeper κ)
    (fastHeader : List BlockHeader) :
    bodyLoop A V checkPoint (fuel + 1) bk fastHeader =
      match bodyStep A V checkPoint bk fastHeader with
      | (bk1, next, Step.again) => bodyLoop A V checkPoint fuel bk1 next
      | (bk1, _, Step.leave) => (bk1, Outcome.returned none)
      | (bk1, _, Step.stop o) => (bk1, o) := by
  rw [bodyLoop]
  unfold bodyStep
  by_cases hcond : A.BestBlockHeight bk.chain ≤ checkPoint.Height
  · rw [if_pos hcond, if_pos hcond]
    rcases (if A.BestBlockHeight bk.chain = 0 then fastHeader.tail else fastHeader) with
      _ | ⟨header, next⟩
    · rfl
    · simp only
      rcases requireMerkleBlock bk header.Height (some header.Hash) with ⟨bk1, e | merkleBlock⟩
      · rfl
      · simp only
        rcases VerifyBlockHeader header merkleBlock with _ | e
        · simp only
          rcases VerifyMerkleBlock V merkleBlock with e | txStatus
          · rfl
          · simp only
            by_cases hh : merkleBlock.Hash ≠ header.Hash
            · rw [if_pos hh, if_pos hh]
            · rw [if_neg hh, if_neg hh]
              rcases A.CalcNextSeed bk1.chain merkleBlock.PreviousBlockHash with e | seed
              · rfl
              · simp only
                rcases ProcessMerkleBlock A bk1 merkleBlock txStatus with ⟨bk2, isOrphan, _ | e⟩
                · simp only
                  cases next <;> rfl
                · rfl
        · rfl
  · rw [if_neg hcond, if_neg hcond]

theorem bodyLoop_of_passes (checkPoint : Checkpoint) :
    ∀ (k : Nat) (bk bk' : blockKeeper κ) (fastHeader cursor : List BlockHeader),
      bodyPasses A V checkPoint k bk fastHeader = some (bk', cursor) →
      ∀ m, bodyLoop A V checkPoint (k + m) bk fastHeader = bodyLoop A V checkPoint m bk' cursor := by
  intro k
  induction k with
  | zero =>
    intro bk bk' fastHeader cursor h m
    simp only [bodyPasses, Option.some.injEq, Prod.mk.injEq] at h
    rw [h.1, h.2, Nat.zero_add]
  | succ k ih =>
    intro bk bk' fastHeader cursor h m
    rw [bodyPasses] at h
    rw [show k + 1 + m = (k + m) + 1 by omega, bodyLoop_succ]
    rcases hstep : bodyStep A V checkPoint bk fastHeader with ⟨bk1, next, _ | _ | o⟩
    · rw [hstep] at h
      simp only at h ⊢
      exact ih _ _ _ _ h m
    · rw [hstep] at h; simp at h
    · rw [hstep] at h; simp at h

theorem VerifyMerkleBlock_error_fresh (merkleBlock : MerkleBlock) (e : Error)
    (h : VerifyMerkleBlock V merkleBlock = Except.error e) :
    ∃ msg, e = Error.new msg := by
  unfold VerifyMerkleBlock at h
  split at h
  · simp at h
  · simp only at h
    split at h
    · simp only [Except.error.injEq] at h
      exact ⟨_, h.symm⟩
    · split at h
      · simp only [Except.error.injEq] at h
        exact ⟨_, h.symm⟩
      · split at h
        · simp only [Except.error.injEq] at h
          exact ⟨_, h.symm⟩
        · simp at h

end bodySteps

section protocolErrors
variable {κ : Type} (A : ChainAPI κ) (V : Validators) (checkpoints : List Checkpoint)

/-- C16 (amended): take a run of `fastBlockSync` whose header loop went round `k` times and
now tests a list ending in `last`. If `last` is not the checkpoint and is at or above
its height (not on the checkpoint branch), or if the peer answers the next header
request with an empty list, the run returns an error whose root is `errPeerMisbehave`.
If the headers of the next reply are misordered (`appendHeaderList` fails), the run
returns `errAppendHeaders`. If `last` is the checkpoint and, after `j` passes of the
body loop, the merkle block received for the requested header has a proof that
`VerifyMerkleBlock` rejects, the run returns the error of `VerifyMerkleBlock`, a fresh
error. The root of neither of the last two is `errPeerMisbehave`. -/
theorem fastBlockSync_protocol_errors (checkPoint : Checkpoint) (bk bk1 : blockKeeper κ)
    (k fuel : Nat) (last : BlockHeader)
    (hreach : headerPasses checkPoint k (resetHeaderState A checkpoints bk) = some bk1)
    (hlast : bk1.headerList.getLast? = some last)
    (hfuel : k < fuel) :
    (last.Hash ≠ checkPoint.Hash → last.Height ≥ checkPoint.Height →
        ∃ err, fastBlockSync A V checkpoints fuel checkPoint bk =
            (bk1, Outcome.returned (some err)) ∧ err.Root = Error.errPeerMisbehave) ∧
      (last.Hash ≠ checkPoint.Hash → ¬ last.Height ≥ checkPoint.Height →
        ∀ rest, bk1.headersReplies = Reply.ok [] :: rest →
        ∃ err, fastBlockSync A V checkpoints fuel checkPoint bk =
            ({ bk1 with headersReplies := rest }, Outcome.returned (some err)) ∧
          err.Root = Error.errPeerMisbehave) ∧
      (last.Hash ≠ checkPoint.Hash → ¬ last.Height ≥ checkPoint.Height →
        ∀ headers rest l e, bk1.headersReplies = Reply.ok headers :: rest → headers ≠ [] →
        appendHeaders bk1.headerList headers = some (l, some e) →
        fastBlockSync A V checkpoints fuel checkPoint bk =
            ({ bk1 with headersReplies := rest, headerList := l },
              Outcome.returned (some Error.errAppendHeaders)) ∧
          Error.errAppendHeaders.Root ≠ Error.errPeerMisbehave) ∧
      (last.Hash = checkPoint.Hash →
        ∀ j bk2 cursor header next merkleBlock rest e, j < fuel →
        bodyPasses A V checkPoint j bk1 bk1.headerList = some (bk2, cursor) →
        A.BestBlockHeight bk2.chain ≤ checkPoint.Height →
        (if A.BestBlockHeight bk2.chain = 0 then cursor.tail else cursor) = header :: next →
        bk2.merkleReplies = Reply.ok merkleBlock :: rest →
        merkleBlock.Hash = header.Hash →
        VerifyMerkleBlock V merkleBlock = Except.error e →
        fastBlockSync A V checkpoints fuel checkPoint bk =
            ({ bk2 with requested := bk2.requested ++ [(header.Height, header.Hash)],
                        merkleReplies := rest },
              Outcome.returned (some e)) ∧
          (∃ msg, e = Error.new msg) ∧ e.Root ≠ Error.errPeerMisbehave) := by
  obtain ⟨m, rfl⟩ : ∃ m, fuel = k + (m + 1) := ⟨fuel - k - 1, by omega⟩
  have hrun : fastBlockSync A V checkpoints (k + (m + 1)) checkPoint bk =
      match headerStep checkPoint bk1 with
      | (bk2, Step.again) =>
        (match headerLoop checkPoint m bk2 with
          | (bk3, Step.stop o) => (bk3, o)
          | (bk3, _) => bodyLoop A V checkPoint (k + (m + 1)) bk3 bk3.headerList)
      | (bk2, Step.stop o) => (bk2, o)
      | (bk2, Step.leave) => bodyLoop A V checkPoint (k + (m + 1)) bk2 bk2.headerList := by
    unfold fastBlockSync
    rw [headerLoop_of_passes checkPoint k _ bk1 hreach (m + 1), headerLoop]
    rcases headerStep checkPoint bk1 with ⟨bk2, _ | _ | o⟩ <;> rfl
  refine ⟨?_, ?_, ?_, ?_⟩
  · intro hhash hheight
    have hstep : headerStep checkPoint bk1 =
        (bk1, Step.stop (Outcome.returned
          (some (Error.wrap Error.errPeerMisbehave "peer is not in the checkpoint branch")))) := by
      unfold headerStep
      rw [hlast]
      simp only
      rw [if_neg hhash, if_pos hheight]
    exact ⟨Error.wrap Error.errPeerMisbehave "peer is not in the checkpoint branch",
      by rw [hrun, hstep], rfl⟩
  · intro hhash hheight rest hreply
    have hstep : headerStep checkPoint bk1 =
        ({ bk1 with headersReplies := rest }, Step.stop (Outcome.returned
          (some (Error.wrap Error.errPeerMisbehave "requireHeaders return empty list")))) := by
      unfold headerStep
      rw [hlast]
      simp only
      rw [if_neg hhash, if_neg hheight]
      unfold requireHeaders
      rw [hreply]
      simp
    exact ⟨Error.wrap Error.errPeerMisbehave "requireHeaders return empty list",
      by rw [hrun, hstep], rfl⟩
  · intro hhash hheight headers rest l e hreply hne happ
    have he := (appendHeaders_error headers bk1.headerList l e happ).1
    subst he
    have hstep : headerStep checkPoint bk1 =
        ({ bk1 with headersReplies := rest, headerList := l },
          Step.stop (Outcome.returned (some Error.errAppendHeaders))) := by
      unfold headerStep
      rw [hlast]
      simp only
      rw [if_neg hhash, if_neg hheight]
      unfold requireHeaders
      rw [hreply]
      simp only
      rw [if_neg (by simpa using hne)]
      unfold appendHeaderList
      simp only [happ]
    exact ⟨by rw [hrun, hstep], by decide⟩
  · intro hhash j bk2 cursor header next merkleBlock rest e hj hpass hbest hcur hreply hmatch hproof
    have hstep : headerStep checkPoint bk1 = (bk1, Step.leave) := by
      unfold headerStep
      rw [hlast]
      simp only
      rw [if_pos hhash]
    obtain ⟨n, hn⟩ : ∃ n, k + (m + 1) = j + (n + 1) := ⟨k + (m + 1) - j - 1, by omega⟩
    obtain ⟨msg, hmsg⟩ := VerifyMerkleBlock_error_fresh V merkleBlock e hproof
    refine ⟨?_, ⟨msg, hmsg⟩, by rw [hmsg]; simp [Error.Root]⟩
    rw [hrun, hstep]
    simp only
    rw [hn, bodyLoop_of_passes A V checkPoint j bk1 bk2 _ cursor hpass (n + 1), bodyLoop,
      if_pos hbest, hcur]
    simp only
    have hreq : requireMerkleBlock bk2 header.Height (some header.Hash) =
        ({ bk2 with requested := bk2.requested ++ [(header.Height, header.Hash)],
                    merkleReplies := rest }, Except.ok merkleBlock) := by
      unfold requireMerkleBlock
      rw [hreply]
      simp
    have hvh : VerifyBlockHeader header merkleBlock = none := by
      unfold VerifyBlockHeader
      rw [if_neg (by simpa using hmatch.symm)]
    rw [hreq]
    simp only [hvh, hproof]

theorem fastBlockSync_protocol_errors_witness :
    headerPasses checkpoint102 1 (resetHeaderState tipChain [checkpoint102] badProofKeeper) =
        some { badProofKeeper with
          headerList := [mkHeader 100 0 0, mkHeader 101 1 100, mkHeader 102 2 101],
          headersReplies := [] } ∧
      [mkHeader 100 0 0, mkHeader 101 1 100, mkHeader 102 2 101].getLast? =
        some (mkHeader 102 2 101) ∧
      1 < 3 ∧ (mkHeader 102 2 101).Hash = checkpoint102.Hash ∧
      VerifyMerkleBlock leafValidators badProofMerkle =
        Except.error (Error.new "tx merkle proof check error") ∧
      (fastBlockSync tipChain leafValidators [checkpoint102] 3 checkpoint102 badProofKeeper =
          ({ badProofKeeper with
              headerList := [mkHeader 100 0 0, mkHeader 101 1 100, mkHeader 102 2 101],
              headersReplies := [], requested := [] ++ [(1, 101)], merkleReplies := [] },
            Outcome.returned (some (Error.new "tx merkle proof check error"))) ∧
        (∃ msg, Error.new "tx merkle proof check error" = Error.new msg) ∧
        (Error.new "tx merkle proof check error").Root ≠ Error.errPeerMisbehave) ∧
      headerPasses checkpoint102 0 (resetHeaderState tipChain [checkpoint102] misorderedKeeper) =
        some { misorderedKeeper with headerList := [mkHeader 100 0 0] } ∧
      (fastBlockSync tipChain leafValidators [checkpoint102] 3 checkpoint102 misorderedKeeper =
          ({ misorderedKeeper with headerList := [mkHeader 100 0 0], headersReplies := [] },
            Outcome.returned (some Error.errAppendHeaders)) ∧
        Error.errAppendHeaders.Root ≠ Error.errPeerMisbehave) ∧
      headerPasses checkpoint102 0 (resetHeaderState tipChain [checkpoint102] emptyReplyKeeper) =
        some { emptyReplyKeeper with headerList := [mkHeader 100 0 0] } ∧
      (∃ err, fastBlockSync tipChain leafValidators [checkpoint102] 3 checkpoint102
            emptyReplyKeeper =
          ({ emptyReplyKeeper with headerList := [mkHeader 100 0 0], headersReplies := [] },
            Outcome.returned (some err)) ∧
        err.Root = Error.errPeerMisbehave) :=
  ⟨by decide, by decide, by decide, by decide, rfl,
    (fastBlockSync_protocol_errors tipChain leafValidators [checkpoint102] checkpoint102
      badProofKeeper
      { badProofKeeper with
        headerList := [mkHeader 100 0 0, mkHeader 101 1 100, mkHeader 102 2 101],
        headersReplies := [] }
      1 3 (mkHeader 102 2 101) (by decide) (by decide) (by decide)).2.2.2 (by decide) 0
      { badProofKeeper with
        headerList := [mkHeader 100 0 0, mkHeader 101 1 100, mkHeader 102 2 101],
        headersReplies := [] }
      [mkHeader 100 0 0, mkHeader 101 1 100, mkHeader 102 2 101] (mkHeader 101 1 100)
      [mkHeader 102 2 101] badProofMerkle [] (Error.new "tx merkle proof check error")
      (by decide) (by decide) (by decide) (by decide) (by decide) (by decide) rfl,
    by decide,
    (fastBlockSync_protocol_errors tipChain leafValidators [checkpoint102] checkpoint102
      misorderedKeeper { misorderedKeeper with headerList := [mkHeader 100 0 0] }
      0 3 (mkHeader 100 0 0) (by decide) (by decide) (by decide)).2.2.1 (by decide) (by decide)
      [mkHeader 101 1 999] [] [mkHeader 100 0 0] Error.errAppendHeaders (by decide) (by decide)
      (by decide),
    by decide,
    (fastBlockSync_protocol_errors tipChain leafValidators [checkpoint102] checkpoint102
      emptyReplyKeeper { emptyReplyKeeper with headerList := [mkHeader 100 0 0] }
      0 3 (mkHeader 100 0 0) (by decide) (by decide) (by decide)).2.1 (by decide) (by decide)
      [] (by decide)⟩

/-- C16 as stated fails for two of its causes. A peer that answers the header request
with a header that does not follow the list makes `fastBlockSync` return
`errAppendHeaders`; a peer whose merkle block has the requested hash and a proof that
does not verify makes it return the fresh error of `VerifyMerkleBlock`. Neither error is
`errPeerMisbehave` nor wraps it. -/
theorem fastBlockSync_misbehave_counterexample :
    (mkHeader 101 1 999).PreviousBlockHash ≠ (mkHeader 100 0 0).Hash ∧
      fastBlockSync tipChain leafValidators [checkpoint102] 3 checkpoint102 misorderedKeeper =
        ({ misorderedKeeper with headerList := [mkHeader 100 0 0], headersReplies := [] },
          Outcome.returned (some Error.errAppendHeaders)) ∧
      Error.errAppendHeaders.Root ≠ Error.errPeerMisbehave ∧
      VerifyMerkleBlock leafValidators badProofMerkle =
        Except.error (Error.new "tx merkle proof check error") ∧
      fastBlockSync tipChain leafValidators [checkpoint102] 3 checkpoint102 badProofKeeper =
        ({ badProofKeeper with
            headerList := [mkHeader 100 0 0, mkHeader 101 1 100, mkHeader 102 2 101],
            headersReplies := [], requested := [(1, 101)], merkleReplies := [] },
          Outcome.returned (some (Error.new "tx merkle proof check error"))) ∧
      (Error.new "tx merkle proof check error").Root ≠ Error.errPeerMisbehave :=
  ⟨by decide, by decide, by decide, rfl, by decide, by decide⟩

end protocolErrors

section savedStatus
variable {σ : Type} (S : Store σ) (CalcWork : Nat → Nat)
variable (log : σ → List (Block × Option TransactionStatus))

theorem SavedWith.refl (s : Option TransactionStatus) (c : Chain σ) :
    SavedWith log s c c [] [] :=
  ⟨by simp, by simp, List.Sublist.refl _, by simp, by simp⟩

theorem SavedWith.trans {s : Option TransactionStatus} {c c1 c2 : Chain σ}
    {calls1 calls2 : List (Block × Option TransactionStatus)} {added1 added2 : List BlockNode}
    (h1 : SavedWith log s c c1 calls1 added1) (h2 : SavedWith log s c1 c2 calls2 added2) :
    SavedWith log s c c2 (calls1 ++ calls2) (added2 ++ added1) := by
  obtain ⟨a1, a2, a3, a4, a5⟩ := h1
  obtain ⟨b1, b2, b3, b4, b5⟩ := h2
  refine ⟨by rw [b1, a1, List.append_assoc], ?_, b3.trans a3, by rw [b4, a4, List.append_assoc], ?_⟩
  · intro call hc
    rcases List.mem_append.mp hc with hc | hc
    · exact a2 call hc
    · exact ⟨(b2 call hc).1, a3.subset (b2 call hc).2⟩
  · intro n hn
    rcases List.mem_append.mp hn with hn | hn
    · obtain ⟨blk, hb, hh⟩ := b5 n hn
      exact ⟨blk, List.mem_append_right _ hb, hh⟩
    · obtain ⟨blk, hb, hh⟩ := a5 n hn
      exact ⟨blk, List.mem_append_left _ hb, hh⟩

theorem saveBlock_calls
    (hsave : ∀ st blk s, log (S.SaveBlock st blk s).1 = log st ++ [(blk, s)])
    {c c1 : Chain σ} {blk : Block} {s : Option TransactionStatus} {err : Option Error}
    (h : saveBlock S CalcWork c blk s = (c1, err)) :
    log c1.store = log c.store ++ [(blk, s)] ∧
      c1.orphanManage.orphan.Sublist c.orphanManage.orphan ∧
      ∃ added, c1.index.index = added ++ c.index.index ∧ ∀ n ∈ added, n.Hash = blk.Hash := by
  have hl := hsave c.store blk s
  unfold saveBlock at h
  rcases hs : S.SaveBlock c.store blk s with ⟨st, _ | e⟩
  · rw [hs] at h hl
    simp only at h hl
    rcases hn : NewBlockNode CalcWork blk.toBlockHeader (c.index.GetNode blk.PreviousBlockHash) with
      e2 | node
    · rw [hn] at h
      simp only [Prod.mk.injEq] at h
      rw [← h.1]
      exact ⟨hl, OrphanManage.Delete_sublist _ _, [], by simp, by simp⟩
    · rw [hn] at h
      simp only [Prod.mk.injEq] at h
      rw [← h.1]
      refine ⟨hl, OrphanManage.Delete_sublist _ _, [node], by simp [BlockIndex.AddNode], ?_⟩
      intro n hmem
      simp only [List.mem_singleton] at hmem
      subst hmem
      unfold NewBlockNode at hn
      split at hn
      · simp at hn
      · split at hn
        · simp only [Except.ok.injEq] at hn
          rw [← hn]
        · simp at hn
  · rw [hs] at h hl
    simp only [Prod.mk.injEq] at h hl
    rw [← h.1]
    exact ⟨hl, List.Sublist.refl _, [], by simp, by simp⟩

theorem saveBlock_SavedWith
    (hsave : ∀ st blk s, log (S.SaveBlock st blk s).1 = log st ++ [(blk, s)])
    {c c1 : Chain σ} {o : Block} {s : Option TransactionStatus} {err : Option Error}
    (ho : o ∈ c.orphanManage.orphan)
    (h : saveBlock S CalcWork c o s = (c1, err)) :
    ∃ added, SavedWith log s c c1 [(o, s)] added := by
  obtain ⟨h1, h2, added, h3, h4⟩ := saveBlock_calls S CalcWork log hsave h
  refine ⟨added, h1, ?_, h2, h3, ?_⟩
  · intro call hc
    simp only [List.mem_singleton] at hc
    subst hc
    exact ⟨rfl, ho⟩
  · intro n hn
    exact ⟨o, by simp, (h4 n hn).symm⟩

theorem saveSubBlockLoop_calls
    (hsave : ∀ st blk s, log (S.SaveBlock st blk s).1 = log st ++ [(blk, s)])
    (s : Option TransactionStatus) (recur : Chain σ → Block → Option (Chain σ × Block))
    (hrec : ∀ c b c' b', recur c b = some (c', b') →
      ∃ calls added, SavedWith log s c c' calls added) :
    ∀ (l : List bc.Hash) (c : Chain σ) (b : Block) (c' : Chain σ) (b' : Block),
      saveSubBlockLoop S CalcWork recur s l c b = some (c', b') →
      ∃ calls added, SavedWith log s c c' calls added := by
  intro l
  induction l with
  | nil =>
    intro c b c' b' h
    simp only [saveSubBlockLoop, Option.some.injEq, Prod.mk.injEq] at h
    rw [← h.1]
    exact ⟨[], [], SavedWith.refl log s c⟩
  | cons x rest ih =>
    intro c b c' b' h
    rw [saveSubBlockLoop] at h
    rcases hg : c.orphanManage.Get x with _ | o
    · rw [hg] at h
      exact ih c b c' b' h
    · rw [hg] at h
      simp only at h
      have ho := (OrphanManage.Get_some hg).1
      rcases hsb : saveBlock S CalcWork c o s with ⟨c1, _ | e⟩
      · rw [hsb] at h
        simp only at h
        obtain ⟨added1, hs1⟩ := saveBlock_SavedWith S CalcWork log hsave ho hsb
        rcases hr : recur c1 o with _ | ⟨c2, sub⟩
        · rw [hr] at h; simp at h
        · rw [hr] at h
          simp only at h
          obtain ⟨calls2, added2, hs2⟩ := hrec _ _ _ _ hr
          obtain ⟨calls3, added3, hs3⟩ := ih _ _ _ _ h
          exact ⟨_, _, (hs1.trans log hs2).trans log hs3⟩
      · rw [hsb] at h
        simp only at h
        obtain ⟨added1, hs1⟩ := saveBlock_SavedWith S CalcWork log hsave ho hsb
        obtain ⟨calls3, added3, hs3⟩ := ih _ _ _ _ h
        exact ⟨_, _, hs1.trans log hs3⟩

theorem saveSubBlock_calls
    (hsave : ∀ st blk s, log (S.SaveBlock st blk s).1 = log st ++ [(blk, s)])
    (s : Option TransactionStatus) :
    ∀ (fuel : Nat) (c : Chain σ) (b : Block) (c' : Chain σ) (b' : Block),
      saveSubBlock S CalcWork fuel c b s = some (c', b') →
      ∃ calls added, SavedWith log s c c' calls added := by
  intro fuel
  induction fuel with
  | zero => intro c b c' b' h; simp [saveSubBlock] at h
  | succ fuel ih =>
    intro c b c' b' h
    rw [saveSubBlock] at h
    rcases hg : c.orphanManage.GetPrevOrphans b.Hash with _ | l
    · rw [hg] at h
      simp only [Option.some.injEq, Prod.mk.injEq] at h
      rw [← h.1]
      exact ⟨[], [], SavedWith.refl log s c⟩
    · rw [hg] at h
      simp only at h
      exact saveSubBlockLoop_calls S CalcWork log hsave s _ (fun c1 b1 c2 b2 hr => ih c1 b1 c2 b2 hr)
        l c b c' b' h

end savedStatus

section savedStatusClaim
variable {σ : Type} (S : Store σ) (CalcWork : Nat → Nat)
variable (log : σ → List (Block × Option TransactionStatus))

theorem setState_log (hstatus : ∀ st n, log (S.SaveChainStatus st n).1 = log st)
    (c : Chain σ) (n : BlockNode) : log (setState S c n).1.store = log c.store := by
  have h := hstatus c.store n
  unfold setState
  rcases hs : S.SaveChainStatus c.store n with ⟨st, _ | e⟩
  · rw [hs] at h; exact h
  · rw [hs] at h; exact h

/-- C21: read off any log of the `store.SaveBlock` calls, a `processBlock(b, s)` call
returns and every `SaveBlock` call it made carries the status `s`, for `b` itself and for
each orphan taken from the pool; every node the call added to the index (that of `b` and
those of the promoted orphans) has the hash of a block saved that way, a pooled block
when the node is not the one of `b`. The pool keeps only the block: a block that is
parked is handled the same whatever status came with it, so that status is not the one
saved later. -/
theorem promoted_orphans_saved_with_submitted_status
    (hsave : ∀ st blk s, log (S.SaveBlock st blk s).1 = log st ++ [(blk, s)])
    (hstatus : ∀ st n, log (S.SaveChainStatus st n).1 = log st)
    (c : Chain σ) (b : Block) (s : Option TransactionStatus) :
    ∃ c' isOrphan err calls added,
      processBlock S CalcWork c b s = some (c', isOrphan, err) ∧
      log c'.store = log c.store ++ calls ∧
      (∀ call ∈ calls, call.2 = s ∧ (call.1 = b ∨ call.1 ∈ c.orphanManage.orphan)) ∧
      c'.index.index = added ++ c.index.index ∧
      (∀ n ∈ added, ∃ blk, (blk, s) ∈ calls ∧ blk.Hash = n.Hash ∧
        (n.Hash ≠ b.Hash → blk ∈ c.orphanManage.orphan)) ∧
      (c.index.GetNode b.PreviousBlockHash = none →
        ∀ s', processBlock S CalcWork c b s' = processBlock S CalcWork c b s) := by
  have hparked : c.index.GetNode b.PreviousBlockHash = none →
      ∀ s', processBlock S CalcWork c b s' = processBlock S CalcWork c b s := by
    intro hp s'
    by_cases hk : c.BlockExist b.Hash = true
    · rw [processBlock_known S CalcWork c b s' hk, processBlock_known S CalcWork c b s hk]
    · simp only [Bool.not_eq_true] at hk
      rw [processBlock_orphan S CalcWork c b s' hk hp, processBlock_orphan S CalcWork c b s hk hp]
  have hfinish : ∀ (c' : Chain σ) (calls : List (Block × Option TransactionStatus))
      (added : List BlockNode),
      log c'.store = log c.store ++ calls →
      (∀ call ∈ calls, call.2 = s ∧ (call.1 = b ∨ call.1 ∈ c.orphanManage.orphan)) →
      c'.index.index = added ++ c.index.index →
      (∀ n ∈ added, ∃ blk, (blk, s) ∈ calls ∧ blk.Hash = n.Hash) →
      log c'.store = log c.store ++ calls ∧
        (∀ call ∈ calls, call.2 = s ∧ (call.1 = b ∨ call.1 ∈ c.orphanManage.orphan)) ∧
        c'.index.index = added ++ c.index.index ∧
        (∀ n ∈ added, ∃ blk, (blk, s) ∈ calls ∧ blk.Hash = n.Hash ∧
          (n.Hash ≠ b.Hash → blk ∈ c.orphanManage.orphan)) ∧
        (c.index.GetNode b.PreviousBlockHash = none →
          ∀ s', processBlock S CalcWork c b s' = processBlock S CalcWork c b s) := by
    intro c' calls added h2 h3 h4 h5
    refine ⟨h2, h3, h4, ?_, hparked⟩
    intro n hn
    obtain ⟨blk, hb, hh⟩ := h5 n hn
    refine ⟨blk, hb, hh, ?_⟩
    intro hne
    rcases (h3 _ hb).2 with heq | hmem
    · exact absurd (by rw [← hh]; exact congrArg (fun x => x.Hash) heq) hne
    · exact hmem
  clear hparked
  by_cases hk : c.BlockExist b.Hash = true
  · exact ⟨_, _, _, [], [], processBlock_known S CalcWork c b s hk,
      hfinish _ [] [] (by simp) (by simp) (by simp) (by simp)⟩
  · simp only [Bool.not_eq_true] at hk
    by_cases hp : c.index.GetNode b.PreviousBlockHash = none
    · exact ⟨_, _, _, [], [], processBlock_orphan S CalcWork c b s hk hp,
        hfinish _ [] [] (by simp) (by simp) (by simp) (by simp)⟩
    · obtain ⟨p, hp⟩ := Option.ne_none_iff_exists'.mp hp
      rcases hsb : saveBlock S CalcWork c b s with ⟨c1, _ | e⟩
      · obtain ⟨hl1, hsub1, added1, hidx1, hadd1⟩ := saveBlock_calls S CalcWork log hsave hsb
        obtain ⟨c2, best, cand, added', hrun, -, -, -, hres⟩ :=
          processBlock_saved S CalcWork (fun _ => False) (fun _ _ _ h => h.elim) c b s c1 hk hsb
        obtain ⟨calls2, added2, g1, g2, g3, g4, g5⟩ :=
          saveSubBlock_calls S CalcWork log hsave s _ c1 b c2 best hrun
        have hcalls : ∀ call ∈ (b, s) :: calls2,
            call.2 = s ∧ (call.1 = b ∨ call.1 ∈ c.orphanManage.orphan) := by
          intro call hc
          rcases List.mem_cons.mp hc with hc | hc
          · subst hc; exact ⟨rfl, Or.inl rfl⟩
          · exact ⟨(g2 call hc).1, Or.inr (hsub1.subset (g2 call hc).2)⟩
        have hadded : ∀ n ∈ added2 ++ added1, ∃ blk, (blk, s) ∈ (b, s) :: calls2 ∧
            blk.Hash = n.Hash := by
          intro n hn
          rcases List.mem_append.mp hn with hn | hn
          · obtain ⟨blk, hb, hh⟩ := g5 n hn
            exact ⟨blk, List.mem_cons_of_mem _ hb, hh⟩
          · exact ⟨b, List.mem_cons_self _ _, (hadd1 n hn).symm⟩
        have hlog2 : log c2.store = log c.store ++ (b, s) :: calls2 := by
          rw [g1, hl1]; simp
        have hidx2 : c2.index.index = (added2 ++ added1) ++ c.index.index := by
          rw [g4, hidx1, List.append_assoc]
        by_cases hcond : cand.Parent = some c.bestNode.Hash ∨
            (cand.Height > c.bestNode.Height ∧ cand.WorkSum ≥ c.bestNode.WorkSum)
        · rw [if_pos hcond] at hres
          refine ⟨_, _, _, (b, s) :: calls2, added2 ++ added1, hres,
            hfinish _ _ _ ?_ hcalls ?_ hadded⟩
          · rw [setState_log S log hstatus, hlog2]
          · rw [(setState_index S c2 cand).1, hidx2]
        · rw [if_neg hcond] at hres
          exact ⟨_, _, _, (b, s) :: calls2, added2 ++ added1, hres,
            hfinish _ _ _ hlog2 hcalls hidx2 hadded⟩
      · obtain ⟨hl1, -, added1, hidx1, hadd1⟩ := saveBlock_calls S CalcWork log hsave hsb
        refine ⟨_, _, _, [(b, s)], added1,
          processBlock_unsaved S CalcWork c c1 b s e p hk hp hsb, hfinish _ _ _ hl1 ?_ hidx1 ?_⟩
        · intro call hc
          simp only [List.mem_singleton] at hc
          subst hc
          exact ⟨rfl, Or.inl rfl⟩
        · intro n hn
          exact ⟨b, by simp, (hadd1 n hn).symm⟩

theorem promoted_orphans_saved_with_submitted_status_witness :
    (∀ st blk s, (recordingStore.SaveBlock st blk s).1 = st ++ [(blk, s)]) ∧
      (∀ st n, (recordingStore.SaveChainStatus st n).1 = st) ∧
      processBlock recordingStore bitsWork recordedGenesis (mkBlock 102 2 101)
          (some leafStatus) = some (recordedParked, true, none) ∧
      (processBlock recordingStore bitsWork recordedParked (mkBlock 101 1 100) none).map
          (fun r => r.1.store) =
        some [(mkBlock 101 1 100, none), (mkBlock 102 2 101, none)] ∧
      ∃ c' isOrphan err calls added,
        processBlock recordingStore bitsWork recordedParked (mkBlock 101 1 100) none =
          some (c', isOrphan, err) ∧
        c'.store = recordedParked.store ++ calls ∧
        (∀ call ∈ calls, call.2 = none ∧
          (call.1 = mkBlock 101 1 100 ∨ call.1 ∈ recordedParked.orphanManage.orphan)) ∧
        c'.index.index = added ++ recordedParked.index.index ∧
        (∀ n ∈ added, ∃ blk, (blk, none) ∈ calls ∧ blk.Hash = n.Hash ∧
          (n.Hash ≠ (mkBlock 101 1 100).Hash → blk ∈ recordedParked.orphanManage.orphan)) ∧
        (recordedParked.index.GetNode (mkBlock 101 1 100).PreviousBlockHash = none →
          ∀ s', processBlock recordingStore bitsWork recordedParked (mkBlock 101 1 100) s' =
            processBlock recordingStore bitsWork recordedParked (mkBlock 101 1 100) none) :=
  ⟨fun _ _ _ => rfl, fun _ _ => rfl, by decide, by decide,
    promoted_orphans_saved_with_submitted_status recordingStore bitsWork id
      (fun _ _ _ => rfl) (fun _ _ => rfl) recordedParked (mkBlock 101 1 100) none⟩

end savedStatusClaim

section headerShapes
variable {κ : Type} (A : ChainAPI κ) (V : Validators) (checkpoints : List Checkpoint)

theorem appendHeaders_ok :
    ∀ (headers headerList l : List BlockHeader),
      appendHeaders headerList headers = some (l, none) → l = headerList ++ headers := by
  intro headers
  induction headers with
  | nil =>
    intro headerList l h
    simp only [appendHeaders, Option.some.injEq, Prod.mk.injEq, and_true] at h
    rw [← h]; simp
  | cons header rest ih =>
    intro headerList l h
    rw [appendHeaders] at h
    rcases hlast : headerList.getLast? with _ | prevHeader
    · rw [hlast] at h; simp at h
    · rw [hlast] at h
      simp only at h
      by_cases hne : prevHeader.Hash ≠ header.PreviousBlockHash
      · rw [if_pos hne] at h; simp at h
      · rw [if_neg hne] at h
        rw [ih _ _ h]; simp

theorem appendHeaders_ne_none :
    ∀ (headers headerList : List BlockHeader), headerList ≠ [] →
      appendHeaders headerList headers ≠ none := by
  intro headers
  induction headers with
  | nil => intro headerList _; simp [appendHeaders]
  | cons header rest ih =>
    intro headerList hne
    rw [appendHeaders]
    rcases hlast : headerList.getLast? with _ | prevHeader
    · exact absurd (List.getLast?_eq_none_iff.mp hlast) hne
    · simp only
      split
      · simp
      · exact ih _ (by simp)

theorem headerStep_again_shape {checkPoint : Checkpoint} {bk bk1 : blockKeeper κ}
    (h : headerStep checkPoint bk = (bk1, Step.again)) :
    ∃ batch, bk.headersReplies = Reply.ok batch :: bk1.headersReplies ∧
      bk1.headerList = bk.headerList ++ batch ∧ bk.headerList ≠ [] ∧
      appendHeaders bk.headerList batch = some (bk1.headerList, none) := by
  unfold headerStep at h
  rcases hl : bk.headerList.getLast? with _ | lastHeader
  · rw [hl] at h; simp at h
  · rw [hl] at h
    have hne : bk.headerList ≠ [] := by
      intro hnil
      rw [hnil] at hl
      simp at hl
    simp only at h
    split at h
    · simp at h
    · split at h
      · simp at h
      · unfold requireHeaders at h
        rcases hr : bk.headersReplies with _ | ⟨r, rest⟩
        · rw [hr] at h; simp at h
        · rw [hr] at h
          cases r with
          | dropped => simp at h
          | timeout => simp at h
          | ok headers =>
            simp only at h
            split at h
            · simp at h
            · unfold appendHeaderList at h
              simp only at h
              rcases ha : appendHeaders bk.headerList headers with _ | ⟨l, _ | e⟩
              · rw [ha] at h; simp at h
              · rw [ha] at h
                simp only [Prod.mk.injEq, and_true] at h
                rw [← h]
                exact ⟨headers, rfl, appendHeaders_ok _ _ _ ha, hne, ha⟩
              · rw [ha] at h; simp at h

theorem headerStep_leave_shape {checkPoint : Checkpoint} {bk bk1 : blockKeeper κ}
    (h : headerStep checkPoint bk = (bk1, Step.leave)) :
    ∃ last, bk.headerList.getLast? = some last ∧ last.Hash = checkPoint.Hash := by
  unfold headerStep at h
  rcases hl : bk.headerList.getLast? with _ | lastHeader
  · rw [hl] at h; simp at h
  · rw [hl] at h
    simp only at h
    split at h
    · rename_i hh
      exact ⟨lastHeader, rfl, hh⟩
    · split at h
      · simp at h
      · rcases hr : requireHeaders bk [lastHeader.Hash] checkPoint.Hash with ⟨bk2, e | headers⟩
        · rw [hr] at h; simp at h
        · rw [hr] at h
          simp only at h
          split at h
          · simp at h
          · rcases ha : appendHeaderList bk2 headers with _ | ⟨bk3, _ | e⟩
            · rw [ha] at h; simp at h
            · rw [ha] at h; simp at h
            · rw [ha] at h; simp at h

/-- A pass of the header loop that ends the run either panics on an empty list, or
returns one of the errors of the loop: `errPeerMisbehave` wrapped, `errAppendHeaders`,
`errPeerDropped` or the request timeout. -/
theorem headerStep_stop_shape {checkPoint : Checkpoint} {bk bk1 : blockKeeper κ} {o : Outcome}
    (h : headerStep checkPoint bk = (bk1, Step.stop o)) :
    (o = Outcome.panic ∧ bk.headerList = [] ∧ bk1 = bk) ∨
      ∃ err, o = Outcome.returned (some err) ∧
        (err.Root = Error.errPeerMisbehave ∨ err = Error.errAppendHeaders ∨
          err = Error.errPeerDropped ∨ err.Root = Error.errRequestTimeout) := by
  unfold headerStep at h
  rcases hl : bk.headerList.getLast? with _ | lastHeader
  · rw [hl] at h
    simp only [Prod.mk.injEq, Step.stop.injEq] at h
    exact Or.inl ⟨h.2.symm, List.getLast?_eq_none_iff.mp hl, h.1.symm⟩
  · rw [hl] at h
    have hne : bk.headerList ≠ [] := by
      intro hnil
      rw [hnil] at hl
      simp at hl
    simp only at h
    split at h
    · simp at h
    · split at h
      · simp only [Prod.mk.injEq, Step.stop.injEq] at h
        exact Or.inr ⟨_, h.2.symm, Or.inl rfl⟩
      · unfold requireHeaders at h
        rcases hr : bk.headersReplies with _ | ⟨r, rest⟩
        · rw [hr] at h
          simp only [Prod.mk.injEq, Step.stop.injEq] at h
          exact Or.inr ⟨_, h.2.symm, Or.inr (Or.inr (Or.inr rfl))⟩
        · rw [hr] at h
          cases r with
          | dropped =>
            simp only [Prod.mk.injEq, Step.stop.injEq] at h
            exact Or.inr ⟨_, h.2.symm, Or.inr (Or.inr (Or.inl rfl))⟩
          | timeout =>
            simp only [Prod.mk.injEq, Step.stop.injEq] at h
            exact Or.inr ⟨_, h.2.symm, Or.inr (Or.inr (Or.inr rfl))⟩
          | ok headers =>
            simp only at h
            split at h
            · simp only [Prod.mk.injEq, Step.stop.injEq] at h
              exact Or.inr ⟨_, h.2.symm, Or.inl rfl⟩
            · unfold appendHeaderList at h
              simp only at h
              rcases ha : appendHeaders bk.headerList headers with _ | ⟨l, _ | e⟩
              · exact absurd ha (appendHeaders_ne_none _ _ hne)
              · rw [ha] at h; simp at h
              · rw [ha] at h
                simp only [Prod.mk.injEq, Step.stop.injEq] at h
                have he := (appendHeaders_error headers bk.headerList l e ha).1
                exact Or.inr ⟨_, h.2.symm, Or.inr (Or.inl he)⟩

end headerShapes

section branchWalk

theorem chain_mem_cases {R : BlockHeader → BlockHeader → Prop} :
    ∀ (l : List BlockHeader) (b : BlockHeader), List.Chain' R l → b ∈ l →
      l.head? = some b ∨ ∃ a ∈ l, R a b := by
  intro l
  induction l with
  | nil => intro b _ hb; simp at hb
  | cons c t ih =>
    intro b hc hb
    rcases List.mem_cons.mp hb with hbc | hbt
    · left; simp [hbc]
    · right
      rcases ih b hc.tail hbt with hhead | ⟨a, ha, hab⟩
      · cases t with
        | nil => simp at hbt
        | cons d t' =>
          simp only [List.head?_cons, Option.some.injEq] at hhead
          subst hhead
          exact ⟨c, by simp, (List.chain'_cons.mp hc).1⟩
      · exact ⟨a, List.mem_cons_of_mem _ ha, hab⟩

/-- On the branch of a checkpoint, with collision-free hashes and nothing before its
first header, the header a branch header names as previous block is the branch header
before it, which lies lower. -/
theorem branch_parent (U branch : List BlockHeader)
    (hinj : CollisionFree U)
    (hchain : List.Chain' (fun a b => b.PreviousBlockHash = a.Hash ∧ a.Height < b.Height) branch)
    (hbranchU : ∀ h ∈ branch, h ∈ U)
    (hroot : ∀ r, branch.head? = some r → ∀ h ∈ U, h.Hash ≠ r.PreviousBlockHash)
    (a b : BlockHeader) (hb : b ∈ branch) (ha : a ∈ U) (hprev : b.PreviousBlockHash = a.Hash) :
    a ∈ branch ∧ a.Height < b.Height := by
  rcases chain_mem_cases branch b hchain hb with hhead | ⟨a', ha', hrel⟩
  · exact absurd hprev.symm (hroot b hhead a ha)
  · have : a = a' := hinj a ha a' (hbranchU a' ha') (hprev.symm.trans hrel.1)
    rw [this]
    exact ⟨ha', hrel.2⟩

/-- A chained list of headers that ends on the branch of a checkpoint lies on the
branch, every header but the last one lower than the last. -/
theorem chained_on_branch (U branch : List BlockHeader)
    (hinj : CollisionFree U)
    (hchain : List.Chain' (fun a b => b.PreviousBlockHash = a.Hash ∧ a.Height < b.Height) branch)
    (hbranchU : ∀ h ∈ branch, h ∈ U)
    (hroot : ∀ r, branch.head? = some r → ∀ h ∈ U, h.Hash ≠ r.PreviousBlockHash) :
    ∀ (l : List BlockHeader) (last : BlockHeader), Chained l → (∀ h ∈ l, h ∈ U) →
      l.getLast? = some last → last ∈ branch →
      ∀ x ∈ l, x ∈ branch ∧ (x = last ∨ x.Height < last.Height) := by
  intro l
  induction l with
  | nil => intro last _ _ _ _ x hx; simp at hx
  | cons a t ih =>
    intro last hc hU hlast hlb x hx
    cases t with
    | nil =>
      simp only [List.getLast?_singleton, Option.some.injEq] at hlast
      simp only [List.mem_singleton] at hx
      rw [hx, hlast]
      exact ⟨hlb, Or.inl rfl⟩
    | cons b t' =>
      have hc' : Chained (b :: t') := List.Chain'.tail hc
      have hlast' : (b :: t').getLast? = some last := by
        rw [List.getLast?_cons_cons] at hlast
        exact hlast
      have hrest := ih last hc' (fun h hh => hU h (List.mem_cons_of_mem _ hh)) hlast' hlb
      rcases List.mem_cons.mp hx with hxa | hxt
      · have hb := hrest b (by simp)
        have hab : b.PreviousBlockHash = a.Hash := (List.chain'_cons.mp hc).1
        have hpar := branch_parent U branch hinj hchain hbranchU hroot a b hb.1
          (hU a (by simp)) hab
        rw [hxa]
        refine ⟨hpar.1, Or.inr ?_⟩
        rcases hb.2 with heq | hlt
        · rw [← heq]; exact hpar.2
        · exact lt_trans hpar.2 hlt
      · exact hrest x hxt

end branchWalk

section receivedHeaders
variable {κ : Type} (A : ChainAPI κ) (V : Validators) (checkpoints : List Checkpoint)

/-- When the header loop leaves for the body loop, every header of the replies it took
from the peer is in the header list, and the list is chained and ends with a header that
carries the hash of the checkpoint. -/
theorem headerLoop_leave_received (checkPoint : Checkpoint) (U : List BlockHeader) :
    ∀ (fuel : Nat) (bk0 : blockKeeper κ), Chained bk0.headerList →
      (∀ h ∈ bk0.headerList, h ∈ U) →
      (∀ batch, Reply.ok batch ∈ bk0.headersReplies → ∀ h ∈ batch, h ∈ U) →
      (headerLoop checkPoint fuel bk0).2 = Step.leave →
      ∃ consumed last,
        bk0.headersReplies = consumed ++ (headerLoop checkPoint fuel bk0).1.headersReplies ∧
        (∀ batch, Reply.ok batch ∈ consumed →
          ∀ h ∈ batch, h ∈ (headerLoop checkPoint fuel bk0).1.headerList) ∧
        Chained (headerLoop checkPoint fuel bk0).1.headerList ∧
        (∀ h ∈ (headerLoop checkPoint fuel bk0).1.headerList, h ∈ U) ∧
        (headerLoop checkPoint fuel bk0).1.headerList.getLast? = some last ∧
        last.Hash = checkPoint.Hash := by
  intro fuel
  induction fuel with
  | zero => intro bk0 _ _ _ h; simp [headerLoop] at h
  | succ fuel ih =>
    intro bk0 hc hU hrep hleave
    rw [headerLoop] at hleave ⊢
    rcases hstep : headerStep checkPoint bk0 with ⟨bk1, _ | _ | o⟩
    · rw [hstep] at hleave
      simp only at hleave ⊢
      obtain ⟨batch, hreplies, hlist, -, happ⟩ := headerStep_again_shape hstep
      have hbatchU : ∀ h ∈ batch, h ∈ U :=
        hrep batch (by rw [hreplies]; exact List.mem_cons_self _ _)
      have hc1 : Chained bk1.headerList := appendHeaders_chained _ _ _ _ hc happ
      have hU1 : ∀ h ∈ bk1.headerList, h ∈ U := by
        intro h hh
        rw [hlist] at hh
        rcases List.mem_append.mp hh with hh | hh
        · exact hU h hh
        · exact hbatchU h hh
      have hrep1 : ∀ b, Reply.ok b ∈ bk1.headersReplies → ∀ h ∈ b, h ∈ U := by
        intro b hb
        exact hrep b (by rw [hreplies]; exact List.mem_cons_of_mem _ hb)
      obtain ⟨consumed, last, g1, g2, g3, g4, g5, g6⟩ := ih bk1 hc1 hU1 hrep1 hleave
      refine ⟨Reply.ok batch :: consumed, last, ?_, ?_, g3, g4, g5, g6⟩
      · rw [hreplies, List.cons_append, ← g1]
      · intro b hb h hh
        rcases List.mem_cons.mp hb with hb | hb
        · simp only [Reply.ok.injEq] at hb
          subst hb
          have hpre := (headerLoop_keeps checkPoint fuel bk1).2
          exact hpre.subset (by rw [hlist]; exact List.mem_append_right _ hh)
        · exact g2 b hb h hh
    · simp only
      obtain ⟨last, hl, hh⟩ := headerStep_leave_shape hstep
      have hbk := headerStep_leave hstep
      subst hbk
      exact ⟨[], last, by simp, by simp, hc, hU, hl, hh⟩
    · rw [hstep] at hleave
      simp at hleave

theorem bodyStep_headersReplies (checkPoint : Checkpoint) (bk : blockKeeper κ)
    (fastHeader : List BlockHeader) :
    (bodyStep A V checkPoint bk fastHeader).1.headersReplies = bk.headersReplies := by
  unfold bodyStep
  by_cases hcond : A.BestBlockHeight bk.chain ≤ checkPoint.Height
  · rw [if_pos hcond]
    rcases (if A.BestBlockHeight bk.chain = 0 then fastHeader.tail else fastHeader) with
      _ | ⟨header, next⟩
    · rfl
    · simp only
      have hreq : (requireMerkleBlock bk header.Height (some header.Hash)).1.headersReplies =
          bk.headersReplies := by
        unfold requireMerkleBlock
        rcases bk.merkleReplies with _ | ⟨r, rest⟩
        · rfl
        · cases r <;> rfl
      rcases hr : requireMerkleBlock bk header.Height (some header.Hash) with
        ⟨bk1, e | merkleBlock⟩
      · rw [hr] at hreq; exact hreq
      · rw [hr] at hreq
        simp only at hreq ⊢
        rcases VerifyBlockHeader header merkleBlock with _ | e
        · simp only
          rcases VerifyMerkleBlock V merkleBlock with e | txStatus
          · exact hreq
          · simp only
            by_cases hh : merkleBlock.Hash ≠ header.Hash
            · rw [if_pos hh]; exact hreq
            · rw [if_neg hh]
              rcases A.CalcNextSeed bk1.chain merkleBlock.PreviousBlockHash with e | seed
              · exact hreq
              · simp only
                have hp : (ProcessMerkleBlock A bk1 merkleBlock txStatus).1.headersReplies =
                    bk1.headersReplies := by
                  unfold ProcessMerkleBlock
                  rfl
                rcases hpr : ProcessMerkleBlock A bk1 merkleBlock txStatus with
                  ⟨bk2, isOrphan, _ | e⟩
                · rw [hpr] at hp
                  simp only at hp ⊢
                  cases next <;> exact hp.trans hreq
                · rw [hpr] at hp
                  exact hp.trans hreq
        · exact hreq
  · rw [if_neg hcond]

theorem bodyLoop_headersReplies (checkPoint : Checkpoint) :
    ∀ (fuel : Nat) (bk : blockKeeper κ) (fastHeader : List BlockHeader),
      (bodyLoop A V checkPoint fuel bk fastHeader).1.headersReplies = bk.headersReplies := by
  intro fuel
  induction fuel with
  | zero => intro bk fastHeader; rfl
  | succ fuel ih =>
    intro bk fastHeader
    rw [bodyLoop_succ]
    have hs := bodyStep_headersReplies A V checkPoint bk fastHeader
    rcases hstep : bodyStep A V checkPoint bk fastHeader with ⟨bk1, next, _ | _ | o⟩
    · rw [hstep] at hs
      simp only at hs ⊢
      exact (ih bk1 next).trans hs
    · rw [hstep] at hs; exact hs
    · rw [hstep] at hs; exact hs

end receivedHeaders

section offBranch
variable {κ : Type} (A : ChainAPI κ) (V : Validators) (checkpoints : List Checkpoint)

/-- A header loop that ends the run ran out of fuel, or panicked at once on an empty
list, or returned one of the errors of the loop. -/
theorem headerLoop_stop_shape (checkPoint : Checkpoint) :
    ∀ (fuel : Nat) (bk0 bk1 : blockKeeper κ) (o : Outcome),
      headerLoop checkPoint fuel bk0 = (bk1, Step.stop o) →
      o = Outcome.unfinished ∨ (o = Outcome.panic ∧ bk0.headerList = [] ∧ bk1 = bk0) ∨
        ∃ err, o = Outcome.returned (some err) ∧
          (err.Root = Error.errPeerMisbehave ∨ err = Error.errAppendHeaders ∨
            err = Error.errPeerDropped ∨ err.Root = Error.errRequestTimeout) := by
  intro fuel
  induction fuel with
  | zero =>
    intro bk0 bk1 o h
    simp only [headerLoop, Prod.mk.injEq, Step.stop.injEq] at h
    exact Or.inl h.2.symm
  | succ fuel ih =>
    intro bk0 bk1 o h
    rw [headerLoop] at h
    rcases hstep : headerStep checkPoint bk0 with ⟨bk2, _ | _ | o2⟩
    · rw [hstep] at h
      simp only at h
      obtain ⟨batch, -, hlist, hne, -⟩ := headerStep_again_shape hstep
      rcases ih bk2 bk1 o h with hu | ⟨-, hnil, -⟩ | herr
      · exact Or.inl hu
      · rw [hlist] at hnil
        exact absurd (List.append_eq_nil.mp hnil).1 hne
      · exact Or.inr (Or.inr herr)
    · rw [hstep] at h
      simp at h
    · rw [hstep] at h
      simp only [Prod.mk.injEq, Step.stop.injEq] at h
      rw [h.1, h.2] at hstep
      rcases headerStep_stop_shape hstep with hp | herr
      · exact Or.inr (Or.inl hp)
      · exact Or.inr (Or.inr herr)

/-- C8 (amended): let header hashes be collision-free and the checkpoint be the header
at its height on a chain of headers rising from genesis, and let the peer deliver, among
the header replies that a run of `fastBlockSync` toward the checkpoint takes, a header
of height at least the checkpoint height whose hash is not the checkpoint hash. Then the
run submits no block to the chain and returns an error of the header loop:
`errPeerMisbehave` wrapped, `errAppendHeaders`, `errPeerDropped` or the request timeout.
It is `errPeerMisbehave` wrapped whenever that header is the last of the list at a test
of the loop. -/
theorem fastBlockSync_off_checkpoint_branch (checkPoint : Checkpoint) (bk : blockKeeper κ)
    (fuel : Nat) (U branch : List BlockHeader) (consumed : List (Reply (List BlockHeader)))
    (batch : List BlockHeader) (x : BlockHeader)
    (hinj : CollisionFree U)
    (hbranch : CheckpointBranch checkPoint branch)
    (hbranchU : ∀ h ∈ branch, h ∈ U)
    (hroot : ∀ r, branch.head? = some r → ∀ h ∈ U, h.Hash ≠ r.PreviousBlockHash)
    (hbest : A.BestBlockHeader bk.chain ∈ U)
    (hreplies : ∀ b, Reply.ok b ∈ bk.headersReplies → ∀ h ∈ b, h ∈ U)
    (hconsumed : bk.headersReplies =
      consumed ++ (fastBlockSync A V checkpoints fuel checkPoint bk).1.headersReplies)
    (hbatch : Reply.ok batch ∈ consumed) (hx : x ∈ batch)
    (hheight : x.Height ≥ checkPoint.Height) (hhash : x.Hash ≠ checkPoint.Hash)
    (hfuel : bk.headersReplies.length < fuel) :
    (∃ err, (fastBlockSync A V checkpoints fuel checkPoint bk).2 = Outcome.returned (some err) ∧
        (err.Root = Error.errPeerMisbehave ∨ err = Error.errAppendHeaders ∨
          err = Error.errPeerDropped ∨ err.Root = Error.errRequestTimeout)) ∧
      (fastBlockSync A V checkpoints fuel checkPoint bk).1.submitted = bk.submitted ∧
      (∀ k bk', headerPasses checkPoint k (resetHeaderState A checkpoints bk) = some bk' →
        bk'.headerList.getLast? = some x → k < fuel →
        fastBlockSync A V checkpoints fuel checkPoint bk =
          (bk', Outcome.returned
            (some (Error.wrap Error.errPeerMisbehave "peer is not in the checkpoint branch")))) := by
  have hreset : (resetHeaderState A checkpoints bk).headersReplies = bk.headersReplies ∧
      (∀ h ∈ (resetHeaderState A checkpoints bk).headerList, h ∈ U) ∧
      Chained (resetHeaderState A checkpoints bk).headerList := by
    unfold resetHeaderState Chained
    simp only
    split
    · exact ⟨rfl, by simpa using hbest, by simp⟩
    · exact ⟨rfl, by simp, by simp⟩
  have hlast : ∀ k bk', headerPasses checkPoint k (resetHeaderState A checkpoints bk) = some bk' →
      bk'.headerList.getLast? = some x → k < fuel →
      fastBlockSync A V checkpoints fuel checkPoint bk =
        (bk', Outcome.returned
          (some (Error.wrap Error.errPeerMisbehave "peer is not in the checkpoint branch"))) := by
    intro k bk' hreach hl hk
    obtain ⟨m, rfl⟩ : ∃ m, fuel = k + (m + 1) := ⟨fuel - k - 1, by omega⟩
    have hstep : headerStep checkPoint bk' =
        (bk', Step.stop (Outcome.returned
          (some (Error.wrap Error.errPeerMisbehave "peer is not in the checkpoint branch")))) := by
      unfold headerStep
      rw [hl]
      simp only
      rw [if_neg hhash, if_pos hheight]
    unfold fastBlockSync
    rw [headerLoop_of_passes checkPoint k _ bk' hreach (m + 1), headerLoop, hstep]
  obtain ⟨f1, f2, -⟩ := headerLoop_finishes checkPoint fuel (resetHeaderState A checkpoints bk)
    (by rw [hreset.1]; exact hfuel)
  have hlogs := headerLoop_logs checkPoint fuel (resetHeaderState A checkpoints bk)
  have hleave := headerLoop_leave_received checkPoint U fuel (resetHeaderState A checkpoints bk)
    hreset.2.2 hreset.2.1 (by rw [hreset.1]; exact hreplies)
  have hstop := headerLoop_stop_shape checkPoint fuel (resetHeaderState A checkpoints bk)
  -- the header loop ends the run: it cannot leave for the body loop
  have hends : ∃ bk1 err,
      headerLoop checkPoint fuel (resetHeaderState A checkpoints bk) =
        (bk1, Step.stop (Outcome.returned (some err))) ∧
      (err.Root = Error.errPeerMisbehave ∨ err = Error.errAppendHeaders ∨
        err = Error.errPeerDropped ∨ err.Root = Error.errRequestTimeout) := by
    unfold fastBlockSync at hconsumed
    rcases hloop : headerLoop checkPoint fuel (resetHeaderState A checkpoints bk) with
      ⟨bk1, _ | _ | o⟩
    all_goals rw [hloop] at hconsumed f1 f2 hleave
    all_goals simp only at hconsumed f1 f2 hleave
    · exact absurd rfl f2
    · exfalso
      obtain ⟨consumed', last, g1, g2, g3, g4, g5, g6⟩ := hleave trivial
      rw [bodyLoop_headersReplies, ← hreset.1] at hconsumed
      have hsame : consumed = consumed' := List.append_cancel_right (hconsumed.symm.trans g1)
      have hxl : x ∈ bk1.headerList := g2 batch (by rw [← hsame]; exact hbatch) x hx
      obtain ⟨hchain, cpHeader, hcl, hch, hcH⟩ := hbranch
      have hcb : cpHeader ∈ branch := List.mem_of_mem_getLast? hcl
      have hlU : last ∈ U := g4 last (List.mem_of_mem_getLast? g5)
      have hlc : last = cpHeader := hinj last hlU cpHeader (hbranchU _ hcb) (g6.trans hch.symm)
      rcases (chained_on_branch U branch hinj hchain hbranchU hroot bk1.headerList last g3 g4 g5
        (by rw [hlc]; exact hcb) x hxl).2 with heq | hlt
      · exact hhash (by rw [heq]; exact g6)
      · rw [hlc, hcH] at hlt
        omega
    · rcases hstop bk1 o hloop with hu | ⟨-, -, hsame⟩ | ⟨err, he, hkind⟩
      · exact absurd (by rw [hu]) f1
      · exfalso
        rw [hsame, hreset.1] at hconsumed
        have hnil : consumed = [] := by
          have := congrArg List.length hconsumed
          simp only [List.length_append] at this
          exact List.eq_nil_of_length_eq_zero (by omega)
        rw [hnil] at hbatch
        simp at hbatch
      · exact ⟨bk1, err, by rw [he], hkind⟩
  obtain ⟨bk1, err, hloop, hkind⟩ := hends
  have hrun : fastBlockSync A V checkpoints fuel checkPoint bk =
      (bk1, Outcome.returned (some err)) := by
    unfold fastBlockSync
    rw [hloop]
  refine ⟨⟨err, by rw [hrun], hkind⟩, ?_, hlast⟩
  rw [hrun]
  rw [hloop] at hlogs
  exact hlogs.1.trans (resetHeaderState_logs A checkpoints bk).1

end offBranch

section offBranchExamples

theorem fastBlockSync_off_checkpoint_branch_witness :
    CollisionFree (mkHeader 109 2 100 :: branch102) ∧
      CheckpointBranch checkpoint102 branch102 ∧
      tipChain.BestBlockHeader wrongTipKeeper.chain ∈ mkHeader 109 2 100 :: branch102 ∧
      wrongTipKeeper.headersReplies = [Reply.ok [mkHeader 109 2 100]] ++
        (fastBlockSync tipChain leafValidators [checkpoint102] 3 checkpoint102
          wrongTipKeeper).1.headersReplies ∧
      (mkHeader 109 2 100).Height ≥ checkpoint102.Height ∧
      (mkHeader 109 2 100).Hash ≠ checkpoint102.Hash ∧
      (∃ err, (fastBlockSync tipChain leafValidators [checkpoint102] 3 checkpoint102
            wrongTipKeeper).2 = Outcome.returned (some err) ∧
          (err.Root = Error.errPeerMisbehave ∨ err = Error.errAppendHeaders ∨
            err = Error.errPeerDropped ∨ err.Root = Error.errRequestTimeout)) ∧
      (fastBlockSync tipChain leafValidators [checkpoint102] 3 checkpoint102
        wrongTipKeeper).1.submitted = wrongTipKeeper.submitted ∧
      fastBlockSync tipChain leafValidators [checkpoint102] 3 checkpoint102 wrongTipKeeper =
        ({ wrongTipKeeper with
            headerList := [mkHeader 100 0 0, mkHeader 109 2 100], headersReplies := [] },
          Outcome.returned
            (some (Error.wrap Error.errPeerMisbehave "peer is not in the checkpoint branch"))) :=
  have h := fastBlockSync_off_checkpoint_branch tipChain leafValidators [checkpoint102]
    checkpoint102 wrongTipKeeper 3 (mkHeader 109 2 100 :: branch102) branch102
    [Reply.ok [mkHeader 109 2 100]] [mkHeader 109 2 100] (mkHeader 109 2 100)
    (by decide) ⟨by simp [branch102, mkHeader], mkHeader 102 2 101, by decide, by decide, by decide⟩
    (by decide) (fun r hr => by
      simp only [branch102, List.head?_cons, Option.some.injEq] at hr
      subst hr
      decide)
    (by decide) (fun b hb => by
      simp only [wrongTipKeeper, List.mem_singleton, Reply.ok.injEq] at hb
      subst hb
      decide)
    (by decide) (by decide) (by decide) (by decide) (by decide) (by decide)
  ⟨by decide, ⟨by simp [branch102, mkHeader], mkHeader 102 2 101, by decide, by decide, by decide⟩, by decide,
    by decide, by decide, by decide, h.1, h.2.1,
    h.2.2 1 { wrongTipKeeper with
        headerList := [mkHeader 100 0 0, mkHeader 109 2 100], headersReplies := [] }
      (by decide) (by decide) (by decide)⟩

/-- C8 as stated fails on the kind of error. Header hashes are collision-free and the
checkpoint 102 lies at height 2 on the chain 100, 101, 102. The peer answers the header
request with header 105, of height 5 on top of genesis, followed by a header that does
not follow it: header 105 is appended, the next one is refused, and `fastBlockSync`
returns `errAppendHeaders`, which does not wrap `errPeerMisbehave`. No block is
submitted. -/
theorem fastBlockSync_checkpoint_counterexample :
    CollisionFree (mkHeader 105 5 100 :: mkHeader 106 6 999 :: branch102) ∧
      CheckpointBranch checkpoint102 branch102 ∧
      strayBatchKeeper.headersReplies = [Reply.ok [mkHeader 105 5 100, mkHeader 106 6 999]] ∧
      (mkHeader 105 5 100).Height ≥ checkpoint102.Height ∧
      (mkHeader 105 5 100).Hash ≠ checkpoint102.Hash ∧
      fastBlockSync tipChain leafValidators [checkpoint102] 3 checkpoint102 strayBatchKeeper =
        ({ strayBatchKeeper with
            headerList := [mkHeader 100 0 0, mkHeader 105 5 100], headersReplies := [] },
          Outcome.returned (some Error.errAppendHeaders)) ∧
      Error.errAppendHeaders.Root ≠ Error.errPeerMisbehave ∧
      (fastBlockSync tipChain leafValidators [checkpoint102] 3 checkpoint102
        strayBatchKeeper).1.submitted = [] :=
  ⟨by decide, ⟨by simp [branch102, mkHeader], mkHeader 102 2 101, by decide, by decide, by decide⟩, by decide,
    by decide, by decide, by decide, by decide, by decide⟩

end offBranchExamples

end Bytom
